import Mathlib

/-!
Verification of the `Grid_basic` / `Grid_factor` sparse-tree containers of the
mtools repository (`src/mtools/headers/containers/grid_basic.hpp` and
`src/mtools/headers/containers/grid_factor.hpp`).

The two headers are shallowly embedded below.  Machine integers (`int64`)
are modelled by `ℤ`; the payload type `T` is a type parameter `A` together
with its conversion `toInt : A → ℤ` (used by `Grid_factor` only) and its
positional constructor `init : Pos D → A` (covering both `T(const Pos&)`
and, as a constant function, `T()`).  Object identity of payloads (the
"address" of a `T` inside a leaf) is modelled by tagging each constructed
payload with a distinct natural number drawn from an allocation counter.

The box-tree node/leaf structures themselves (`internals_grid.hpp`) are not
part of the source tree that was provided, so their geometry (`isInBox`,
`getSubBox`, `subBoxCenter`, the leaf slot addressing) is modelled from the
specification: a leaf covers `[center-R, center+R]^D`; a node of radius
`rad` has `3^D` children at centers `center + k*(2*rad+1)` per axis with
`k ∈ {-1,0,1}`, each child covering `[childCenter - rad, childCenter + rad]^D`,
so the node itself covers `[center-(3*rad+1), center+(3*rad+1)]^D`.

The `_pcurrent` / `_pcurrentpeek` cursor fields are pure performance caches
(the walk result does not depend on the starting box on a coherent tree);
the embedded walks start from the root, which corresponds to the source's
up-phase entered at the topmost ancestor.
-/

namespace Mtools

/-- A position in `Z^D` (`iVec<D>` with `int64` coordinates). -/
abbrev Pos (D : ℕ) := Fin D → ℤ

/-- Index of one of the `3^D` children of a node: one ternary digit per axis. -/
abbrev ChildIx (D : ℕ) := Fin D → Fin 3

/-- Index of one of the `(2R+1)^D` payload slots of a leaf: one offset per axis. -/
abbrev SlotIx (D R : ℕ) := Fin D → Fin (2 * R + 1)

/-- The origin `Pos(0)`. -/
def zeroPos (D : ℕ) : Pos D := fun _ => 0

/-- Number of payload slots of a leaf: `(2R+1)^D` (`metaprog::power<(2*R+1), D>`). -/
def leafCard (D R : ℕ) : ℕ := (2 * R + 1) ^ D

/-- C++ `int64` division truncates toward zero. -/
def cppDiv (a b : ℤ) : ℤ := Int.tdiv a b

/-- Modelled from the spec: per-axis ternary digit of the sub-box of a node of
center `c` and radius `r` containing coordinate `x`.  The node covers
`[c-(3r+1), c+(3r+1)]`; its three sub-boxes per axis are
`[c-3r-1, c-r-1]`, `[c-r, c+r]`, `[c+r+1, c+3r+1]`. -/
def childIxAx (c r x : ℤ) : Fin 3 :=
  if x < c - r then 0 else if x ≤ c + r then 1 else 2

/-- Modelled from the spec: index of the sub-box of a node (center `c`,
radius `r`) containing position `p` (the index computed by `getSubBox`). -/
def childIx {D : ℕ} (c : Pos D) (r : ℤ) (p : Pos D) : ChildIx D :=
  fun i => childIxAx (c i) r (p i)

/-- Modelled from the spec: center of the sub-box of a node (center `c`,
radius `r`) with index `k` (`subBoxCenterFromIndex`): offset `k-1 ∈ {-1,0,1}`
times `2r+1` per axis. -/
def subCenter {D : ℕ} (c : Pos D) (r : ℤ) (k : ChildIx D) : Pos D :=
  fun i => c i + ((k i : ℤ) - 1) * (2 * r + 1)

/-- Modelled from the spec: center of the sub-box of a node containing `p`
(`subBoxCenter(pos)`). -/
def subCenterAt {D : ℕ} (c : Pos D) (r : ℤ) (p : Pos D) : Pos D :=
  subCenter c r (childIx c r p)

/-- Modelled from the spec: `isInBox` for a node of center `c` and radius `r`:
the node covers `[c-(3r+1), c+(3r+1)]^D`. -/
def nodeContains {D : ℕ} (c : Pos D) (r : ℤ) (p : Pos D) : Bool :=
  decide (∀ i, c i - (3 * r + 1) ≤ p i ∧ p i ≤ c i + (3 * r + 1))

/-- Modelled from the spec: `isInBox` for a leaf of center `c`: the leaf
covers `[c-R, c+R]^D`. -/
def leafContains {D : ℕ} (R : ℕ) (c : Pos D) (p : Pos D) : Bool :=
  decide (∀ i, c i - R ≤ p i ∧ p i ≤ c i + R)

/-- Modelled from the spec: the slot of a leaf of center `c` holding the
payload of position `p` (the leaf's `get(pos)` addressing); total via `%`,
meaningful when `p` lies in the leaf's box. -/
def slotIx {D : ℕ} (R : ℕ) (c : Pos D) (p : Pos D) : SlotIx D R :=
  fun i => ⟨(p i - c i + R).toNat % (2 * R + 1), Nat.mod_lt _ (by omega)⟩

/-- Modelled from the spec: the position of slot `k` of a leaf of center `c`
(inverse of `slotIx` on the leaf's box). -/
def slotPos {D R : ℕ} (c : Pos D) (k : SlotIx D R) : Pos D :=
  fun i => c i - R + (k i : ℤ)

/-- Radii produced by the tree: `radSeq 0 = R` (base node), then `3r+1`. -/
def radSeq (R : ℕ) : ℕ → ℤ
  | 0 => (R : ℤ)
  | j + 1 => 3 * radSeq R j + 1

/-- Canonical enumeration of the `3^D` child indices in the order of the
`tab[]` array (index `n` has per-axis digits `n / 3^i % 3`). -/
def childIxList (D : ℕ) : List (ChildIx D) :=
  (List.finRange (3 ^ D)).map (fun n => finFunctionFinEquiv.symm n)

/-- Canonical enumeration of the `(2R+1)^D` leaf slots in the order of the
`data[]` array (index `n` has per-axis digits `n / (2R+1)^i % (2R+1)`). -/
def slotIxList (D R : ℕ) : List (SlotIx D R) :=
  (List.finRange ((2 * R + 1) ^ D)).map (fun n => finFunctionFinEquiv.symm n)

/-- Decide a boolean property of every child of a node. -/
def allChildIx {D : ℕ} (p : ChildIx D → Bool) : Bool :=
  decide (∀ ix, p ix = true)

/-- Cast-free pointwise update of a function at one argument (assignment to
one cell of the `tab[]` / `data[]` arrays). -/
def updFn {α β : Type} [DecidableEq α] (f : α → β) (a : α) (v : β) : α → β :=
  fun x => if x = a then v else f x

/-- `std::numeric_limits<int64>::max()`. -/
def int64Max : ℤ := 9223372036854775807

/-- `std::numeric_limits<int64>::min()`. -/
def int64Min : ℤ := -9223372036854775808

section GridBasic

variable {D R : ℕ} {P : Type}

/-- The box tree of `Grid_basic` (`internals_grid::_box` / `_node` / `_leaf`):
a box pointer is null, a leaf (radius-`R` box with `(2R+1)^D` payload slots;
its stored `rad` field is the constant `1`), or a node (stored radius `rad`,
`3^D` child pointers). -/
inductive BBox (D R : ℕ) (P : Type) : Type where
  | null : BBox D R P
  | leaf (center : Pos D) (data : SlotIx D R → P) : BBox D R P
  | node (center : Pos D) (rad : ℤ) (ch : ChildIx D → BBox D R P) : BBox D R P

/-- True on real (non-null) leaves. -/
def BBox.isLeaf : BBox D R P → Bool
  | .leaf _ _ => true
  | _ => false

/-- The `rad` field of a box (leaves store `1`, as in `_allocateLeaf`). -/
def BBox.radOf : BBox D R P → ℤ
  | .null => 0
  | .leaf _ _ => 1
  | .node _ r _ => r

/-- `isInBox` of the root box. -/
def BBox.contains : BBox D R P → Pos D → Bool
  | .null, _ => false
  | .leaf c _, p => leafContains R c p
  | .node c r _, p => nodeContains c r p

/-- Read the payload stored at position `p`, following the walk of `peek`:
descend from the root along `childIx`, checking containment (`isInBox`) at
the root and reading the slot of the reached leaf.  Returns `none` when `p`
is not materialized. -/
def readPay (t : BBox D R P) (p : Pos D) : Option P :=
  match t with
  | .null => none
  | .leaf c d => if leafContains R c p then some (d (slotIx R c p)) else none
  | .node c r ch =>
      if nodeContains c r p then readPay (ch (childIx c r p)) p else none

/-- Map over payloads, keeping the tree shape. -/
def BBox.mapPay {Q : Type} (f : P → Q) : BBox D R P → BBox D R Q
  | .null => .null
  | .leaf c d => .leaf c (fun k => f (d k))
  | .node c r ch => .node c r (fun ix => (ch ix).mapPay f)

/-- True on node boxes. -/
def BBox.isNode : BBox D R P → Bool
  | .node _ _ _ => true
  | _ => false

end GridBasic

section GridBasicOps

variable {D R : ℕ} {A : Type}

/-- State of a `Grid_basic<D,T,R>`: the tree (rooted at `_pcurrent`'s topmost
ancestor), the accessed-range bounding box, the `_callDtors` flag, and the
allocation counter used to hand out payload identities (modelling the
addresses of the `T` objects). -/
structure BState (D R : ℕ) (A : Type) where
  tree : BBox D R (ℕ × A)
  nextId : ℕ
  rangemin : Pos D
  rangemax : Pos D
  callDtors : Bool

/-- The payload array of a fresh leaf (`_createDataLeaf`): slot `k` holds a
fresh object (identity `nid` + flat index of `k`) constructed by the
positional constructor at the slot's position. -/
def leafData (init : Pos D → A) (cc : Pos D) (nid : ℕ) : SlotIx D R → (ℕ × A) :=
  fun k => (nid + (finFunctionFinEquiv k : ℕ), init (slotPos cc k))

/-- A fresh leaf (`_allocateLeaf`). -/
def mkLeaf (init : Pos D → A) (cc : Pos D) (nid : ℕ) : BBox D R (ℕ × A) :=
  .leaf cc (leafData init cc nid)

/-- Wrap the root into a new root node (`_allocateNode(below)` of
`grid_basic.hpp`): the new node keeps the center, places the old root in the
middle child `(3^D-1)/2`, and has radius `R` when the old root's `rad` field
is `1`, else `3*rad+1`. -/
def growRoot : BBox D R P → BBox D R P
  | .null => .null
  | .leaf c d =>
      .node c (R : ℤ) (fun ix => if ix = fun _ => 1 then .leaf c d else .null)
  | .node c r ch =>
      .node c (if r = 1 then (R : ℤ) else 3 * r + 1)
        (fun ix => if ix = fun _ => 1 then .node c r ch else .null)

/-- The up-phase of `_get`: wrap the root (`q->father = _allocateNode(q)`)
until the tree contains `pos` (`while (!q->isInBox(pos))`), with fuel. -/
def upPhase : ℕ → BBox D R P → Pos D → Option (BBox D R P)
  | 0, t, p => if t.contains p then some t else none
  | f + 1, t, p => if t.contains p then some t else upPhase f (growRoot t) p

/-- The down-phase of `Grid_basic::_get` starting at a node containing `pos`:
follow `getSubBox(pos)`; a null slot is materialized (a leaf when
`q->rad == R`, else an intermediate node of radius `(rad-1)/3` which the walk
then enters); reaching a leaf returns its payload at `pos`.  Returns the
payload, the updated tree and the updated allocation counter. -/
def downB (init : Pos D → A) :
    ℕ → Pos D → BBox D R (ℕ × A) → ℕ →
    Option ((ℕ × A) × BBox D R (ℕ × A) × ℕ)
  | 0, _, _, _ => none
  | f + 1, p, .node c r ch, nid =>
      let k := childIx c r p
      match ch k with
      | .null =>
          if r = (R : ℤ) then
            let cc := subCenterAt c r p
            some (leafData init cc nid (slotIx R cc p),
              .node c r (updFn ch k (mkLeaf init cc nid)),
              nid + leafCard D R)
          else
            let cc := subCenterAt c r p
            (downB init f p (.node cc (cppDiv (r - 1) 3) (fun _ => .null)) nid).map
              (fun x => (x.1, .node c r (updFn ch k x.2.1), x.2.2))
      | .leaf c' d => some (d (slotIx R c' p), .node c r ch, nid)
      | .node c' r' ch' =>
          (downB init f p (.node c' r' ch') nid).map
            (fun x => (x.1, .node c r (updFn ch k x.2.1), x.2.2))
  | _ + 1, _, _, _ => none

/-- Update of `_rangemin` / `_rangemax` (`_updaterange`): per axis, if
`pos[i] < rangemin[i]` then only `rangemin` is updated, else if
`pos[i] > rangemax[i]` then `rangemax` is updated. -/
def updRange (p : Pos D) (st : BState D R A) : BState D R A :=
  { st with
    rangemin := fun i => if p i < st.rangemin i then p i else st.rangemin i,
    rangemax := fun i =>
      if p i < st.rangemin i then st.rangemax i
      else if st.rangemax i < p i then p i else st.rangemax i }

/-- `Grid_basic::_get`: update the accessed range, walk up (growing the root
as needed), then walk down materializing boxes, returning the payload at
`pos` (its identity and value) and the new state.  `none` models only fuel
exhaustion. -/
def getB (init : Pos D → A) (f : ℕ) (p : Pos D) (st : BState D R A) :
    Option ((ℕ × A) × BState D R A) :=
  let st1 := updRange p st
  match upPhase f st1.tree p with
  | none => none
  | some t =>
    match t with
    | .null => none
    | .leaf c d =>
        some (d (slotIx R c p), { st1 with tree := .leaf c d })
    | .node c r ch =>
        (downB init f p (.node c r ch) st1.nextId).map
          (fun x => (x.1, { st1 with tree := x.2.1, nextId := x.2.2 }))

/-- In-place assignment to the payload at `pos` (the write part of
`set(pos, val)`, i.e. `_get(pos) = val`): the object keeps its identity, its
value is replaced. -/
def writeVal : BBox D R (ℕ × A) → Pos D → A → BBox D R (ℕ × A)
  | .null, _, _ => .null
  | .leaf c d, p, v =>
      .leaf c (updFn d (slotIx R c p) ((d (slotIx R c p)).1, v))
  | .node c r ch, p, v =>
      .node c r (updFn ch (childIx c r p)
        (writeVal (ch (childIx c r p)) p v))

/-- `Grid_basic::set`: `_get(pos) = val`. -/
def setB (init : Pos D → A) (f : ℕ) (p : Pos D) (v : A) (st : BState D R A) :
    Option (BState D R A) :=
  (getB init f p st).map (fun x => { x.2 with tree := writeVal x.2.tree p v })

/-- A freshly constructed `Grid_basic` (`_createBaseNode` after the member
initializers): an empty base node of radius `R` centered at the origin,
ranges at their sentinel values. -/
def freshB (D R : ℕ) (A : Type) (cd : Bool) : BState D R A :=
  { tree := .node (zeroPos D) (R : ℤ) (fun _ => .null),
    nextId := 0,
    rangemin := fun _ => int64Max,
    rangemax := fun _ => int64Min,
    callDtors := cd }

/-- `Grid_basic::reset`: destroy the tree and recreate the base node,
keeping the `callDtors` flag. -/
def resetB (st : BState D R A) : BState D R A := freshB D R A st.callDtors

/-- Well-formedness of a child slot with respect to a given level check:
null slots are allowed anywhere. -/
def wfChildF (w : Pos D → BBox D R P → Bool) (c : Pos D) : BBox D R P → Bool
  | .null => true
  | .leaf c' d => w c (.leaf c' d)
  | .node c' r ch => w c (.node c' r ch)

/-- Geometric well-formedness of a box at tree level `j` (level `0` = leaf,
level `j+1` = node of radius `radSeq R j`) and expected center `c`: radii
follow the sequence `R, 3R+1, 9R+4, …` and children sit at the sub-box
centers. -/
def wfAt : ℕ → Pos D → BBox D R P → Bool
  | 0, c, .leaf c' _ => decide (c' = c)
  | 0, _, .null => false
  | 0, _, .node _ _ _ => false
  | _ + 1, _, .leaf _ _ => false
  | j + 1, c, .node c' r ch =>
      decide (c' = c) && decide (r = radSeq R j) &&
        allChildIx (fun ix =>
          wfChildF (fun c2 t2 => wfAt j c2 t2)
            (subCenter c (radSeq R j) ix) (ch ix))
  | _ + 1, _, .null => false

/-- Well-formedness of a child slot at level `j`. -/
def wfChild (j : ℕ) (c : Pos D) (t : BBox D R P) : Bool :=
  wfChildF (fun c2 t2 => wfAt j c2 t2) c t

/-- Well-formed `Grid_basic` state: the tree is a well-formed box centered at
the origin at some level. -/
def WFB (st : BState D R A) : Prop :=
  ∃ j, wfAt j (zeroPos D) st.tree = true

/-- The property claimed by the spec for node radii: every node of the tree
has radius strictly greater than `R`. -/
def radsAllGT (t : BBox D R P) : Bool :=
  match t with
  | .null => true
  | .leaf _ _ => true
  | .node _ r ch => decide ((R : ℤ) < r) && allChildIx (fun ix => radsAllGT (ch ix))

/-- One `get`/`set` call on a `Grid_basic` (only successful walks produce a
step). -/
inductive BStepGS (init : Pos D → A) : BState D R A → BState D R A → Prop where
  | get {f : ℕ} {p : Pos D} {r : ℕ × A} {st st' : BState D R A} :
      getB init f p st = some (r, st') → BStepGS init st st'
  | set {f : ℕ} {p : Pos D} {v : A} {st st' : BState D R A} :
      setB init f p v st = some st' → BStepGS init st st'

/-- One operation on a `Grid_basic`: a `get`/`set` call or a `reset()`. -/
inductive BStepAll (init : Pos D → A) : BState D R A → BState D R A → Prop where
  | gs {st st' : BState D R A} : BStepGS init st st' → BStepAll init st st'
  | reset (st : BState D R A) : BStepAll init st (resetB st)

/-- States reachable from a freshly constructed `Grid_basic` by any sequence
of `get`/`set`/`reset` operations. -/
def ReachB (init : Pos D → A) (cd : Bool) (st : BState D R A) : Prop :=
  Relation.ReflTransGen (BStepAll init) (freshB D R A cd) st

/-- Well-formedness with a node root (the shape of every live grid). -/
def WFB1 (st : BState D R A) : Prop :=
  ∃ j, wfAt (j + 1) (zeroPos D) st.tree = true

end GridBasicOps

section Archive

variable {D R : ℕ} {A : Type}

/-- One data item written to / read from an archive (`ar & x`; the `ar << …`
text inserts are comments, not data, and are not modelled). -/
inductive Tok (D : ℕ) (A : Type) : Type where
  | u64 (n : ℕ) : Tok D A
  | i64 (z : ℤ) : Tok D A
  | b (v : Bool) : Tok D A
  | str : Tok D A
  | chr (c : Char) : Tok D A
  | pos (p : Pos D) : Tok D A
  | val (a : A) : Tok D A
deriving DecidableEq

/-- `Grid_basic::_serializeTree`: pre-order dump; `'V'` for a null pointer,
`'L' center rad data[0..(2R+1)^D)` for a leaf (the leaf's `rad` field is
`1`), `'N' center rad` followed by the `3^D` children for a node.  Only the
payload values are written (`ar & data[i]`). -/
def serTreeB : BBox D R (ℕ × A) → List (Tok D A)
  | .null => [.chr 'V']
  | .leaf c d =>
      .chr 'L' :: .pos c :: .i64 1 ::
        (slotIxList D R).map (fun k => .val (d k).2)
  | .node c r ch =>
      .chr 'N' :: .pos c :: .i64 r ::
        (childIxList D).bind (fun ix => serTreeB (ch ix))

/-- `Grid_basic::serialize`: version, `D`, `R`, `typeid` name, `sizeof(T)`,
`_callDtors`, `_rangemin`, `_rangemax`, the empty special range `(0, -1)`,
then the tree dump. -/
def serializeB (szT : ℕ) (st : BState D R A) : List (Tok D A) :=
  [.u64 1, .u64 D, .u64 R, .str, .u64 szT, .b st.callDtors,
   .pos st.rangemin, .pos st.rangemax, .i64 0, .i64 (-1)] ++ serTreeB st.tree

/-- Read the `(2R+1)^D` payload records of a leaf in slot order, rebuilding
the data array (`_reconstructLeaf`: each object is freshly constructed, so
it receives a fresh identity). -/
def parseSlots (nid : ℕ) :
    List (SlotIx D R) → List (Tok D A) → (SlotIx D R → ℕ × A) →
    Option ((SlotIx D R → ℕ × A) × List (Tok D A))
  | [], toks, acc => some (acc, toks)
  | k :: ks, .val a :: toks, acc =>
      parseSlots nid ks toks
        (updFn acc k (nid + (finFunctionFinEquiv k : ℕ), a))
  | _ :: _, _, _ => none

/-- Read the `3^D` children of a node in index order using a given
single-box reader, filling the `tab[]` function. -/
def parseChildrenWith
    (pt : ℕ → List (Tok D A) → Option (BBox D R (ℕ × A) × ℕ × List (Tok D A))) :
    List (ChildIx D) → (ChildIx D → BBox D R (ℕ × A)) → ℕ → List (Tok D A) →
    Option ((ChildIx D → BBox D R (ℕ × A)) × ℕ × List (Tok D A))
  | [], acc, nid, toks => some (acc, nid, toks)
  | ix :: ixs, acc, nid, toks =>
      (pt nid toks).bind (fun z =>
        parseChildrenWith pt ixs (updFn acc ix z.1) z.2.1 z.2.2)

/-- `Grid_basic::_deserializeTree` (with fuel): rebuild a box from the tag
`'V'` / `'L'` / `'N'`; any other tag is an error.  Returns the box, the next
fresh identity and the remaining tokens. -/
def parseTreeB [Inhabited A] :
    ℕ → ℕ → List (Tok D A) → Option (BBox D R (ℕ × A) × ℕ × List (Tok D A))
  | 0, _, _ => none
  | f + 1, nid, toks =>
      match toks with
      | .chr 'V' :: rest => some (.null, nid, rest)
      | .chr 'L' :: .pos c :: .i64 _ :: rest =>
          (parseSlots nid (slotIxList D R) rest (fun _ => (0, default))).map
            (fun x => (.leaf c x.1, nid + leafCard D R, x.2))
      | .chr 'N' :: .pos c :: .i64 rr :: rest =>
          (parseChildrenWith (fun n2 t2 => parseTreeB f n2 t2)
            (childIxList D) (fun _ => .null) nid rest).map
            (fun y => (.node c rr y.1, y.2))
      | _ => none

/-- `Grid_basic::deserialize`: read and check the header (version `1`,
matching `D`, `R` and `sizeof(T)`, and an empty archived special range),
then rebuild the tree.  Any failure models the `throw`. -/
def deserializeB [Inhabited A] (szT : ℕ) (fuel : ℕ) (toks : List (Tok D A)) :
    Option (BState D R A) :=
  match toks with
  | .u64 ver :: .u64 d :: .u64 r :: .str :: .u64 sz :: .b cd ::
      .pos rmin :: .pos rmax :: .i64 mins :: .i64 maxs :: rest =>
      if ver = 1 ∧ d = D ∧ r = R ∧ sz = szT ∧ maxs < mins then
        (parseTreeB fuel 0 rest).map (fun x =>
          { tree := x.1, nextId := x.2.1, rangemin := rmin,
            rangemax := rmax, callDtors := cd })
      else none
  | _ => none

/-- `Grid_basic::load`: on any deserialization failure the container is
rebuilt empty with `_callDtors = true` and `false` is returned. -/
def loadB [Inhabited A] (szT : ℕ) (fuel : ℕ) (toks : List (Tok D A))
    (st : BState D R A) : Bool × BState D R A :=
  match deserializeB szT fuel toks with
  | some st' => (true, st')
  | none => (false, freshB D R A true)

/-- Height of a box tree (enough parser fuel for its dump). -/
def heightB : BBox D R (ℕ × A) → ℕ
  | .null => 0
  | .leaf _ _ => 0
  | .node _ _ ch =>
      1 + (childIxList D).foldr (fun ix m => max (heightB (ch ix)) m) 0

/-- Forget payload identities, keeping values (what the archive records). -/
def stripIds : BBox D R (ℕ × A) → BBox D R A := BBox.mapPay Prod.snd

end Archive

section GridFactor

variable {D R : ℕ}

/-- The box tree of a `Grid_factor<D,T,NB_SPECIAL,R>`.  The payload type `T`
is modelled by its `int64` conversion (an `ℤ` value), which is all the
factorization machinery reads.  A child pointer is null, a real leaf
(payload values plus the `count[]` array of per-special-offset occurrence
counters), a real node, or a dummy special link (`_dummyNodes + off`, stored
as the table offset `off`, i.e. the special value minus `_minSpec`). -/
inductive FBox (D R : ℕ) : Type where
  | null : FBox D R
  | special (off : ℕ) : FBox D R
  | leaf (center : Pos D) (data : SlotIx D R → ℤ) (count : ℕ → ℕ) : FBox D R
  | node (center : Pos D) (rad : ℤ) (ch : ChildIx D → FBox D R) : FBox D R

/-- State of a `Grid_factor` (the `NB_SPECIAL` template parameter appears
only in the load-time check, so it is a parameter of `deserializeF`, not a
field).  `tabSpecObj off` tells whether the special object of offset `off`
is instantiated (`_tabSpecObj[off] != nullptr`). -/
structure FState (D R : ℕ) where
  tree : FBox D R
  rangemin : Pos D
  rangemax : Pos D
  minVal : ℤ
  maxVal : ℤ
  minSpec : ℤ
  maxSpec : ℤ
  tabSpecObj : ℕ → Bool
  tabSpecNB : ℕ → ℕ
  nbNormalObj : ℕ
  callDtors : Bool

/-- `_isSpecial(val)`: the value lies in the special range. -/
def isSpecialF (mins maxs v : ℤ) : Bool := decide (mins ≤ v ∧ v ≤ maxs)

/-- `_updateValueRange(v)`: update the running `(_minVal, _maxVal)` pair. -/
def updateValueRangeF (v mn mx : ℤ) : ℤ × ℤ :=
  (if v < mn then v else mn, if mx < v then v else mx)

/-- `Grid_factor::minValue()`: returns the `_minVal` field. -/
def minValueF (st : FState D R) : ℤ := st.minVal

/-- `Grid_factor::maxValue()`: as written in the source, it returns the
`_minVal` field (`inline int64 maxValue() const { return _minVal; }`). -/
def maxValueF (st : FState D R) : ℤ := st.minVal

/-- The slot of flat index `0` (`data[0]`, `count` reads `*(L->data)`). -/
def slot0 (D R : ℕ) : SlotIx D R := fun _ => ⟨0, by omega⟩

/-- The child of flat index `0` (`tab[0]`). -/
def child0 (D : ℕ) : ChildIx D := fun _ => ⟨0, by omega⟩

/-- The middle child index (`tab[(3^D-1)/2]`, the sub-box of the center). -/
def childMid (D : ℕ) : ChildIx D := fun _ => 1

/-- Per-offset occurrence count of the special value `mins + off` among the
slots of a leaf (the steady-state content of the `count[]` array, rebuilt by
`_recountLeaf`). -/
def leafSpecCount (mins maxs : ℤ) (d : SlotIx D R → ℤ) : ℕ → ℕ := fun off =>
  (slotIxList D R).countP
    (fun k => isSpecialF mins maxs (d k) && decide (d k = mins + off))

/-- Number of non-special slots of a leaf (what `_recountLeaf` adds to
`_nbNormalObj`). -/
def leafNormalCount (mins maxs : ℤ) (d : SlotIx D R → ℤ) : ℕ :=
  (slotIxList D R).countP (fun k => !(isSpecialF mins maxs (d k)))

/-- `_isLeafFull(L)`: the special value filling the leaf if its slot count
reaches `(2R+1)^D`, else the sentinel `_maxSpec + 1`. -/
def isLeafFullF (mins maxs : ℤ) (d : SlotIx D R → ℤ) (cnt : ℕ → ℕ) : ℤ :=
  if isSpecialF mins maxs (d (slot0 D R)) = true ∧
      cnt (d (slot0 D R) - mins).toNat = leafCard D R
    then d (slot0 D R) else maxs + 1

/-- The auxiliary state threaded by `_setSpecial`: the instantiation table
`_tabSpecObj` and the `(_minVal, _maxVal)` pair. -/
def SpecSt : Type := (ℕ → Bool) × ℤ × ℤ

/-- `_setSpecial(value, obj)`: instantiate the special object of `value` if
needed (recording a possibly new extremum), returning the updated tables.
The returned dummy link is `.special (value - mins)`. -/
def setSpecialF (mins v : ℤ) (s : SpecSt) : SpecSt :=
  if s.1 (v - mins).toNat then s
  else (updFn s.1 (v - mins).toNat true,
    updateValueRangeF v s.2.1 s.2.2)

/-- Left-to-right traversal of the `tab[]` array threading a state through a
per-child transformation (the `for (i...) { ... tab[i] ... }` loops). -/
def foldChildren {σ : Type} (g : FBox D R → σ → FBox D R × σ) :
    List (ChildIx D) → (ChildIx D → FBox D R) → σ →
    ((ChildIx D → FBox D R) × σ)
  | [], ch, s => (ch, s)
  | ix :: ixs, ch, s =>
      let z := g (ch ix) s
      foldChildren g ixs (updFn ch ix z.1) z.2

/-- Pointer equality with the dummy node of offset `off` (`tab[i] == p`
where `p` is a dummy link: true only for the same dummy). -/
def FBox.specialOffEq : FBox D R → ℕ → Bool
  | .special o, off => o == off
  | _, _ => false

/-- The node-collapse check closing `_simplifyBelow`: if `tab[0]` is a
dummy link and every `tab[i]` is the same pointer, the node collapses to
that dummy link. -/
def collapseNode (z1 : ChildIx D → FBox D R) (c : Pos D) (r : ℤ) :
    FBox D R :=
  match z1 (child0 D) with
  | .special off =>
      if allChildIx (fun i => (z1 i).specialOffEq off) then .special off
      else .node c r z1
  | _ => .node c r z1

/-- `_simplifyBelow(N)` (with fuel): factorize full leaves into special
links, recurse into children, then collapse a node whose `3^D` children all
are the same dummy link.  Returns the (possibly dummy) replacement box and
the updated special tables. -/
def simplifyBelowF (mins maxs : ℤ) :
    ℕ → FBox D R → SpecSt → FBox D R × SpecSt
  | _, .null, s => (.null, s)
  | _, .special off, s => (.special off, s)
  | _, .leaf c d cnt, s =>
      if isLeafFullF mins maxs d cnt ≤ maxs then
        (.special (isLeafFullF mins maxs d cnt - mins).toNat,
          setSpecialF mins (isLeafFullF mins maxs d cnt) s)
      else (.leaf c d cnt, s)
  | 0, .node c r ch, s => (.node c r ch, s)
  | f + 1, .node c r ch, s =>
      let z := foldChildren (fun b s2 => simplifyBelowF mins maxs f b s2)
        (childIxList D) ch s
      (collapseNode z.1 c r, z.2)

/-- `_simplifyTree()`: simplify below the root; if the root itself collapsed
to a dummy link, create a new root node (radius `3*rad+1`) holding the dummy
in its middle slot. -/
def simplifyTreeF (mins maxs : ℤ) (f : ℕ) (t : FBox D R) (s : SpecSt) :
    FBox D R × SpecSt :=
  match simplifyBelowF mins maxs f t s with
  | (.special off, s') =>
      match t with
      | .node c r _ =>
          (.node c (3 * r + 1)
            (fun ix => if ix = childMid D then FBox.special off else .null), s')
      | _ => (.special off, s')
  | (t', s') => (t', s')

/-- `(2*rad+1)^D`: the number of sites covered by a special link hanging
from a node of radius `rad` (the `pow` computed in `_recountBelow` and
`_deserializeTree`). -/
def boxPowF (D : ℕ) (r : ℤ) : ℕ := (2 * r + 1).toNat ^ D

/-- `_recountBelow` (with fuel): rebuild every leaf's `count[]` array from
scratch and accumulate the global counters `(_tabSpecNB, _nbNormalObj)`; a
special child of a node of radius `rad` contributes `(2*rad+1)^D` to its
global counter. -/
def recountBelowF (mins maxs : ℤ) :
    ℕ → FBox D R → (ℕ → ℕ) × ℕ → FBox D R × ((ℕ → ℕ) × ℕ)
  | _, .null, s => (.null, s)
  | _, .special off, s => (.special off, s)
  | _, .leaf c d _, s =>
      (.leaf c d (leafSpecCount mins maxs d),
        (fun off => s.1 off + leafSpecCount mins maxs d off,
          s.2 + leafNormalCount mins maxs d))
  | 0, .node c r ch, s => (.node c r ch, s)
  | f + 1, .node c r ch, s =>
      let z := foldChildren (fun b s2 =>
        match b with
        | .null => (FBox.null, s2)
        | .special off =>
            (FBox.special off,
              (updFn s2.1 off (s2.1 off + boxPowF D r), s2.2))
        | b2 => recountBelowF mins maxs f b2 s2) (childIxList D) ch s
      (.node c r z.1, z.2)

/-- `Grid_factor::simplify()`: nothing to do without special values; else
clear the global counters, recount every leaf, then simplify the tree. -/
def simplifyF (f : ℕ) (st : FState D R) : FState D R :=
  if st.maxSpec < st.minSpec then st
  else
    let z := recountBelowF st.minSpec st.maxSpec f st.tree (fun _ => 0, 0)
    let w := simplifyTreeF st.minSpec st.maxSpec f z.1
      (st.tabSpecObj, st.minVal, st.maxVal)
    { st with
      tree := w.1, tabSpecNB := z.2.1, nbNormalObj := z.2.2,
      tabSpecObj := w.2.1, minVal := w.2.2.1, maxVal := w.2.2.2 }

/-- `_expandBelowNode(N)` (with fuel): if `rad > R` replace each special
child by a fresh node (radius `(rad-1)/3`) whose slots all hold the dummy,
recursing into every non-null child; if `rad == R` replace each special
child by a constant leaf (`_allocateLeafCst`: all slots hold the special
value, `count[off] = (2R+1)^D`). -/
def expandBelowNodeF (mins maxs : ℤ) : ℕ → FBox D R → FBox D R
  | 0, t => t
  | f + 1, .node c r ch =>
      if (R : ℤ) < r then
        .node c r (fun i =>
          match ch i with
          | .null => .null
          | .special off =>
              expandBelowNodeF mins maxs f
                (.node (subCenter c r i) (cppDiv (r - 1) 3)
                  (fun _ => .special off))
          | b => expandBelowNodeF mins maxs f b)
      else
        .node c r (fun i =>
          match ch i with
          | .special off =>
              .leaf (subCenter c r i) (fun _ => mins + off)
                (if isSpecialF mins maxs (mins + off) then
                  updFn (fun _ => 0) off (leafCard D R) else fun _ => 0)
          | b => b)
  | _ + 1, t => t

/-- `changeSpecialRange(newMin, newMax)`: expand the whole tree, release the
special objects and clear every counter, install the new range, recount,
and re-simplify when the new range is non-empty. -/
def changeSpecialRangeF (f : ℕ) (nmin nmax : ℤ) (st : FState D R) :
    FState D R :=
  let t1 := expandBelowNodeF st.minSpec st.maxSpec f st.tree
  let z := recountBelowF nmin nmax f t1 (fun _ => 0, 0)
  let st3 : FState D R :=
    { st with
      tree := z.1, tabSpecObj := fun _ => false,
      tabSpecNB := z.2.1, nbNormalObj := z.2.2, minSpec := nmin,
      maxSpec := nmax }
  if nmax < nmin then st3
  else
    let w := simplifyTreeF nmin nmax f z.1
      (st3.tabSpecObj, st3.minVal, st3.maxVal)
    { st3 with
      tree := w.1, tabSpecObj := w.2.1, minVal := w.2.2.1,
      maxVal := w.2.2.2 }

/-- The value stored at position `p` (the walk of `peek`/`get` on a
coherent tree, without materialization): a special link stands for its
special value over its whole sub-box. -/
def valueAtF (mins : ℤ) : FBox D R → Pos D → Option ℤ
  | .null, _ => none
  | .special off, _ => some (mins + off)
  | .leaf c d _, p =>
      if leafContains R c p then some (d (slotIx R c p)) else none
  | .node c r ch, p =>
      if nodeContains c r p then valueAtF mins (ch (childIx c r p)) p
      else none

/-- The down-phase of `findFullBox` (with fuel): follow `getSubBox(pos)`; a
null slot gives a singleton miss, a special link gives the full sub-box
span `subBoxCenter(pos) ± rad` with the special value, a leaf gives a
singleton hit. -/
def findDownF (mins : ℤ) :
    ℕ → Pos D → FBox D R → Option (Option ℤ × Pos D × Pos D)
  | 0, _, _ => none
  | f + 1, p, .node c r ch =>
      match ch (childIx c r p) with
      | .null => some (none, p, p)
      | .special off =>
          some (some (mins + off),
            fun i => subCenterAt c r p i - r,
            fun i => subCenterAt c r p i + r)
      | .leaf c2 d _ => some (some (d (slotIx R c2 p)), p, p)
      | .node c2 r2 ch2 => findDownF mins f p (.node c2 r2 ch2)
  | _ + 1, _, _ => none

/-- `Grid_factor::findFullBox(pos, boxMin, boxMax)` from the root: a root
leaf answers a singleton, a root node not containing `pos` answers a
singleton miss, else the down-phase runs.  `none` models only fuel
exhaustion. -/
def findFullBoxF (mins : ℤ) (f : ℕ) (t : FBox D R) (p : Pos D) :
    Option (Option ℤ × Pos D × Pos D) :=
  match t with
  | .leaf c d _ =>
      if leafContains R c p then some (some (d (slotIx R c p)), p, p)
      else none
  | .node c r ch =>
      if nodeContains c r p then findDownF mins f p (.node c r ch)
      else some (none, p, p)
  | _ => none

/-- `Grid_factor::_serializeTree`: pre-order dump; `'V'` for null, `'S'` and
the special value for a dummy link, `'L' center rad data[..]` for a leaf,
`'N' center rad` then the `3^D` children for a node. -/
def serTreeF (mins : ℤ) : FBox D R → List (Tok D ℤ)
  | .null => [.chr 'V']
  | .special off => [.chr 'S', .i64 (mins + off)]
  | .leaf c d _ =>
      .chr 'L' :: .pos c :: .i64 1 ::
        (slotIxList D R).map (fun k => .val (d k))
  | .node c r ch =>
      .chr 'N' :: .pos c :: .i64 r ::
        (childIxList D).bind (fun ix => serTreeF mins (ch ix))

/-- The special-object table section of `Grid_factor::serialize`: for each
offset `i` in the special range, a presence flag and, when present, the
object itself. -/
def serSpecials (mins : ℤ) (tab : ℕ → Bool) : ℕ → ℕ → List (Tok D ℤ)
  | 0, _ => []
  | n + 1, i =>
      (if tab i then [Tok.b true, Tok.val (mins + i)] else [Tok.b false]) ++
        serSpecials mins tab n (i + 1)

/-- `Grid_factor::serialize`: header (version, `D`, `R`, `typeid` name,
`sizeof(T)`, `_callDtors`, ranges, special range), then the special-object
table, then the tree dump.  The `simplify()` call of the source is
commented out, so the tree is dumped as-is. -/
def serializeF (szT : ℕ) (st : FState D R) : List (Tok D ℤ) :=
  [.u64 1, .u64 D, .u64 R, .str, .u64 szT, .b st.callDtors,
   .pos st.rangemin, .pos st.rangemax, .i64 st.minSpec, .i64 st.maxSpec]
    ++ serSpecials st.minSpec st.tabSpecObj
        (st.maxSpec - st.minSpec + 1).toNat 0
    ++ serTreeF st.minSpec st.tree

/-- The statistics accumulated while deserializing a tree: the global
special counters, the normal-object counter and the value range. -/
structure FStats where
  tnb : ℕ → ℕ
  nn : ℕ
  mn : ℤ
  mx : ℤ

/-- Read the `(2R+1)^D` payload values of an archived leaf in slot order. -/
def parseValsF :
    List (SlotIx D R) → List (Tok D ℤ) → (SlotIx D R → ℤ) →
    Option ((SlotIx D R → ℤ) × List (Tok D ℤ))
  | [], toks, acc => some (acc, toks)
  | k :: ks, .val v :: toks, acc => parseValsF ks toks (updFn acc k v)
  | _ :: _, _, _ => none

/-- `(minVal, maxVal)` updated by every slot value of a leaf (the
`_updateValueRange` calls of `_deserializeLeaf`). -/
def foldValueRange (d : SlotIx D R → ℤ) (mn mx : ℤ) : ℤ × ℤ :=
  (slotIxList D R).foldl
    (fun a k => updateValueRangeF (d k) a.1 a.2) (mn, mx)

/-- Read the `3^D` children of an archived node in index order with a given
single-box reader (`frad` is the father's radius, needed by `'S'` tags). -/
def parseChildrenF
    (pt : Option ℤ → FStats → List (Tok D ℤ) →
      Option (FBox D R × FStats × List (Tok D ℤ)))
    (frad : Option ℤ) :
    List (ChildIx D) → (ChildIx D → FBox D R) → FStats → List (Tok D ℤ) →
    Option ((ChildIx D → FBox D R) × FStats × List (Tok D ℤ))
  | [], acc, s, toks => some (acc, s, toks)
  | ix :: ixs, acc, s, toks =>
      (pt frad s toks).bind (fun z =>
        parseChildrenF pt frad ixs (updFn acc ix z.1) z.2.1 z.2.2)

/-- `Grid_factor::_deserializeTree` (with fuel): rebuild a box from its tag.
An `'S'` tag yields the dummy link of the archived value, contributing
`(2*fatherRad+1)^D` to the global special counter (a root `'S'` would
dereference the null father, modelled as a failure); an `'L'` tag rebuilds
the leaf, recomputing its `count[]` array and updating every global
counter and the value range; unknown tags are errors. -/
def parseTreeF (mins maxs : ℤ) :
    ℕ → Option ℤ → FStats → List (Tok D ℤ) →
    Option (FBox D R × FStats × List (Tok D ℤ))
  | 0, _, _, _ => none
  | _ + 1, _, s, .chr 'V' :: rest => some (.null, s, rest)
  | _ + 1, frad, s, .chr 'S' :: .i64 v :: rest =>
      match frad with
      | none => none
      | some fr =>
          some (.special (v - mins).toNat,
            { s with
              tnb := updFn s.tnb (v - mins).toNat
                (s.tnb (v - mins).toNat + boxPowF D fr),
              mn := (updateValueRangeF v s.mn s.mx).1,
              mx := (updateValueRangeF v s.mn s.mx).2 }, rest)
  | _ + 1, _, s, .chr 'L' :: .pos c :: .i64 _ :: rest =>
      (parseValsF (slotIxList D R) rest (fun _ => 0)).map (fun x =>
        (FBox.leaf c x.1 (leafSpecCount mins maxs x.1),
          { tnb := fun off => s.tnb off + leafSpecCount mins maxs x.1 off,
            nn := s.nn + leafNormalCount mins maxs x.1,
            mn := (foldValueRange x.1 s.mn s.mx).1,
            mx := (foldValueRange x.1 s.mn s.mx).2 }, x.2))
  | f + 1, _, s, .chr 'N' :: .pos c :: .i64 rr :: rest =>
      (parseChildrenF (fun fr2 s2 t2 => parseTreeF mins maxs f fr2 s2 t2)
        (some rr) (childIxList D) (fun _ => .null) s rest).map
        (fun y => (.node c rr y.1, y.2))
  | _ + 1, _, _, _ => none

/-- Read the special-object table: `n` entries, each a presence flag
followed (when present) by the archived object. -/
def parseSpecials :
    ℕ → ℕ → (ℕ → Bool) → List (Tok D ℤ) →
    Option ((ℕ → Bool) × List (Tok D ℤ))
  | 0, _, tab, toks => some (tab, toks)
  | n + 1, i, tab, .b true :: .val _ :: rest =>
      parseSpecials n (i + 1) (updFn tab i true) rest
  | n + 1, i, tab, .b false :: rest => parseSpecials n (i + 1) tab rest
  | _ + 1, _, _, _ => none

/-- `Grid_factor::deserialize`: read and check the header (version `1`,
matching `D`, `R`, `sizeof(T)`, and `NB_SPECIAL` at least the archived
special range `maxSpec - minSpec + 1`), read the special-object table, then
rebuild the tree.  Any failure models the `throw`. -/
def deserializeF (NB szT f : ℕ) (toks : List (Tok D ℤ)) :
    Option (FState D R) :=
  match toks with
  | .u64 ver :: .u64 d :: .u64 r :: .str :: .u64 sz :: .b cd ::
      .pos rmin :: .pos rmax :: .i64 mins :: .i64 maxs :: rest =>
      if ver = 1 ∧ d = D ∧ r = R ∧ sz = szT ∧
          maxs - mins + 1 ≤ (NB : ℤ) then
        (parseSpecials (maxs - mins + 1).toNat 0 (fun _ => false)
            rest).bind (fun ps =>
          (parseTreeF mins maxs f none
              { tnb := fun _ => 0, nn := 0, mn := int64Max, mx := int64Min }
              ps.2).map (fun z =>
            { tree := z.1, rangemin := rmin, rangemax := rmax,
              minVal := z.2.1.mn, maxVal := z.2.1.mx,
              minSpec := mins, maxSpec := maxs, tabSpecObj := ps.1,
              tabSpecNB := z.2.1.tnb, nbNormalObj := z.2.1.nn,
              callDtors := cd }))
      else none
  | _ => none

/-- A freshly constructed / reset `Grid_factor` with special range
`[mins, maxs]`. -/
def freshF (D R : ℕ) (mins maxs : ℤ) (cd : Bool) : FState D R :=
  { tree := .node (zeroPos D) (R : ℤ) (fun _ => .null),
    rangemin := fun _ => int64Max, rangemax := fun _ => int64Min,
    minVal := int64Max, maxVal := int64Min,
    minSpec := mins, maxSpec := maxs, tabSpecObj := fun _ => false,
    tabSpecNB := fun _ => 0, nbNormalObj := 0, callDtors := cd }

/-- `Grid_factor::load`: on any deserialization failure the container is
reset via `reset(0, -1, true)` (empty special range, `_callDtors = true`)
and `false` is returned. -/
def loadF (NB szT f : ℕ) (toks : List (Tok D ℤ)) (st : FState D R) :
    Bool × FState D R :=
  match deserializeF (D := D) (R := R) NB szT f toks with
  | some st' => (true, st')
  | none => (false, freshF D R 0 (-1) true)

/-- A leaf's data is homogeneous in one special value of `[mins, maxs]`. -/
def homSpecLeafData (mins maxs : ℤ) (d : SlotIx D R → ℤ) : Bool :=
  isSpecialF mins maxs (d (slot0 D R)) &&
    decide (∀ k, d k = d (slot0 D R))

/-- No leaf of the tree is homogeneous in a special value (the collapse
invariant claimed for archived trees). -/
def noHomSpecLeaf (mins maxs : ℤ) : FBox D R → Bool
  | .null => true
  | .special _ => true
  | .leaf _ d _ => !(homSpecLeafData mins maxs d)
  | .node _ _ ch => allChildIx (fun ix => noHomSpecLeaf mins maxs (ch ix))

/-- The tree contains some leaf homogeneous in a special value. -/
def hasHomSpecLeaf (mins maxs : ℤ) (t : FBox D R) : Bool :=
  !(noHomSpecLeaf mins maxs t)

/-- The tree contains no dummy special link (the state after a full
expansion). -/
def specialFree : FBox D R → Bool
  | .null => true
  | .special _ => false
  | .leaf _ _ _ => true
  | .node _ _ ch => allChildIx (fun ix => specialFree (ch ix))

/-- True on dummy special links. -/
def FBox.isSpecialLink : FBox D R → Bool
  | .special _ => true
  | _ => false

/-- Forget the `count[]` arrays (they are statistics, not content). -/
def clearCounts : FBox D R → FBox D R
  | .null => .null
  | .special off => .special off
  | .leaf c d _ => .leaf c d (fun _ => 0)
  | .node c r ch => .node c r (fun ix => clearCounts (ch ix))

/-- Height of a factor box tree (enough fuel for its walks and dumps). -/
def heightF : FBox D R → ℕ
  | .null => 0
  | .special _ => 0
  | .leaf _ _ _ => 0
  | .node _ _ ch =>
      1 + (childIxList D).foldr (fun ix m => max (heightF (ch ix)) m) 0

/-- Accurate `count[]` arrays: every leaf's counter matches the actual
per-offset occurrence counts of its data (the invariant `_recountTree`
establishes). -/
def CountsAcc (mins maxs : ℤ) : FBox D R → Prop
  | .null => True
  | .special _ => True
  | .leaf _ d cnt => ∀ off, cnt off = leafSpecCount mins maxs d off
  | .node _ _ ch => ∀ ix, CountsAcc mins maxs (ch ix)

/-- Well-formedness of a factor child slot: null slots and dummy special
links are allowed anywhere. -/
def wfFChildF (w : Pos D → FBox D R → Bool) (c : Pos D) : FBox D R → Bool
  | .null => true
  | .special _ => true
  | .leaf c' d cnt => w c (.leaf c' d cnt)
  | .node c' r ch => w c (.node c' r ch)

/-- Geometric well-formedness of a factor box at tree level `j` (level `0`
= leaf, level `j+1` = node of radius `radSeq R j`) and expected center. -/
def wfFAt : ℕ → Pos D → FBox D R → Bool
  | 0, c, .leaf c' _ _ => decide (c' = c)
  | 0, _, .null => false
  | 0, _, .special _ => false
  | 0, _, .node _ _ _ => false
  | _ + 1, _, .leaf _ _ _ => false
  | _ + 1, _, .null => false
  | _ + 1, _, .special _ => false
  | j + 1, c, .node c' r ch =>
      decide (c' = c) && decide (r = radSeq R j) &&
        allChildIx (fun ix =>
          wfFChildF (fun c2 t2 => wfFAt j c2 t2)
            (subCenter c (radSeq R j) ix) (ch ix))

/-- Well-formedness of a factor child slot at level `j`. -/
def wfFChild (j : ℕ) (c : Pos D) (t : FBox D R) : Bool :=
  wfFChildF (fun c2 t2 => wfFAt j c2 t2) c t

/-- The span of a level-`j` box of center `c` (leaf: `±R`; level `j+1`
node: `±(3*radSeq j + 1)`). -/
def spanContains (j : ℕ) (c : Pos D) (p : Pos D) : Bool :=
  match j with
  | 0 => leafContains R c p
  | j + 1 => nodeContains c (radSeq R j) p

end GridFactor

section ClaimWitnessDefs

/-- Positional constructor used in witnesses: the payload value at `q` is the
coordinate `q 0`. -/
def wInit : Pos 1 → ℤ := fun q => q 0

/-- Witness start state: a fresh `Grid_basic<1, int64, 2>`. -/
def wSt0 : BState 1 2 ℤ := freshB 1 2 ℤ true

/-- Witness position. -/
def wP : Pos 1 := fun _ => 3

/-- State after `get(3)` on the fresh grid. -/
def wSt1 : BState 1 2 ℤ :=
  ((getB wInit 20 wP wSt0).getD (((0 : ℕ), (0 : ℤ)), wSt0)).2

/-- State after a subsequent `set(100, 7)` (which grows the root twice). -/
def wSt2 : BState 1 2 ℤ :=
  (setB wInit 20 (fun _ => 100) 7 wSt1).getD wSt1

/-- Number of instantiated special objects in the table (the entries the
archive marks present). -/
def countPresent (tab : ℕ → Bool) (n : ℕ) : ℕ :=
  (List.range n).countP (fun i => tab i)

/-- A `Grid_factor<1, int64, 4, 2>` state whose middle leaf is homogeneous
in the special value `0` of the range `[0, 3]` (counts deliberately stale,
as after direct `access()` writes). -/
def c4St : FState 1 2 :=
  { tree := .node (zeroPos 1) 2 (updFn (fun _ => FBox.null) (childMid 1)
      (.leaf (zeroPos 1) (fun _ => 0) (fun _ => 0))),
    rangemin := fun _ => -2, rangemax := fun _ => 2,
    minVal := 0, maxVal := 0, minSpec := 0, maxSpec := 3,
    tabSpecObj := fun _ => false, tabSpecNB := fun _ => 0,
    nbNormalObj := 25, callDtors := true }

/-- A state with special range `[0, 3]`, a collapsed `0`-valued region
(special link) and a leaf of `11`s (the spec's `changeSpecialRange`
example). -/
def c5St : FState 1 2 :=
  { tree := .node (zeroPos 1) 2
      (updFn (updFn (fun _ => FBox.null) (child0 1) (FBox.special 0))
        (childMid 1) (.leaf (zeroPos 1) (fun _ => 11) (fun _ => 0))),
    rangemin := fun _ => -7, rangemax := fun _ => 7,
    minVal := 0, maxVal := 11, minSpec := 0, maxSpec := 3,
    tabSpecObj := updFn (fun _ => false) 0 true,
    tabSpecNB := updFn (fun _ => 0) 0 5, nbNormalObj := 25,
    callDtors := true }

/-- A tree whose right child is a special link of offset `1`. -/
def c6T : FBox 1 2 :=
  .node (zeroPos 1) 2
    (updFn (fun _ => FBox.null) (fun _ => (2 : Fin 3)) (FBox.special 1))

/-- A position inside the collapsed right sub-box of `c6T`. -/
def c6P : Pos 1 := fun _ => 5

/-- The box bounds `findFullBox` reports for `c6P` on `c6T`. -/
def c6Bmin : Pos 1 := fun i => subCenterAt (zeroPos 1) 2 c6P i - 2

/-- Upper bound of the reported box. -/
def c6Bmax : Pos 1 := fun i => subCenterAt (zeroPos 1) 2 c6P i + 2

/-- Archive of `c4St` (it contains a homogeneous special leaf, and
`serialize` does not simplify). -/
def c1Arch : List (Tok 1 ℤ) := serializeF 8 c4St

/-- The grid obtained by loading `c1Arch` (a grid produced by the public
API whose tree holds a homogeneous special leaf). -/
def c1St : FState 1 2 := (loadF 4 8 3 c1Arch (freshF 1 2 0 3 true)).2

/-- The grid described by the archive that `serialize` produces from
`c1St`. -/
def c1St2 : FState 1 2 :=
  (deserializeF 4 8 3 (serializeF 8 c1St)).getD (freshF 1 2 0 (-1) true)

/-- A state with special range `[0, 1]` (width 2) but only ONE special
value (`0`) instantiated and used. -/
def c3Bad : FState 1 2 :=
  { tree := .node (zeroPos 1) 2
      (updFn (fun _ => FBox.null) (child0 1) (FBox.special 0)),
    rangemin := fun _ => -7, rangemax := fun _ => -3,
    minVal := 0, maxVal := 0, minSpec := 0, maxSpec := 1,
    tabSpecObj := updFn (fun _ => false) 0 true,
    tabSpecNB := updFn (fun _ => 0) 0 5, nbNormalObj := 0,
    callDtors := true }

/-- A state whose leaf holds the values `5` (one slot) and `2` (the rest),
with an empty special range. -/
def c7St : FState 1 2 :=
  { tree := .node (zeroPos 1) 2 (updFn (fun _ => FBox.null) (childMid 1)
      (.leaf (zeroPos 1) (fun k => if k 0 = 0 then 5 else 2) (fun _ => 0))),
    rangemin := fun _ => -2, rangemax := fun _ => 2,
    minVal := 2, maxVal := 5, minSpec := 0, maxSpec := -1,
    tabSpecObj := fun _ => false, tabSpecNB := fun _ => 0,
    nbNormalObj := 25, callDtors := true }

/-- Archive of `c7St`: loading it tracks `_minVal = 2`, `_maxVal = 5`. -/
def c7Arch : List (Tok 1 ℤ) := serializeF 8 c7St

/-- The result of loading `c7Arch` into a fresh grid. -/
def c7Ld : Bool × FState 1 2 := loadF 4 8 3 c7Arch (freshF 1 2 0 (-1) true)

/-- A valid `Grid_basic<1, int64, 2>` archive (of a fresh grid). -/
def c8Toks : List (Tok 1 ℤ) := serializeB 8 (freshB 1 2 ℤ true)

/-- The state described by `c8Toks`. -/
def c8St : BState 1 2 ℤ :=
  (deserializeB 8 3 c8Toks).getD (freshB 1 2 ℤ false)

end ClaimWitnessDefs

theorem updFn_same {α β : Type} [DecidableEq α] {f : α → β} {a : α} {v : β} :
    updFn f a v a = v := by simp [updFn]

theorem updFn_noteq {α β : Type} [DecidableEq α] {x a : α} (h : x ≠ a)
    {f : α → β} {v : β} : updFn f a v x = f x := by simp [updFn, h]

section GeometryLemmas

variable {D R : ℕ}

theorem radSeq_ge (R : ℕ) : ∀ j, (R : ℤ) ≤ radSeq R j
  | 0 => le_refl _
  | j + 1 => by have := radSeq_ge R j; simp only [radSeq]; omega

theorem radSeq_nonneg (R : ℕ) (j : ℕ) : 0 ≤ radSeq R j :=
  le_trans (by positivity) (radSeq_ge R j)

theorem radSeq_ne_one (hR : 1 < R) (j : ℕ) : radSeq R j ≠ 1 := by
  cases j with
  | zero => simp only [radSeq]; omega
  | succ j => have := radSeq_ge R j; simp only [radSeq]; omega

theorem radSeq_eq_R_iff (hR : 0 < R) (j : ℕ) : radSeq R j = (R : ℤ) ↔ j = 0 := by
  cases j with
  | zero => simp [radSeq]
  | succ j => have := radSeq_ge R j; simp only [radSeq]; omega

theorem cppDiv_succ_radSeq (R : ℕ) (j : ℕ) :
    cppDiv (radSeq R (j + 1) - 1) 3 = radSeq R j := by
  show Int.tdiv (3 * radSeq R j + 1 - 1) 3 = radSeq R j
  rw [show 3 * radSeq R j + 1 - 1 = 3 * radSeq R j by ring]
  exact Int.mul_tdiv_cancel_left _ (by norm_num)

theorem childIxAx_eq_one (c r x : ℤ) :
    childIxAx c r x = 1 ↔ (c - r ≤ x ∧ x ≤ c + r) := by
  unfold childIxAx
  split_ifs with ha hb
  · simp only [show ((0 : Fin 3) = 1) ↔ False by decide, false_iff]; omega
  · simp only [show ((1 : Fin 3) = 1) ↔ True by decide, true_iff]; omega
  · simp only [show ((2 : Fin 3) = 1) ↔ False by decide, false_iff]; omega

/-- If `x` lies in the span of sub-box `k` (radius `r ≥ 0`), then `k` is the
computed child index of `x`. -/
theorem childIxAx_of_span (c r x : ℤ) (k : Fin 3) (hr : 0 ≤ r)
    (h1 : c + ((k : ℤ) - 1) * (2 * r + 1) - r ≤ x)
    (h2 : x ≤ c + ((k : ℤ) - 1) * (2 * r + 1) + r) :
    childIxAx c r x = k := by
  unfold childIxAx
  fin_cases k <;> push_cast at h1 h2 <;> split_ifs with ha hb <;>
    first | rfl | (exfalso; omega)

/-- Tiling: a coordinate in the node's span lies in the span of its computed
sub-box. -/
theorem childIxAx_span (c r x : ℤ) (hr : 0 ≤ r)
    (h1 : c - (3 * r + 1) ≤ x) (h2 : x ≤ c + (3 * r + 1)) :
    c + ((childIxAx c r x : ℤ) - 1) * (2 * r + 1) - r ≤ x ∧
      x ≤ c + ((childIxAx c r x : ℤ) - 1) * (2 * r + 1) + r := by
  unfold childIxAx
  split_ifs with ha hb <;> push_cast <;> omega

theorem nodeContains_iff (c : Pos D) (r : ℤ) (p : Pos D) :
    nodeContains c r p = true ↔
      ∀ i, c i - (3 * r + 1) ≤ p i ∧ p i ≤ c i + (3 * r + 1) := by
  simp [nodeContains]

theorem leafContains_iff (R : ℕ) (c : Pos D) (p : Pos D) :
    leafContains R c p = true ↔ ∀ i, c i - R ≤ p i ∧ p i ≤ c i + R := by
  simp [leafContains]

/-- The span of the computed sub-box of `p` (vector version of the tiling). -/
theorem subCenterAt_span (c : Pos D) (r : ℤ) (p : Pos D) (hr : 0 ≤ r)
    (h : nodeContains c r p = true) :
    ∀ i, subCenterAt c r p i - r ≤ p i ∧ p i ≤ subCenterAt c r p i + r := by
  intro i
  rw [nodeContains_iff] at h
  have := childIxAx_span (c i) r (p i) hr (h i).1 (h i).2
  simpa [subCenterAt, subCenter, childIx] using this

/-- If `p` lies in the span of the sub-box with index `k`, that sub-box is
the one the walk descends into. -/
theorem childIx_of_span (c : Pos D) (r : ℤ) (p : Pos D) (k : ChildIx D)
    (hr : 0 ≤ r)
    (h : ∀ i, subCenter c r k i - r ≤ p i ∧ p i ≤ subCenter c r k i + r) :
    childIx c r p = k := by
  funext i
  exact childIxAx_of_span (c i) r (p i) (k i) hr
    (by simpa [subCenter] using (h i).1) (by simpa [subCenter] using (h i).2)

/-- A point of the middle sub-box: the all-ones child index. -/
theorem childIx_center (c : Pos D) (r : ℤ) (p : Pos D) (hr : 0 ≤ r)
    (h : ∀ i, c i - r ≤ p i ∧ p i ≤ c i + r) :
    childIx c r p = fun _ => 1 := by
  funext i
  rw [show (1 : Fin 3) = ((fun _ => 1 : ChildIx D) i) from rfl]
  exact childIxAx_of_span (c i) r (p i) 1 hr (by simpa using (h i).1)
    (by simpa using (h i).2)

theorem subCenter_center (c : Pos D) (r : ℤ) :
    subCenter c r (fun _ => 1) = c := by
  funext i; simp [subCenter]

/-- Recover the position from its slot inside a leaf containing it. -/
theorem slotPos_slotIx (c : Pos D) (p : Pos D)
    (h : leafContains R c p = true) : slotPos c (slotIx R c p) = p := by
  rw [leafContains_iff] at h
  funext i
  have h1 := (h i).1
  have h2 := (h i).2
  simp only [slotPos, slotIx]
  have hnn : (0 : ℤ) ≤ p i - c i + R := by omega
  have hlt : (p i - c i + R).toNat < 2 * R + 1 := by omega
  rw [Nat.mod_eq_of_lt hlt]
  omega

/-- `slotIx` is injective on the leaf's span. -/
theorem slotIx_inj (c : Pos D) (p q : Pos D)
    (hp : leafContains R c p = true) (hq : leafContains R c q = true)
    (h : slotIx R c p = slotIx R c q) : p = q := by
  have := congrArg (slotPos (R := R) c) h
  rwa [slotPos_slotIx c p hp, slotPos_slotIx c q hq] at this

theorem allChildIx_iff {p : ChildIx D → Bool} :
    allChildIx p = true ↔ ∀ ix, p ix = true := by
  simp [allChildIx]

end GeometryLemmas

section BasicWalkLemmas

variable {D R : ℕ} {P A : Type}

theorem readPay_null {p : Pos D} : readPay (.null : BBox D R (ℕ × A)) p = none :=
  rfl

theorem readPay_leaf {c : Pos D} {d : SlotIx D R → ℕ × A} {p : Pos D} :
    readPay (.leaf c d) p =
      if leafContains R c p then some (d (slotIx R c p)) else none := rfl

theorem readPay_node {c : Pos D} {r : ℤ} {ch : ChildIx D → BBox D R (ℕ × A)}
    {p : Pos D} :
    readPay (.node c r ch) p =
      if nodeContains c r p then readPay (ch (childIx c r p)) p else none := rfl

theorem contains_node {c : Pos D} {r : ℤ} {ch : ChildIx D → BBox D R P}
    {p : Pos D} : (BBox.node c r ch).contains p = nodeContains c r p := rfl

theorem contains_leaf {c : Pos D} {d : SlotIx D R → P} {p : Pos D} :
    (BBox.leaf c d).contains p = leafContains R c p := rfl

theorem wfAt_node_iff {j : ℕ} {c c' : Pos D} {r : ℤ}
    {ch : ChildIx D → BBox D R P} :
    wfAt (j + 1) c (.node c' r ch) = true ↔
      c' = c ∧ r = radSeq R j ∧
        ∀ ix, wfChild j (subCenter c (radSeq R j) ix) (ch ix) = true := by
  rw [wfAt]
  simp [allChildIx_iff, and_assoc, wfChild]

theorem wfAt_leaf_iff {j : ℕ} {c c' : Pos D} {d : SlotIx D R → P} :
    wfAt j c (.leaf c' d) = true ↔ j = 0 ∧ c' = c := by
  cases j with
  | zero => rw [wfAt]; simp
  | succ j => rw [wfAt]; simp

theorem wfAt_null {j : ℕ} {c : Pos D} :
    wfAt j c (.null : BBox D R P) = false := by
  cases j with
  | zero => rw [wfAt]
  | succ j => rw [wfAt]

theorem wfAt_zero_node {c c' : Pos D} {r : ℤ} {ch : ChildIx D → BBox D R P} :
    wfAt 0 c (.node c' r ch) = false := by rw [wfAt]

theorem wfChild_iff {j : ℕ} {c : Pos D} {t : BBox D R P} :
    wfChild j c t = true ↔ t = .null ∨ wfAt j c t = true := by
  cases t with
  | null => simp [wfChild, wfChildF]
  | leaf c' d => simp [wfChild, wfChildF]
  | node c' r ch => simp [wfChild, wfChildF]

/-- A well-formed node of level `j+1` has radius `radSeq R j ≥ 0` and is not
`radSeq`-degenerate. -/
theorem wfAt_node_rad {j : ℕ} {c c' : Pos D} {r : ℤ}
    {ch : ChildIx D → BBox D R P}
    (h : wfAt (j + 1) c (.node c' r ch) = true) : r = radSeq R j :=
  ((wfAt_node_iff.mp h).2).1

/-- `growRoot` preserves well-formedness, one level up (for `R > 1`, so that
a node's `rad` field is never the leaf marker `1`). -/
theorem growRoot_wf (hR : 1 < R) {j : ℕ} {c : Pos D} {t : BBox D R P}
    (h : wfAt j c t = true) : wfAt (j + 1) c (growRoot t) = true := by
  cases t with
  | null => rw [wfAt_null] at h; cases h
  | leaf c' d =>
      obtain ⟨hj, hc⟩ := wfAt_leaf_iff.mp h
      subst hj hc
      rw [growRoot, wfAt_node_iff]
      refine ⟨rfl, rfl, fun ix => ?_⟩
      by_cases hix : ix = fun _ => 1
      · subst hix
        simp only [if_pos rfl, wfChild_iff, subCenter_center]
        right; exact wfAt_leaf_iff.mpr ⟨rfl, rfl⟩
      · rw [if_neg hix]; exact wfChild_iff.mpr (Or.inl rfl)
  | node c' r ch =>
      cases j with
      | zero => rw [wfAt_zero_node] at h; cases h
      | succ j =>
          obtain ⟨hc, hr, hch⟩ := wfAt_node_iff.mp h
          subst hc hr
          rw [growRoot, if_neg (radSeq_ne_one hR j), wfAt_node_iff]
          refine ⟨rfl, by rw [radSeq], fun ix => ?_⟩
          by_cases hix : ix = fun _ => 1
          · subst hix
            rw [if_pos rfl, wfChild_iff, subCenter_center]
            right; exact wfAt_node_iff.mpr ⟨rfl, rfl, hch⟩
          · rw [if_neg hix, wfChild_iff]; left; rfl

/-- `growRoot` does not change any stored payload: `readPay` is unchanged at
every position. -/
theorem growRoot_readPay (hR : 1 < R) {j : ℕ} {c : Pos D} {t : BBox D R (ℕ × A)}
    (h : wfAt j c t = true) (p : Pos D) :
    readPay (growRoot t) p = readPay t p := by
  cases t with
  | null => rw [wfAt_null] at h; cases h
  | leaf c' d =>
      simp only [growRoot, readPay_node, readPay_leaf]
      by_cases hin : leafContains R c' p = true
      · have hspan : ∀ i, c' i - (R : ℤ) ≤ p i ∧ p i ≤ c' i + (R : ℤ) :=
          (leafContains_iff R c' p).mp hin
        have hcont : nodeContains c' (R : ℤ) p = true := by
          rw [nodeContains_iff]; intro i
          have := hspan i
          constructor <;> omega
        rw [if_pos hcont]
        have hmid : childIx c' (R : ℤ) p = fun _ => 1 :=
          childIx_center c' _ p (by positivity) hspan
        rw [hmid, if_pos rfl, readPay_leaf, if_pos hin]
      · -- p outside the leaf: both sides are none
        rw [if_neg hin]
        by_cases hcont : nodeContains c' (R : ℤ) p = true
        · rw [if_pos hcont]
          by_cases hmid : childIx c' (R : ℤ) p = fun _ => 1
          · exfalso
            apply hin
            rw [leafContains_iff]
            intro i
            have h1 := (childIxAx_eq_one (c' i) (R : ℤ) (p i)).mp (congrFun hmid i)
            omega
          · rw [if_neg hmid, readPay_null]
        · rw [if_neg hcont]
  | node c' r ch =>
      cases j with
      | zero => rw [wfAt_zero_node] at h; cases h
      | succ j =>
          have hr := wfAt_node_rad h
          subst hr
          have hrnn : (0 : ℤ) ≤ radSeq R j := radSeq_nonneg R j
          rw [growRoot, if_neg (radSeq_ne_one hR j)]
          simp only [readPay_node]
          by_cases hold : nodeContains c' (radSeq R j) p = true
          · have hspan : ∀ i, c' i - (3 * radSeq R j + 1) ≤ p i ∧
                p i ≤ c' i + (3 * radSeq R j + 1) := (nodeContains_iff _ _ _).mp hold
            have hcont2 : nodeContains c' (3 * radSeq R j + 1) p = true := by
              rw [nodeContains_iff]; intro i; have := hspan i; constructor <;> omega
            rw [if_pos hcont2, if_pos hold]
            have hmid : childIx c' (3 * radSeq R j + 1) p = fun _ => 1 :=
              childIx_center c' _ p (by omega) hspan
            rw [hmid]
            simp [readPay_node, hold]
          · rw [if_neg hold]
            by_cases hcont2 : nodeContains c' (3 * radSeq R j + 1) p = true
            · rw [if_pos hcont2]
              by_cases hmid : childIx c' (3 * radSeq R j + 1) p = fun _ => 1
              · exfalso
                apply hold
                rw [nodeContains_iff]
                intro i
                have h1 := (childIxAx_eq_one (c' i) (3 * radSeq R j + 1) (p i)).mp
                  (congrFun hmid i)
                omega
              · rw [if_neg hmid, readPay_null]
            · rw [if_neg hcont2]

/-- The up-phase returns a well-formed containing ancestor-root and changes
no stored payload. -/
theorem upPhase_main (hR : 1 < R) :
    ∀ (f : ℕ) {j : ℕ} {c : Pos D} {t t' : BBox D R (ℕ × A)} {p : Pos D},
    wfAt j c t = true → upPhase f t p = some t' →
    ∃ j', wfAt j' c t' = true ∧ (∀ q, readPay t' q = readPay t q) ∧
      t'.contains p = true := by
  intro f
  induction f with
  | zero =>
      intro j c t t' p hwf h
      rw [upPhase] at h
      split at h
      · exact ⟨j, by rw [← Option.some_inj.mp h]; exact hwf,
          fun q => by rw [← Option.some_inj.mp h],
          by rw [← Option.some_inj.mp h]; assumption⟩
      · cases h
  | succ f ihf =>
      intro j c t t' p hwf h
      rw [upPhase] at h
      split at h
      · exact ⟨j, by rw [← Option.some_inj.mp h]; exact hwf,
          fun q => by rw [← Option.some_inj.mp h],
          by rw [← Option.some_inj.mp h]; assumption⟩
      · obtain ⟨j', hwf', hrd, hcont⟩ := ihf (growRoot_wf hR hwf) h
        exact ⟨j', hwf',
          fun q => (hrd q).trans (growRoot_readPay hR hwf q), hcont⟩

theorem readPay_node_at {c : Pos D} {r : ℤ} {ch : ChildIx D → BBox D R (ℕ × A)}
    {p : Pos D} (hcont : nodeContains c r p = true) :
    readPay (.node c r ch) p = readPay (ch (childIx c r p)) p := by
  rw [readPay_node, if_pos hcont]

/-- Updating one child slot preserves all stored payloads, provided the
update preserves the payloads of the slot itself. -/
theorem readPay_node_update {c : Pos D} {r : ℤ}
    {ch : ChildIx D → BBox D R (ℕ × A)} {k : ChildIx D}
    {sub : BBox D R (ℕ × A)}
    (hstab : ∀ q x, readPay (ch k) q = some x → readPay sub q = some x) :
    ∀ q x, readPay (.node c r ch) q = some x →
      readPay (.node c r (updFn ch k sub)) q = some x := by
  intro q x hq
  rw [readPay_node] at hq ⊢
  by_cases hc : nodeContains c r q = true
  · rw [if_pos hc] at hq ⊢
    by_cases hqk : childIx c r q = k
    · rw [hqk] at hq ⊢
      rw [updFn_same]
      exact hstab q x hq
    · rw [updFn_noteq hqk]
      exact hq
  · rw [if_neg hc] at hq; cases hq

theorem wfAt_update {j : ℕ} {c : Pos D} {r : ℤ}
    {ch : ChildIx D → BBox D R P} {k : ChildIx D} {sub : BBox D R P}
    (hwf : wfAt (j + 1) c (.node c r ch) = true)
    (hsub : wfChild j (subCenter c (radSeq R j) k) sub = true) :
    wfAt (j + 1) c (.node c r (updFn ch k sub)) = true := by
  obtain ⟨hc, hr, hch⟩ := wfAt_node_iff.mp hwf
  refine wfAt_node_iff.mpr ⟨hc, hr, fun ix => ?_⟩
  by_cases hik : ix = k
  · subst hik; rw [updFn_same]; exact hsub
  · rw [updFn_noteq hik]; exact hch ix

/-- The down-phase of `_get` preserves well-formedness, preserves every
stored payload, and makes the payload it returns readable at `pos`. -/
theorem downB_main (hR : 1 < R) (init : Pos D → A) :
    ∀ (f : ℕ) {j : ℕ} {p c : Pos D} {r : ℤ}
      {ch : ChildIx D → BBox D R (ℕ × A)} {nid : ℕ} {pay : ℕ × A}
      {t' : BBox D R (ℕ × A)} {nid' : ℕ},
    wfAt (j + 1) c (.node c r ch) = true →
    nodeContains c r p = true →
    downB init f p (.node c r ch) nid = some (pay, t', nid') →
    wfAt (j + 1) c t' = true ∧
      (∀ q x, readPay (.node c r ch) q = some x → readPay t' q = some x) ∧
      readPay t' p = some pay := by
  intro f
  induction f with
  | zero =>
      intro j p c r ch nid pay t' nid' hwf hcont hd
      rw [downB] at hd; cases hd
  | succ f ihf =>
      intro j p c r ch nid pay t' nid' hwf hcont hd
      have hr : r = radSeq R j := wfAt_node_rad hwf
      have hrnn : (0 : ℤ) ≤ r := hr ▸ radSeq_nonneg R j
      have hch := (wfAt_node_iff.mp hwf).2.2
      have hsp := subCenterAt_span c r p hrnn hcont
      simp only [downB] at hd
      rcases hch0 : ch (childIx c r p) with _ | ⟨cl, dl⟩ | ⟨cn, rn, chn⟩
      · -- null slot: materialize a leaf (r = R) or an intermediate node
        simp only [hch0] at hd
        by_cases hrR : r = (R : ℤ)
        · rw [if_pos hrR] at hd
          simp only [Option.some_inj, Prod.mk.injEq] at hd
          obtain ⟨h1, h2, h3⟩ := hd
          subst h2
          have hj0 : j = 0 :=
            (radSeq_eq_R_iff (R := R) (by omega) j).mp (by rw [← hr]; exact hrR)
          subst hj0
          have hlc : leafContains R (subCenterAt c r p) p = true := by
            rw [leafContains_iff]
            intro i
            have h0 := hsp i
            have hq := hrR
            omega
          refine ⟨?_, ?_, ?_⟩
          · refine wfAt_update hwf ?_
            rw [wfChild_iff]
            right
            refine wfAt_leaf_iff.mpr ⟨rfl, ?_⟩
            show subCenterAt c r p = _
            rw [hr]; rfl
          · refine readPay_node_update ?_
            intro q x hq
            rw [hch0, readPay_null] at hq
            cases hq
          · rw [readPay_node_at hcont, updFn_same, mkLeaf,
              readPay_leaf, if_pos hlc, ← h1]
        · rw [if_neg hrR] at hd
          rw [Option.map_eq_some'] at hd
          obtain ⟨⟨pay0, sub, nid0⟩, hdown, heq⟩ := hd
          simp only [Prod.mk.injEq] at heq
          obtain ⟨h1, h2, h3⟩ := heq
          subst h1 h2
          obtain ⟨j', hj'⟩ : ∃ j', j = j' + 1 := by
            cases j with
            | zero => exact absurd (hr.trans rfl) hrR
            | succ j' => exact ⟨j', rfl⟩
          subst hj'
          have hdiv : cppDiv (r - 1) 3 = radSeq R j' := by
            rw [hr]; exact cppDiv_succ_radSeq R j'
          rw [hdiv] at hdown
          have hwfsub : wfAt (j' + 1) (subCenterAt c r p)
              ((.node (subCenterAt c r p) (radSeq R j') (fun _ => .null)) :
                BBox D R (ℕ × A)) = true := by
            refine wfAt_node_iff.mpr ⟨rfl, rfl, fun ix => ?_⟩
            rw [wfChild_iff]; left; rfl
          have hcsub : nodeContains (subCenterAt c r p) (radSeq R j') p = true := by
            rw [nodeContains_iff]
            intro i
            have h0 := hsp i
            have hre : 3 * radSeq R j' + 1 = r := by rw [hr]; rfl
            omega
          obtain ⟨hwf', hstab', hread'⟩ := ihf hwfsub hcsub hdown
          refine ⟨?_, ?_, ?_⟩
          · refine wfAt_update hwf ?_
            rw [wfChild_iff]
            right
            have hcc : subCenter c (radSeq R (j' + 1)) (childIx c r p) =
                subCenterAt c r p := by rw [hr]; rfl
            rw [hcc]
            exact hwf'
          · refine readPay_node_update ?_
            intro q x hq
            rw [hch0, readPay_null] at hq
            cases hq
          · rw [readPay_node_at hcont, updFn_same]
            exact hread'
      · -- existing leaf child: return its payload, tree unchanged
        simp only [hch0, Option.some_inj, Prod.mk.injEq] at hd
        obtain ⟨h1, h2, h3⟩ := hd
        subst h2
        have hwfl := hch (childIx c r p)
        rw [hch0, wfChild_iff] at hwfl
        rcases hwfl with hnull | hwfl
        · cases hnull
        obtain ⟨hj0, hcl⟩ := wfAt_leaf_iff.mp hwfl
        subst hj0
        have hcl' : cl = subCenterAt c r p := by rw [hcl, hr]; rfl
        have hrR : r = (R : ℤ) := by rw [hr]; rfl
        have hlc : leafContains R cl p = true := by
          rw [leafContains_iff, hcl']
          intro i
          have h0 := hsp i
          omega
        refine ⟨hwf, fun q x hq => hq, ?_⟩
        rw [readPay_node_at hcont, hch0, readPay_leaf, if_pos hlc, ← h1]
      · -- existing node child: descend
        simp only [hch0] at hd
        rw [Option.map_eq_some'] at hd
        obtain ⟨⟨pay0, sub, nid0⟩, hdown, heq⟩ := hd
        simp only [Prod.mk.injEq] at heq
        obtain ⟨h1, h2, h3⟩ := heq
        subst h1 h2
        have hwfn := hch (childIx c r p)
        rw [hch0, wfChild_iff] at hwfn
        rcases hwfn with hnull | hwfn
        · cases hnull
        obtain ⟨j', hj'⟩ : ∃ j', j = j' + 1 := by
          cases j with
          | zero => rw [wfAt_zero_node] at hwfn; cases hwfn
          | succ j' => exact ⟨j', rfl⟩
        subst hj'
        obtain ⟨hcn', hrn, hchn⟩ := wfAt_node_iff.mp hwfn
        have hcn2 : cn = subCenterAt c r p := by rw [hcn', hr]; rfl
        rw [← hcn'] at hwfn
        have hcsub : nodeContains cn rn p = true := by
          rw [nodeContains_iff, hcn2]
          intro i
          have h0 := hsp i
          have hspan : 3 * rn + 1 = r := by rw [hrn, hr]; rfl
          omega
        obtain ⟨hwf', hstab', hread'⟩ := ihf hwfn hcsub hdown
        refine ⟨?_, ?_, ?_⟩
        · refine wfAt_update hwf ?_
          rw [wfChild_iff]
          right
          have hcc : subCenter c (radSeq R (j' + 1)) (childIx c r p) = cn := by
            rw [hcn2, hr]; rfl
          rw [hcc]
          exact hwf'
        · refine readPay_node_update ?_
          intro q x hq
          rw [hch0] at hq
          exact hstab' q x hq
        · rw [readPay_node_at hcont, updFn_same]
          exact hread'

/-- `_get` preserves well-formedness, preserves every already-stored payload
(identity and value), and the payload it returns is afterwards stored at
`pos`. -/
theorem getB_main (hR : 1 < R) (init : Pos D → A) {f : ℕ} {p : Pos D}
    {st st' : BState D R A} {pay : ℕ × A}
    (hwf : WFB st) (hg : getB init f p st = some (pay, st')) :
    WFB st' ∧
      (∀ q x, readPay st.tree q = some x → readPay st'.tree q = some x) ∧
      readPay st'.tree p = some pay := by
  obtain ⟨j, hj⟩ := hwf
  rw [getB] at hg
  rcases hup : upPhase f (updRange p st).tree p with _ | t
  · rw [hup] at hg; cases hg
  have hj' : wfAt j (zeroPos D) (updRange p st).tree = true := hj
  obtain ⟨j', hwf', hrd, hcont⟩ := upPhase_main hR f hj' hup
  rw [hup] at hg
  rcases t with _ | ⟨cl, dl⟩ | ⟨cn, rn, chn⟩
  · cases hg
  · -- the containing ancestor is a (root) leaf: fast path
    simp only [Option.some_inj, Prod.mk.injEq] at hg
    obtain ⟨h1, h2⟩ := hg
    subst h2
    have hlc : leafContains R cl p = true := hcont
    refine ⟨⟨j', hwf'⟩, ?_, ?_⟩
    · intro q x hq
      rw [show (⟨.leaf cl dl, (updRange p st).nextId, (updRange p st).rangemin,
        (updRange p st).rangemax, (updRange p st).callDtors⟩ : BState D R A).tree
          = BBox.leaf cl dl from rfl]
      rw [hrd q]
      exact hq
    · rw [show (⟨.leaf cl dl, (updRange p st).nextId, (updRange p st).rangemin,
        (updRange p st).rangemax, (updRange p st).callDtors⟩ : BState D R A).tree
          = BBox.leaf cl dl from rfl]
      rw [readPay_leaf, if_pos hlc, ← h1]
  · -- the containing ancestor is a node: run the down-phase
    obtain ⟨jj, hjj⟩ : ∃ jj, j' = jj + 1 := by
      cases j' with
      | zero => rw [wfAt_zero_node] at hwf'; cases hwf'
      | succ jj => exact ⟨jj, rfl⟩
    subst hjj
    rw [Option.map_eq_some'] at hg
    obtain ⟨⟨pay0, sub, nid0⟩, hdown, heq⟩ := hg
    simp only [Prod.mk.injEq] at heq
    obtain ⟨h1, h2⟩ := heq
    subst h2
    obtain ⟨hcz, hrz, hchz⟩ := wfAt_node_iff.mp hwf'
    subst hcz
    obtain ⟨hwfd, hstabd, hreadd⟩ := downB_main hR init f hwf' hcont hdown
    refine ⟨⟨jj + 1, hwfd⟩, ?_, ?_⟩
    · intro q x hq
      exact hstabd q x ((hrd q).symm ▸ hq)
    · rw [← h1]; exact hreadd

/-- In-place assignment via `writeVal` on a materialized position: the slot's
identity is kept, its value replaced; every other position is untouched. -/
theorem writeVal_read {t : BBox D R (ℕ × A)} {p : Pos D} {x0 : ℕ × A}
    (hm : readPay t p = some x0) (v : A) :
    ∀ q, readPay (writeVal t p v) q =
      if q = p then some (x0.1, v) else readPay t q := by
  induction t with
  | null => rw [readPay_null] at hm; cases hm
  | leaf c d =>
      rw [readPay_leaf] at hm
      by_cases hpc : leafContains R c p = true
      case neg => rw [if_neg hpc] at hm; cases hm
      rw [if_pos hpc] at hm
      intro q
      rw [writeVal, readPay_leaf, readPay_leaf]
      by_cases hqc : leafContains R c q = true
      · by_cases hqp : q = p
        · subst hqp
          rw [if_pos rfl, if_pos hqc, updFn_same,
            Option.some_inj.mp hm]
        · have hsl : slotIx R c q ≠ slotIx R c p := fun heq =>
            hqp (slotIx_inj c q p hqc hpc heq)
          rw [if_neg hqp, if_pos hqc, if_pos hqc, updFn_noteq hsl]
      · have hqp : ¬(q = p) := fun h => hqc (h ▸ hpc)
        rw [if_neg hqp, if_neg hqc, if_neg hqc]
  | node c r ch ih =>
      rw [readPay_node] at hm
      by_cases hpc : nodeContains c r p = true
      case neg => rw [if_neg hpc] at hm; cases hm
      rw [if_pos hpc] at hm
      intro q
      rw [writeVal, readPay_node, readPay_node]
      by_cases hqc : nodeContains c r q = true
      · by_cases hk : childIx c r q = childIx c r p
        · rw [if_pos hqc, hk, updFn_same, ih _ hm q]
          by_cases hqp : q = p
          · rw [if_pos hqp, if_pos hqp]
          · rw [if_neg hqp, if_neg hqp, if_pos hqc]
        · have hqp : ¬(q = p) := fun h => hk (by rw [h])
          rw [if_pos hqc, updFn_noteq hk, if_neg hqp, if_pos hqc]
      · have hqp : ¬(q = p) := fun h => hqc (h ▸ hpc)
        rw [if_neg hqc, if_neg hqp, if_neg hqc]

/-- `writeVal` keeps the tree geometry (only a slot value changes). -/
theorem writeVal_wfAt {v : A} :
    ∀ (j : ℕ) (c : Pos D) (t : BBox D R (ℕ × A)) (p : Pos D),
    wfAt j c t = true → wfAt j c (writeVal t p v) = true := by
  intro j
  induction j with
  | zero =>
      intro c t p h
      cases t with
      | null => rw [wfAt_null] at h; cases h
      | leaf c' d => rw [writeVal]; rwa [wfAt_leaf_iff] at h ⊢
      | node c' r ch => rw [wfAt_zero_node] at h; cases h
  | succ j ihj =>
      intro c t p h
      cases t with
      | null => rw [wfAt_null] at h; cases h
      | leaf c' d => rw [wfAt_leaf_iff] at h; exact absurd h.1 (by omega)
      | node c' r ch =>
          obtain ⟨hc, hr, hch⟩ := wfAt_node_iff.mp h
          rw [writeVal]
          refine wfAt_node_iff.mpr ⟨hc, hr, fun ix => ?_⟩
          by_cases hik : ix = childIx c' r p
          · subst hik
            rw [updFn_same]
            have hthis := hch (childIx c' r p)
            rw [wfChild_iff] at hthis ⊢
            rcases hthis with hnull | hwfc
            · left; rw [hnull, writeVal]
            · right; exact ihj _ _ p hwfc
          · rw [updFn_noteq hik]
            exact hch ix

/-- One `get`/`set` step preserves well-formedness and the identity of every
stored payload (values are preserved too, except at the position a `set`
writes). -/
theorem bstepGS_preserve (hR : 1 < R) {init : Pos D → A}
    {st st' : BState D R A} (h : BStepGS init st st') (hwf : WFB st) :
    WFB st' ∧
      ∀ q i a, readPay st.tree q = some (i, a) →
        ∃ a', readPay st'.tree q = some (i, a') := by
  cases h with
  | get hg =>
      obtain ⟨hwf', hstab, _⟩ := getB_main hR init hwf hg
      exact ⟨hwf', fun q i a hq => ⟨a, hstab q (i, a) hq⟩⟩
  | set hs =>
      rename_i f p v
      rw [setB] at hs
      rw [Option.map_eq_some'] at hs
      obtain ⟨⟨pay, st1⟩, hg, heq⟩ := hs
      obtain ⟨hwf1, hstab, hread⟩ := getB_main hR init hwf hg
      subst heq
      obtain ⟨j1, hj1⟩ := hwf1
      constructor
      · exact ⟨j1, writeVal_wfAt j1 _ _ p hj1⟩
      · intro q i a hq
        have hq1 : readPay st1.tree q = some (i, a) := hstab q (i, a) hq
        rw [writeVal_read hread v q]
        by_cases hqp : q = p
        · subst hqp
          rw [hq1] at hread
          refine ⟨v, ?_⟩
          rw [if_pos rfl, ← Option.some_inj.mp hread]
        · rw [if_neg hqp]
          exact ⟨a, hq1⟩

theorem growRoot_isNode {t : BBox D R P} (h : t.isNode = true) :
    (growRoot t).isNode = true := by
  cases t with
  | null => cases h
  | leaf c d => cases h
  | node c r ch => rw [growRoot]; split <;> rfl

theorem upPhase_isNode {t t' : BBox D R P} {p : Pos D} :
    ∀ (f : ℕ), t.isNode = true → upPhase f t p = some t' → t'.isNode = true := by
  intro f
  induction f generalizing t with
  | zero =>
      intro hn h
      rw [upPhase] at h
      split at h
      · rw [← Option.some_inj.mp h]; exact hn
      · cases h
  | succ f ihf =>
      intro hn h
      rw [upPhase] at h
      split at h
      · rw [← Option.some_inj.mp h]; exact hn
      · exact ihf (growRoot_isNode hn) h

theorem getB_isNode {init : Pos D → A} {f : ℕ} {p : Pos D}
    {st st' : BState D R A} {pay : ℕ × A}
    (hn : st.tree.isNode = true) (hg : getB init f p st = some (pay, st')) :
    st'.tree.isNode = true := by
  rw [getB] at hg
  rcases hup : upPhase f (updRange p st).tree p with _ | t
  · rw [hup] at hg; cases hg
  have hn' : t.isNode = true := upPhase_isNode f hn hup
  rw [hup] at hg
  rcases t with _ | ⟨cl, dl⟩ | ⟨cn, rn, chn⟩
  · cases hn'
  · cases hn'
  · rw [Option.map_eq_some'] at hg
    obtain ⟨⟨pay0, sub, nid0⟩, hdown, heq⟩ := hg
    simp only [Prod.mk.injEq] at heq
    obtain ⟨h1, h2⟩ := heq
    subst h2
    -- the down-phase output tree is always rebuilt as a node
    rcases hf : (f : ℕ) with _ | f0
    · rw [hf, downB] at hdown; cases hdown
    · rw [hf] at hdown
      simp only [downB] at hdown
      rcases hch0 : chn (childIx cn rn p) with _ | ⟨c2, d2⟩ | ⟨c2, r2, ch2⟩ <;>
        simp only [hch0] at hdown
      · split_ifs at hdown with hr2
        · simp only [Option.some_inj, Prod.mk.injEq] at hdown
          rw [← hdown.2.1]; rfl
        · rw [Option.map_eq_some'] at hdown
          obtain ⟨y, hy, heq2⟩ := hdown
          simp only [Prod.mk.injEq] at heq2
          rw [← heq2.2.1]; rfl
      · simp only [Option.some_inj, Prod.mk.injEq] at hdown
        rw [← hdown.2.1]; rfl
      · rw [Option.map_eq_some'] at hdown
        obtain ⟨y, hy, heq2⟩ := hdown
        simp only [Prod.mk.injEq] at heq2
        rw [← heq2.2.1]; rfl

theorem writeVal_isNode {t : BBox D R (ℕ × A)} {p : Pos D} {v : A}
    (h : t.isNode = true) : (writeVal t p v).isNode = true := by
  cases t with
  | null => cases h
  | leaf c d => cases h
  | node c r ch => rw [writeVal]; rfl

theorem setB_isNode {init : Pos D → A} {f : ℕ} {p : Pos D} {v : A}
    {st st' : BState D R A}
    (hn : st.tree.isNode = true) (hs : setB init f p v st = some st') :
    st'.tree.isNode = true := by
  rw [setB, Option.map_eq_some'] at hs
  obtain ⟨⟨pay, st1⟩, hg, heq⟩ := hs
  subst heq
  exact writeVal_isNode (getB_isNode hn hg)

theorem wfb1_of_wfb_node {st : BState D R A} (hn : st.tree.isNode = true)
    (h : WFB st) : WFB1 st := by
  obtain ⟨j, hj⟩ := h
  cases j with
  | zero =>
      rcases ht : st.tree with _ | ⟨c, d⟩ | ⟨c, r, ch⟩
      · rw [ht] at hj; rw [wfAt_null] at hj; cases hj
      · rw [ht] at hn; cases hn
      · rw [ht] at hj; rw [wfAt_zero_node] at hj; cases hj
  | succ j => exact ⟨j, hj⟩

theorem freshB_wf (cd : Bool) :
    wfAt 1 (zeroPos D) (freshB D R A cd).tree = true := by
  refine wfAt_node_iff.mpr ⟨rfl, rfl, fun ix => ?_⟩
  rw [wfChild_iff]; left; rfl

/-- Every state reachable by `get`/`set`/`reset` operations is well-formed
with a node root. -/
theorem reachB_wf (hR : 1 < R) {init : Pos D → A} {cd : Bool}
    {st : BState D R A} (h : ReachB init cd st) : WFB1 st := by
  induction h with
  | refl => exact ⟨0, freshB_wf cd⟩
  | tail hab hbc ih =>
      rename_i b c'
      obtain ⟨j, hj⟩ := ih
      cases hbc with
      | gs hgs =>
          have hn : b.tree.isNode = true := by
            rcases ht : b.tree with _ | ⟨cc, dd⟩ | ⟨cc, rr, chch⟩
            · rw [ht, wfAt_null] at hj; cases hj
            · rw [ht, wfAt_leaf_iff] at hj; exact absurd hj.1 (by omega)
            · rfl
          have hwf : WFB b := ⟨j + 1, hj⟩
          obtain ⟨hwf', _⟩ := bstepGS_preserve hR hgs hwf
          refine wfb1_of_wfb_node ?_ hwf'
          cases hgs with
          | get hg => exact getB_isNode hn hg
          | set hs => exact setB_isNode hn hs
      | reset => exact ⟨0, freshB_wf b.callDtors⟩

end BasicWalkLemmas

section ClaimC2C9

variable {D R : ℕ} {A : Type}

/-- Claim C2 — no-move guarantee of `Grid_basic`: once `get(p)` has returned
a payload (identity `pay.1`), after any sequence of successful `get`/`set`
calls at any positions the payload stored at `p` still has the same
identity, and `get(p)` again returns that same identity (the object at `p`
is never moved, copied or destroyed; only `reset()` invalidates it). -/
theorem grid_basic_no_move (hR : 1 < R) (init : Pos D → A)
    {st st1 st2 : BState D R A} {f : ℕ} {p : Pos D} {pay : ℕ × A}
    (hwf : WFB st)
    (hget : getB init f p st = some (pay, st1))
    (hseq : Relation.ReflTransGen (BStepGS init) st1 st2) :
    (∃ a', readPay st2.tree p = some (pay.1, a')) ∧
      ∀ (f' : ℕ) (pay' : ℕ × A) (st3 : BState D R A),
        getB init f' p st2 = some (pay', st3) → pay'.1 = pay.1 := by
  obtain ⟨hwf1, _, hread1⟩ := getB_main hR init hwf hget
  have hinv : WFB st2 ∧ ∃ a', readPay st2.tree p = some (pay.1, a') := by
    induction hseq with
    | refl => exact ⟨hwf1, ⟨pay.2, hread1⟩⟩
    | tail hab hbc ih =>
        obtain ⟨hwfb, a', ha'⟩ := ih
        obtain ⟨hwfc, hstab⟩ := bstepGS_preserve hR hbc hwfb
        exact ⟨hwfc, hstab _ _ _ ha'⟩
  obtain ⟨hwf2, a', ha'⟩ := hinv
  refine ⟨⟨a', ha'⟩, ?_⟩
  intro f' pay' st3 hg3
  obtain ⟨_, hstab3, hread3⟩ := getB_main hR init hwf2 hg3
  have hsame := hstab3 p _ ha'
  rw [hread3] at hsame
  have h9 : pay' = (pay.1, a') := Option.some_inj.mp hsame
  rw [h9]

theorem grid_basic_no_move_witness :
    (∃ a', readPay wSt2.tree wP = some (((0 : ℕ), (3 : ℤ)).1, a')) ∧
      ∀ (f' : ℕ) (pay' : ℕ × ℤ) (st3 : BState 1 2 ℤ),
        getB wInit f' wP wSt2 = some (pay', st3) →
          pay'.1 = ((0 : ℕ), (3 : ℤ)).1 :=
  @grid_basic_no_move 1 2 ℤ (by norm_num) wInit wSt0 wSt1 wSt2 20 wP
    ((0 : ℕ), (3 : ℤ)) ⟨1, by decide⟩ (by rfl)
    (Relation.ReflTransGen.single
      (@BStepGS.set 1 2 ℤ wInit 20 (fun _ => 100) 7 wSt1 wSt2 (by rfl)))

/-- Claim C9 (amended) — tree-structure invariant: in every `Grid_basic`
state reachable by `get`/`set`/`reset` operations (for `R > 1`), the tree is
geometrically well-formed: the root is a node, every node's radius belongs
to the sequence `R, 3R+1, 9R+4, …` generated from `R` by `r ↦ 3r+1`
(the base node has radius exactly `R`, not `> R`), every node of radius
`radSeq (j+1)` has node children of radius `radSeq j = (rad-1)/3`, and every
node of radius `R` has leaf children. -/
theorem node_radius_invariant (hR : 1 < R) (init : Pos D → A) (cd : Bool)
    {st : BState D R A} (h : ReachB init cd st) :
    ∃ j, wfAt (j + 1) (zeroPos D) st.tree = true :=
  reachB_wf hR h

theorem node_radius_invariant_witness :
    ∃ j, wfAt (j + 1) (zeroPos 1) (freshB 1 2 ℤ true).tree = true :=
  node_radius_invariant (by norm_num) wInit true Relation.ReflTransGen.refl

/-- Claim C9, counterexample to the claim as stated: the freshly constructed
grid is reachable, and its tree has a node (the base node) whose radius is
exactly `R`, not strictly greater than `R`. -/
theorem node_radius_strict_cx :
    ReachB wInit true (freshB 1 2 ℤ true) ∧
      radsAllGT (freshB 1 2 ℤ true).tree = false :=
  ⟨Relation.ReflTransGen.refl, by decide⟩

end ClaimC2C9

section EnumLemmas

variable {D R : ℕ}

theorem mem_childIxList (ix : ChildIx D) : ix ∈ childIxList D := by
  rw [childIxList]
  exact List.mem_map.mpr
    ⟨finFunctionFinEquiv ix, List.mem_finRange _, Equiv.symm_apply_apply _ _⟩

theorem mem_slotIxList (k : SlotIx D R) : k ∈ slotIxList D R := by
  rw [slotIxList]
  exact List.mem_map.mpr
    ⟨finFunctionFinEquiv k, List.mem_finRange _, Equiv.symm_apply_apply _ _⟩

theorem nodup_childIxList (D : ℕ) : (childIxList D).Nodup :=
  (List.nodup_finRange _).map finFunctionFinEquiv.symm.injective

theorem nodup_slotIxList (D R : ℕ) : (slotIxList D R).Nodup :=
  (List.nodup_finRange _).map finFunctionFinEquiv.symm.injective

theorem countP_eq_card_iff_all {α : Type} (l : List α) (p : α → Bool) :
    l.countP p = l.length ↔ ∀ a ∈ l, p a = true :=
  List.countP_eq_length

end EnumLemmas

section BasicRoundTrip

variable {D R : ℕ} {A : Type}

theorem readPay_mapPay {P Q : Type} (f : P → Q) (t : BBox D R P) (p : Pos D) :
    readPay (t.mapPay f) p = (readPay t p).map f := by
  induction t with
  | null => rfl
  | leaf c d =>
      show readPay (.leaf c fun k => f (d k)) p = _
      rw [readPay, readPay]
      split <;> rfl
  | node c r ch ih =>
      show readPay (.node c r fun ix => (ch ix).mapPay f) p = _
      rw [readPay, readPay]
      split
      · exact ih _
      · rfl

theorem parseSlots_ser (nid : ℕ) (d : SlotIx D R → ℕ × A) :
    ∀ (ks : List (SlotIx D R)) (acc : SlotIx D R → ℕ × A)
      (rest : List (Tok D A)),
    ∃ acc', parseSlots nid ks (ks.map (fun k => .val (d k).2) ++ rest) acc
        = some (acc', rest) ∧
      ∀ k, acc' k = if k ∈ ks
        then (nid + (finFunctionFinEquiv k : ℕ), (d k).2) else acc k := by
  intro ks
  induction ks with
  | nil =>
      intro acc rest
      exact ⟨acc, rfl, fun k => by simp⟩
  | cons k0 ks ih =>
      intro acc rest
      obtain ⟨acc', h1, h2⟩ :=
        ih (updFn acc k0 (nid + (finFunctionFinEquiv k0 : ℕ), (d k0).2)) rest
      refine ⟨acc', h1, fun k => ?_⟩
      rw [h2 k]
      by_cases hk : k ∈ ks
      · rw [if_pos hk, if_pos (List.mem_cons_of_mem _ hk)]
      · rw [if_neg hk]
        by_cases hk0 : k = k0
        · subst hk0
          rw [if_pos (List.mem_cons_self _ _), updFn_same]
        · rw [if_neg (by simp [hk, hk0]), updFn_noteq hk0]

theorem heightB_child_le (ch : ChildIx D → BBox D R (ℕ × A)) :
    ∀ (ixs : List (ChildIx D)) (m : ℕ) (ix : ChildIx D), ix ∈ ixs →
      heightB (ch ix) ≤ ixs.foldr (fun ix m => max (heightB (ch ix)) m) m := by
  intro ixs
  induction ixs with
  | nil => intro m ix h; cases h
  | cons ix0 ixs ih =>
      intro m ix h
      rcases List.mem_cons.mp h with h0 | h0
      · subst h0; exact le_max_left _ _
      · exact le_trans (ih m ix h0) (le_max_right _ _)

theorem heightB_child_lt {c : Pos D} {r : ℤ} {ch : ChildIx D → BBox D R (ℕ × A)}
    (ix : ChildIx D) : heightB (ch ix) < heightB (.node c r ch) := by
  rw [show heightB (.node c r ch) =
    1 + (childIxList D).foldr (fun ix m => max (heightB (ch ix)) m) 0 from rfl]
  have := heightB_child_le ch (childIxList D) 0 ix (mem_childIxList ix)
  omega

theorem parseChildrenWith_ser [Inhabited A] (f : ℕ)
    (hpt : ∀ (b : BBox D R (ℕ × A)) (n : ℕ) (rest : List (Tok D A)),
      heightB b < f →
      ∃ b' n', parseTreeB f n (serTreeB b ++ rest) = some (b', n', rest) ∧
        stripIds b' = stripIds b)
    (ch : ChildIx D → BBox D R (ℕ × A)) :
    ∀ (ixs : List (ChildIx D)), (∀ ix ∈ ixs, heightB (ch ix) < f) →
    ∀ (acc : ChildIx D → BBox D R (ℕ × A)) (nid : ℕ) (rest : List (Tok D A)),
    ∃ acc' nid',
      parseChildrenWith (fun n t => parseTreeB f n t) ixs acc nid
        ((ixs.bind fun ix => serTreeB (ch ix)) ++ rest)
        = some (acc', nid', rest) ∧
      ∀ ix, stripIds (acc' ix) =
        if ix ∈ ixs then stripIds (ch ix) else stripIds (acc ix) := by
  intro ixs
  induction ixs with
  | nil =>
      intro _ acc nid rest
      exact ⟨acc, nid, rfl, fun ix => by simp⟩
  | cons ix0 ixs ih =>
      intro hh acc nid rest
      obtain ⟨b', n', hparse, hstrip⟩ :=
        hpt (ch ix0) nid ((ixs.bind fun ix => serTreeB (ch ix)) ++ rest)
          (hh ix0 (List.mem_cons_self _ _))
      obtain ⟨acc', nid', h1, h2⟩ :=
        ih (fun ix hix => hh ix (List.mem_cons_of_mem _ hix))
          (updFn acc ix0 b') n' rest
      refine ⟨acc', nid', ?_, ?_⟩
      · rw [show ((ix0 :: ixs).bind fun ix => serTreeB (ch ix)) ++ rest
            = serTreeB (ch ix0) ++
              ((ixs.bind fun ix => serTreeB (ch ix)) ++ rest) by
          simp [List.cons_bind]]
        rw [parseChildrenWith, hparse]
        exact h1
      · intro ix
        rw [h2 ix]
        by_cases hk : ix ∈ ixs
        · rw [if_pos hk, if_pos (List.mem_cons_of_mem _ hk)]
        · rw [if_neg hk]
          by_cases hk0 : ix = ix0
          · subst hk0
            rw [if_pos (List.mem_cons_self _ _), updFn_same, hstrip]
          · rw [if_neg (by simp [hk, hk0]), updFn_noteq hk0]

theorem parseTreeB_ser [Inhabited A] :
    ∀ (f : ℕ) (t : BBox D R (ℕ × A)), heightB t < f →
    ∀ (nid : ℕ) (rest : List (Tok D A)),
    ∃ t' nid', parseTreeB f nid (serTreeB t ++ rest) = some (t', nid', rest) ∧
      stripIds t' = stripIds t := by
  intro f
  induction f with
  | zero => intro t h; omega
  | succ f ihf =>
      intro t ht nid rest
      cases t with
      | null => exact ⟨.null, nid, rfl, rfl⟩
      | leaf c d =>
          obtain ⟨acc', h1, h2⟩ :=
            parseSlots_ser nid d (slotIxList D R) (fun _ => (0, default)) rest
          refine ⟨.leaf c acc', nid + leafCard D R, ?_, ?_⟩
          · rw [show serTreeB (.leaf c d) ++ rest
                = Tok.chr 'L' :: Tok.pos c :: Tok.i64 1 ::
                  ((slotIxList D R).map (fun k => .val (d k).2) ++ rest)
              from rfl]
            rw [parseTreeB, h1]
            rfl
          · show BBox.leaf c (fun k => (acc' k).2) = BBox.leaf c _
            have : (fun k => (acc' k).2) = fun k => (d k).2 := by
              funext k
              rw [h2 k, if_pos (mem_slotIxList k)]
            rw [this]
      | node c r ch =>
          have hch : ∀ ix ∈ childIxList D, heightB (ch ix) < f := by
            intro ix _
            have := @heightB_child_lt D R A c r ch ix
            omega
          obtain ⟨acc', nid', h1, h2⟩ :=
            parseChildrenWith_ser f
              (fun b n rest2 hb => ihf b hb n rest2) ch (childIxList D) hch
              (fun _ => .null) nid rest
          refine ⟨.node c r acc', nid', ?_, ?_⟩
          · rw [show serTreeB (.node c r ch) ++ rest
                = Tok.chr 'N' :: Tok.pos c :: Tok.i64 r ::
                  (((childIxList D).bind fun ix => serTreeB (ch ix)) ++ rest)
              from rfl]
            rw [parseTreeB, h1]
            rfl
          · show BBox.node c r (fun ix => stripIds (acc' ix))
              = BBox.node c r _
            have : (fun ix => stripIds (acc' ix))
                = fun ix => stripIds (ch ix) := by
              funext ix
              rw [h2 ix, if_pos (mem_childIxList ix)]
            rw [this]
            rfl

/-- `save` then `load` of a `Grid_basic` into a fresh container of the same
`(D, R, sizeof(T))`: the load succeeds and the resulting state has the same
ranges, the same `_callDtors` flag, and stores the same payload values at
every position (object identities are freshly reallocated). -/
theorem loadB_ser [Inhabited A] (szT : ℕ) (st st0 : BState D R A) (f : ℕ)
    (hf : heightB st.tree < f) :
    ∃ st', loadB szT f (serializeB szT st) st0 = (true, st') ∧
      st'.rangemin = st.rangemin ∧ st'.rangemax = st.rangemax ∧
      st'.callDtors = st.callDtors ∧
      ∀ p, (readPay st'.tree p).map Prod.snd
        = (readPay st.tree p).map Prod.snd := by
  obtain ⟨t', nid', h1, h2⟩ := parseTreeB_ser f st.tree hf 0 []
  have h1' : parseTreeB f 0 (serTreeB st.tree) = some (t', nid', []) := by
    have := h1
    rwa [List.append_nil] at this
  refine ⟨{ tree := t', nextId := nid',
            rangemin := st.rangemin,
            rangemax := st.rangemax,
            callDtors := st.callDtors },
    ?_, rfl, rfl, rfl, ?_⟩
  · rw [loadB, show deserializeB szT f (serializeB szT st)
        = (parseTreeB f 0 (serTreeB st.tree)).map (fun x =>
            { tree := x.1, nextId := x.2.1, rangemin := st.rangemin,
              rangemax := st.rangemax,
              callDtors := st.callDtors : BState D R A}) by
      show (if (1 : ℕ) = 1 ∧ D = D ∧ R = R ∧ szT = szT ∧ (-1 : ℤ) < 0 then
          (parseTreeB f 0 (serTreeB st.tree)).map (fun x =>
            { tree := x.1, nextId := x.2.1, rangemin := st.rangemin,
              rangemax := st.rangemax,
              callDtors := st.callDtors : BState D R A})
        else none) = _
      rw [if_pos ⟨rfl, rfl, rfl, rfl, by norm_num⟩]]
    rw [h1']
    rfl
  · intro p
    have e1 : readPay (BBox.mapPay Prod.snd t') p
        = readPay (BBox.mapPay Prod.snd st.tree) p := by
      show readPay (stripIds t') p = readPay (stripIds st.tree) p
      rw [h2]
    rw [readPay_mapPay, readPay_mapPay] at e1
    exact e1

end BasicRoundTrip

section FactorRoundTrip

variable {D R : ℕ}

theorem valueAtF_clearCounts (mins : ℤ) (t : FBox D R) (p : Pos D) :
    valueAtF mins (clearCounts t) p = valueAtF mins t p := by
  induction t with
  | null => rfl
  | special off => rfl
  | leaf c d cnt => rfl
  | node c r ch ih =>
      show valueAtF mins (.node c r fun ix => clearCounts (ch ix)) p = _
      rw [valueAtF, valueAtF]
      split
      · exact ih _
      · rfl

theorem noHomSpecLeaf_clearCounts (mins maxs : ℤ) (t : FBox D R) :
    noHomSpecLeaf mins maxs (clearCounts t) = noHomSpecLeaf mins maxs t := by
  induction t with
  | null => rfl
  | special off => rfl
  | leaf c d cnt => rfl
  | node c r ch ih =>
      show noHomSpecLeaf mins maxs (.node c r fun ix => clearCounts (ch ix)) = _
      rw [noHomSpecLeaf, noHomSpecLeaf]
      congr 1
      funext ix
      exact ih ix

theorem heightF_child_le (ch : ChildIx D → FBox D R) :
    ∀ (ixs : List (ChildIx D)) (m : ℕ) (ix : ChildIx D), ix ∈ ixs →
      heightF (ch ix) ≤ ixs.foldr (fun ix m => max (heightF (ch ix)) m) m := by
  intro ixs
  induction ixs with
  | nil => intro m ix h; cases h
  | cons ix0 ixs ih =>
      intro m ix h
      rcases List.mem_cons.mp h with h0 | h0
      · subst h0; exact le_max_left _ _
      · exact le_trans (ih m ix h0) (le_max_right _ _)

theorem heightF_child_lt {c : Pos D} {r : ℤ} {ch : ChildIx D → FBox D R}
    (ix : ChildIx D) : heightF (ch ix) < heightF (.node c r ch) := by
  rw [show heightF (.node c r ch) =
    1 + (childIxList D).foldr (fun ix m => max (heightF (ch ix)) m) 0 from rfl]
  have := heightF_child_le ch (childIxList D) 0 ix (mem_childIxList ix)
  omega

theorem parseValsF_ser (d : SlotIx D R → ℤ) :
    ∀ (ks : List (SlotIx D R)) (acc : SlotIx D R → ℤ)
      (rest : List (Tok D ℤ)),
    ∃ acc', parseValsF ks (ks.map (fun k => .val (d k)) ++ rest) acc
        = some (acc', rest) ∧
      ∀ k, acc' k = if k ∈ ks then d k else acc k := by
  intro ks
  induction ks with
  | nil =>
      intro acc rest
      exact ⟨acc, rfl, fun k => by simp⟩
  | cons k0 ks ih =>
      intro acc rest
      obtain ⟨acc', h1, h2⟩ := ih (updFn acc k0 (d k0)) rest
      refine ⟨acc', h1, fun k => ?_⟩
      rw [h2 k]
      by_cases hk : k ∈ ks
      · rw [if_pos hk, if_pos (List.mem_cons_of_mem _ hk)]
      · rw [if_neg hk]
        by_cases hk0 : k = k0
        · subst hk0
          rw [if_pos (List.mem_cons_self _ _), updFn_same]
        · rw [if_neg (by simp [hk, hk0]), updFn_noteq hk0]

theorem parseChildrenF_ser (mins maxs : ℤ) (f : ℕ) (fr : ℤ)
    (hpt : ∀ (b : FBox D R) (s : FStats) (rest : List (Tok D ℤ)),
      heightF b < f →
      ∃ b' s', parseTreeF mins maxs f (some fr) s (serTreeF mins b ++ rest)
          = some (b', s', rest) ∧
        clearCounts b' = clearCounts b)
    (ch : ChildIx D → FBox D R) :
    ∀ (ixs : List (ChildIx D)), (∀ ix ∈ ixs, heightF (ch ix) < f) →
    ∀ (acc : ChildIx D → FBox D R) (s : FStats) (rest : List (Tok D ℤ)),
    ∃ acc' s',
      parseChildrenF (fun fr2 s2 t2 => parseTreeF mins maxs f fr2 s2 t2)
        (some fr) ixs acc s
        ((ixs.bind fun ix => serTreeF mins (ch ix)) ++ rest)
        = some (acc', s', rest) ∧
      ∀ ix, clearCounts (acc' ix) =
        if ix ∈ ixs then clearCounts (ch ix) else clearCounts (acc ix) := by
  intro ixs
  induction ixs with
  | nil =>
      intro _ acc s rest
      exact ⟨acc, s, rfl, fun ix => by simp⟩
  | cons ix0 ixs ih =>
      intro hh acc s rest
      obtain ⟨b', s', hparse, hstrip⟩ :=
        hpt (ch ix0) s ((ixs.bind fun ix => serTreeF mins (ch ix)) ++ rest)
          (hh ix0 (List.mem_cons_self _ _))
      obtain ⟨acc', s'', h1, h2⟩ :=
        ih (fun ix hix => hh ix (List.mem_cons_of_mem _ hix))
          (updFn acc ix0 b') s' rest
      refine ⟨acc', s'', ?_, ?_⟩
      · rw [show ((ix0 :: ixs).bind fun ix => serTreeF mins (ch ix)) ++ rest
            = serTreeF mins (ch ix0) ++
              ((ixs.bind fun ix => serTreeF mins (ch ix)) ++ rest) by
          simp [List.cons_bind]]
        rw [parseChildrenF, hparse]
        exact h1
      · intro ix
        rw [h2 ix]
        by_cases hk : ix ∈ ixs
        · rw [if_pos hk, if_pos (List.mem_cons_of_mem _ hk)]
        · rw [if_neg hk]
          by_cases hk0 : ix = ix0
          · subst hk0
            rw [if_pos (List.mem_cons_self _ _), updFn_same, hstrip]
          · rw [if_neg (by simp [hk, hk0]), updFn_noteq hk0]

theorem parseTreeF_ser (mins maxs : ℤ) :
    ∀ (f : ℕ) (t : FBox D R), heightF t < f →
    ∀ (fr : Option ℤ), (t.isSpecialLink = true → fr ≠ none) →
    ∀ (s : FStats) (rest : List (Tok D ℤ)),
    ∃ t' s', parseTreeF mins maxs f fr s (serTreeF mins t ++ rest)
        = some (t', s', rest) ∧
      clearCounts t' = clearCounts t := by
  intro f
  induction f with
  | zero => intro t h; omega
  | succ f ihf =>
      intro t ht fr hfr s rest
      cases t with
      | null => exact ⟨.null, s, rfl, rfl⟩
      | special off =>
          rcases fr with _ | fr0
          · exact absurd rfl (hfr rfl)
          refine ⟨_, _, rfl, ?_⟩
          show FBox.special (mins + (off : ℤ) - mins).toNat = FBox.special off
          congr 1
          omega
      | leaf c d cnt =>
          obtain ⟨acc', h1, h2⟩ :=
            parseValsF_ser d (slotIxList D R) (fun _ => 0) rest
          have hacc : acc' = d := by
            funext k
            rw [h2 k, if_pos (mem_slotIxList k)]
          rw [hacc] at h1
          refine ⟨.leaf c d (leafSpecCount mins maxs d),
            { tnb := fun off => s.tnb off + leafSpecCount mins maxs d off,
              nn := s.nn + leafNormalCount mins maxs d,
              mn := (foldValueRange d s.mn s.mx).1,
              mx := (foldValueRange d s.mn s.mx).2 }, ?_, rfl⟩
          rw [show serTreeF mins (.leaf c d cnt) ++ rest
              = Tok.chr 'L' :: Tok.pos c :: Tok.i64 1 ::
                ((slotIxList D R).map (fun k => .val (d k)) ++ rest)
            from rfl]
          rw [parseTreeF, h1]
          rfl
      | node c r ch =>
          have hch : ∀ ix ∈ childIxList D, heightF (ch ix) < f := by
            intro ix _
            have := @heightF_child_lt D R c r ch ix
            omega
          obtain ⟨acc', s', h1, h2⟩ :=
            parseChildrenF_ser mins maxs f r
              (fun b s2 rest2 hb => ihf b hb (some r) (fun _ => by simp) s2 rest2)
              ch (childIxList D) hch (fun _ => .null) s rest
          refine ⟨.node c r acc', s', ?_, ?_⟩
          · rw [show serTreeF mins (.node c r ch) ++ rest
                = Tok.chr 'N' :: Tok.pos c :: Tok.i64 r ::
                  (((childIxList D).bind fun ix => serTreeF mins (ch ix)) ++ rest)
              from rfl]
            rw [parseTreeF, h1]
            rfl
          · show FBox.node c r (fun ix => clearCounts (acc' ix))
              = FBox.node c r _
            have : (fun ix => clearCounts (acc' ix))
                = fun ix => clearCounts (ch ix) := by
              funext ix
              rw [h2 ix, if_pos (mem_childIxList ix)]
            rw [this]

theorem parseSpecials_ser (mins : ℤ) (tab : ℕ → Bool) :
    ∀ (n i : ℕ) (acc : ℕ → Bool) (rest : List (Tok D ℤ)),
    ∃ tab', parseSpecials (D := D) n i acc
        (serSpecials mins tab n i ++ rest) = some (tab', rest) ∧
      ∀ j, tab' j = if i ≤ j ∧ j < i + n
        then (if tab j then true else acc j) else acc j := by
  intro n
  induction n with
  | zero =>
      intro i acc rest
      exact ⟨acc, rfl, fun j => by
        rw [if_neg (by omega)]⟩
  | succ n ih =>
      intro i acc rest
      by_cases hti : tab i = true
      · obtain ⟨tab', h1, h2⟩ := ih (i + 1) (updFn acc i true) rest
        refine ⟨tab', ?_, ?_⟩
        · rw [show serSpecials (D := D) mins tab (n + 1) i ++ rest
              = Tok.b true :: Tok.val (mins + i) ::
                (serSpecials mins tab n (i + 1) ++ rest) by
            rw [serSpecials, hti]; rfl]
          rw [parseSpecials]
          exact h1
        · intro j
          rw [h2 j]
          by_cases hj : i + 1 ≤ j ∧ j < i + 1 + n
          · have hj' : i ≤ j ∧ j < i + (n + 1) := by omega
            have hji : j ≠ i := by omega
            rw [if_pos hj, if_pos hj', updFn_noteq hji]
          · rw [if_neg hj]
            by_cases hji : j = i
            · have hj' : i ≤ i ∧ i < i + (n + 1) := by omega
              rw [hji, if_pos hj', hti, if_pos rfl, updFn_same]
            · have hj' : ¬(i ≤ j ∧ j < i + (n + 1)) := by omega
              rw [updFn_noteq hji, if_neg hj']
      · have hti' : tab i = false := by
          cases h : tab i
          · rfl
          · exact absurd h hti
        obtain ⟨tab', h1, h2⟩ := ih (i + 1) acc rest
        refine ⟨tab', ?_, ?_⟩
        · rw [show serSpecials (D := D) mins tab (n + 1) i ++ rest
              = Tok.b false :: (serSpecials mins tab n (i + 1) ++ rest) by
            rw [serSpecials, hti']; rfl]
          rw [parseSpecials]
          exact h1
        · intro j
          rw [h2 j]
          by_cases hj : i + 1 ≤ j ∧ j < i + 1 + n
          · have hj' : i ≤ j ∧ j < i + (n + 1) := by omega
            rw [if_pos hj, if_pos hj']
          · rw [if_neg hj]
            by_cases hji : j = i
            · have hj' : i ≤ i ∧ i < i + (n + 1) := by omega
              rw [hji, if_pos hj', hti']
              simp
            · have hj' : ¬(i ≤ j ∧ j < i + (n + 1)) := by omega
              rw [if_neg hj']

/-- `save` then `load` of a `Grid_factor` into a container of the same
`(D, R, sizeof(T))` whose `NB_SPECIAL` is at least the archived special
range: the load succeeds and reproduces the ranges, the special range, the
`_callDtors` flag and the stored value at every position. -/
theorem loadF_ser (NB szT : ℕ) (st : FState D R) (st0 : FState D R) (f : ℕ)
    (hf : heightF st.tree < f)
    (hnb : st.maxSpec - st.minSpec + 1 ≤ (NB : ℤ))
    (hroot : st.tree.isSpecialLink = false) :
    ∃ st', loadF NB szT f (serializeF szT st) st0 = (true, st') ∧
      st'.rangemin = st.rangemin ∧ st'.rangemax = st.rangemax ∧
      st'.minSpec = st.minSpec ∧ st'.maxSpec = st.maxSpec ∧
      st'.callDtors = st.callDtors ∧
      clearCounts st'.tree = clearCounts st.tree ∧
      ∀ p, valueAtF st'.minSpec st'.tree p = valueAtF st.minSpec st.tree p := by
  obtain ⟨tab', hsp, _⟩ :=
    parseSpecials_ser (D := D) st.minSpec st.tabSpecObj
      (st.maxSpec - st.minSpec + 1).toNat 0 (fun _ => false)
      (serTreeF st.minSpec st.tree)
  have hfr : (FBox.isSpecialLink st.tree = true → (none : Option ℤ) ≠ none) := by
    intro hcon
    rw [hroot] at hcon
    cases hcon
  obtain ⟨t', s', hpt, hcc⟩ :=
    parseTreeF_ser st.minSpec st.maxSpec f st.tree hf none hfr
      { tnb := fun _ => 0, nn := 0, mn := int64Max, mx := int64Min } []
  have hpt' : parseTreeF st.minSpec st.maxSpec f none
      { tnb := fun _ => 0, nn := 0, mn := int64Max, mx := int64Min }
      (serTreeF st.minSpec st.tree) = some (t', s', []) := by
    have := hpt
    rwa [List.append_nil] at this
  refine ⟨{ tree := t', rangemin := st.rangemin, rangemax := st.rangemax,
            minVal := s'.mn, maxVal := s'.mx,
            minSpec := st.minSpec, maxSpec := st.maxSpec,
            tabSpecObj := tab', tabSpecNB := s'.tnb,
            nbNormalObj := s'.nn, callDtors := st.callDtors },
    ?_, rfl, rfl, rfl, rfl, rfl, hcc, ?_⟩
  · rw [loadF, show deserializeF (D := D) (R := R) NB szT f (serializeF szT st)
        = some
            { tree := t', rangemin := st.rangemin, rangemax := st.rangemax,
              minVal := s'.mn, maxVal := s'.mx,
              minSpec := st.minSpec, maxSpec := st.maxSpec,
              tabSpecObj := tab', tabSpecNB := s'.tnb,
              nbNormalObj := s'.nn, callDtors := st.callDtors } from ?_]
    show (if (1 : ℕ) = 1 ∧ D = D ∧ R = R ∧ szT = szT ∧
        st.maxSpec - st.minSpec + 1 ≤ (NB : ℤ) then
        (parseSpecials (st.maxSpec - st.minSpec + 1).toNat 0 (fun _ => false)
          (serSpecials st.minSpec st.tabSpecObj
            (st.maxSpec - st.minSpec + 1).toNat 0 ++
              serTreeF st.minSpec st.tree)).bind (fun ps =>
          (parseTreeF st.minSpec st.maxSpec f none
              { tnb := fun _ => 0, nn := 0, mn := int64Max, mx := int64Min }
              ps.2).map (fun z =>
            ({ tree := z.1, rangemin := st.rangemin, rangemax := st.rangemax,
               minVal := z.2.1.mn, maxVal := z.2.1.mx,
               minSpec := st.minSpec, maxSpec := st.maxSpec,
               tabSpecObj := ps.1, tabSpecNB := z.2.1.tnb,
               nbNormalObj := z.2.1.nn,
               callDtors := st.callDtors } : FState D R)))
      else none) = _
    rw [if_pos ⟨rfl, rfl, rfl, rfl, hnb⟩, hsp]
    show (parseTreeF st.minSpec st.maxSpec f none _ _).map _ = _
    rw [hpt']
    rfl
  · intro p
    show valueAtF st.minSpec t' p = _
    rw [← valueAtF_clearCounts st.minSpec t' p, hcc,
      valueAtF_clearCounts]

end FactorRoundTrip

section FactorSimplify

variable {D R : ℕ}

theorem slotIxList_length (D R : ℕ) :
    (slotIxList D R).length = leafCard D R := by
  rw [slotIxList, List.length_map, List.length_finRange, leafCard]

theorem foldChildren_fst {σ : Type} (g : FBox D R → σ → FBox D R × σ)
    (h : FBox D R → FBox D R)
    (hg : ∀ b s, (g b s).1 = h b) :
    ∀ (ixs : List (ChildIx D)), ixs.Nodup →
    ∀ (ch : ChildIx D → FBox D R) (s : σ) (ix : ChildIx D),
      (foldChildren g ixs ch s).1 ix
        = if ix ∈ ixs then h (ch ix) else ch ix := by
  intro ixs
  induction ixs with
  | nil =>
      intro _ ch s ix
      rw [foldChildren, if_neg (List.not_mem_nil ix)]
  | cons ix0 ixs ih =>
      intro hnd ch s ix
      obtain ⟨hni, hnd'⟩ := List.nodup_cons.mp hnd
      rw [foldChildren]
      rw [ih hnd' _ _ ix]
      by_cases hk : ix ∈ ixs
      · rw [if_pos hk, if_pos (List.mem_cons_of_mem _ hk)]
        have hne : ix ≠ ix0 := fun he => hni (he ▸ hk)
        rw [updFn_noteq hne]
      · rw [if_neg hk]
        by_cases hk0 : ix = ix0
        · subst hk0
          rw [if_pos (List.mem_cons_self _ _), updFn_same, hg]
        · rw [if_neg (by simp [hk, hk0]), updFn_noteq hk0]

theorem simplifyBelowF_fst (mins maxs : ℤ) :
    ∀ (f : ℕ) (t : FBox D R) (s s' : SpecSt),
      (simplifyBelowF mins maxs f t s).1
        = (simplifyBelowF mins maxs f t s').1 := by
  intro f
  induction f with
  | zero =>
      intro t s s'
      cases t <;> try rfl
      rename_i c d cnt
      rw [simplifyBelowF, simplifyBelowF]
      split <;> rfl
  | succ f ihf =>
      intro t s s'
      cases t with
      | null => rfl
      | special off => rfl
      | leaf c d cnt =>
          rw [simplifyBelowF, simplifyBelowF]
          split <;> rfl
      | node c r ch =>
          rw [simplifyBelowF, simplifyBelowF]
          have hz : (foldChildren (fun b s2 => simplifyBelowF mins maxs f b s2)
              (childIxList D) ch s).1
              = (foldChildren (fun b s2 => simplifyBelowF mins maxs f b s2)
              (childIxList D) ch s').1 := by
            funext ix
            rw [foldChildren_fst _ (fun b => (simplifyBelowF mins maxs f b s).1)
                (fun b s2 => ihf b s2 s) _ (nodup_childIxList D) ch s ix,
              foldChildren_fst _ (fun b => (simplifyBelowF mins maxs f b s).1)
                (fun b s2 => ihf b s2 s) _ (nodup_childIxList D) ch s' ix]
          show collapseNode _ c r = collapseNode _ c r
          rw [hz]

theorem recountBelowF_fst (mins maxs : ℤ) :
    ∀ (f : ℕ) (t : FBox D R) (s s' : (ℕ → ℕ) × ℕ),
      (recountBelowF mins maxs f t s).1
        = (recountBelowF mins maxs f t s').1 := by
  intro f
  induction f with
  | zero => intro t s s'; cases t <;> rfl
  | succ f ihf =>
      intro t s s'
      cases t with
      | null => rfl
      | special off => rfl
      | leaf c d cnt => rfl
      | node c r ch =>
          rw [recountBelowF, recountBelowF]
          have hz : (foldChildren (fun b s2 =>
              match b with
              | .null => (FBox.null, s2)
              | .special off =>
                  (FBox.special off,
                    (updFn s2.1 off (s2.1 off + boxPowF D r), s2.2))
              | b2 => recountBelowF mins maxs f b2 s2)
              (childIxList D) ch s).1
              = (foldChildren (fun b s2 =>
              match b with
              | .null => (FBox.null, s2)
              | .special off =>
                  (FBox.special off,
                    (updFn s2.1 off (s2.1 off + boxPowF D r), s2.2))
              | b2 => recountBelowF mins maxs f b2 s2)
              (childIxList D) ch s').1 := by
            have hg : ∀ (b : FBox D R) (s2 : (ℕ → ℕ) × ℕ),
                (match b with
                | .null => (FBox.null, s2)
                | .special off =>
                    (FBox.special off,
                      (updFn s2.1 off (s2.1 off + boxPowF D r), s2.2))
                | b2 => recountBelowF mins maxs f b2 s2).1
                = (match b with
                | .null => FBox.null
                | .special off => FBox.special off
                | b2 => (recountBelowF mins maxs f b2 s).1) := by
              intro b s2
              cases b with
              | null => rfl
              | special off => rfl
              | leaf c2 d2 n2 => exact ihf _ s2 s
              | node c2 r2 ch2 => exact ihf _ s2 s
            funext ix
            rw [foldChildren_fst _ _ hg _ (nodup_childIxList D) ch s ix,
              foldChildren_fst _ _ hg _ (nodup_childIxList D) ch s' ix]
          rw [hz]

theorem recountBelowF_child (mins maxs : ℤ) (f : ℕ) {c : Pos D} {r : ℤ}
    (ch : ChildIx D → FBox D R) (s : (ℕ → ℕ) × ℕ) (ix : ChildIx D) :
    (recountBelowF mins maxs (f + 1) (.node c r ch) s).1
      = .node c r (fun ix =>
          match ch ix with
          | .null => FBox.null
          | .special off => FBox.special off
          | b2 => (recountBelowF mins maxs f b2 s).1) := by
  rw [recountBelowF]
  show FBox.node c r _ = _
  congr 1
  funext ix
  have hg : ∀ (b : FBox D R) (s2 : (ℕ → ℕ) × ℕ),
      (match b with
      | .null => (FBox.null, s2)
      | .special off =>
          (FBox.special off,
            (updFn s2.1 off (s2.1 off + boxPowF D r), s2.2))
      | b2 => recountBelowF mins maxs f b2 s2).1
      = (match b with
      | .null => FBox.null
      | .special off => FBox.special off
      | b2 => (recountBelowF mins maxs f b2 s).1) := by
    intro b s2
    cases b with
    | null => rfl
    | special off => rfl
    | leaf c2 d2 n2 => exact recountBelowF_fst mins maxs f _ s2 s
    | node c2 r2 ch2 => exact recountBelowF_fst mins maxs f _ s2 s
  rw [foldChildren_fst _ _ hg _ (nodup_childIxList D) ch s ix]
  rw [if_pos (mem_childIxList ix)]

theorem recountBelowF_acc (mins maxs : ℤ) :
    ∀ (f : ℕ) (t : FBox D R) (s : (ℕ → ℕ) × ℕ), heightF t < f →
      CountsAcc mins maxs (recountBelowF mins maxs f t s).1 := by
  intro f
  induction f with
  | zero => intro t s h; omega
  | succ f ihf =>
      intro t s ht
      cases t with
      | null => exact trivial
      | special off => exact trivial
      | leaf c d cnt =>
          show CountsAcc mins maxs (.leaf c d (leafSpecCount mins maxs d))
          intro off
          rfl
      | node c r ch =>
          rw [recountBelowF_child mins maxs f ch s 0]
          intro ix
          have hh : heightF (ch ix) < f := by
            have := @heightF_child_lt D R c r ch ix
            omega
          show CountsAcc mins maxs
            (match ch ix with
             | FBox.null => FBox.null
             | FBox.special off => FBox.special off
             | b2 => (recountBelowF mins maxs f b2 s).1)
          rcases hc : ch ix with _ | off | ⟨c2, d2, n2⟩ | ⟨c2, r2, ch2⟩
          · exact trivial
          · exact trivial
          · rw [hc] at hh
            exact ihf _ s hh
          · rw [hc] at hh
            exact ihf _ s hh

theorem recountBelowF_clear (mins maxs : ℤ) :
    ∀ (f : ℕ) (t : FBox D R) (s : (ℕ → ℕ) × ℕ), heightF t < f →
      clearCounts (recountBelowF mins maxs f t s).1 = clearCounts t := by
  intro f
  induction f with
  | zero => intro t s h; omega
  | succ f ihf =>
      intro t s ht
      cases t with
      | null => rfl
      | special off => rfl
      | leaf c d cnt => rfl
      | node c r ch =>
          rw [recountBelowF_child mins maxs f ch s 0]
          show FBox.node c r _ = FBox.node c r _
          congr 1
          funext ix
          have hh : heightF (ch ix) < f := by
            have := @heightF_child_lt D R c r ch ix
            omega
          show clearCounts
            (match ch ix with
             | FBox.null => FBox.null
             | FBox.special off => FBox.special off
             | b2 => (recountBelowF mins maxs f b2 s).1)
            = clearCounts (ch ix)
          rcases hc : ch ix with _ | off | ⟨c2, d2, n2⟩ | ⟨c2, r2, ch2⟩
          · rfl
          · rfl
          · rw [hc] at hh
            exact ihf _ s hh
          · rw [hc] at hh
            exact ihf _ s hh

/-- A leaf whose counts are accurate and whose data is homogeneous in a
special value is detected by `_isLeafFull`. -/
theorem isLeafFullF_of_hom (mins maxs : ℤ) (d : SlotIx D R → ℤ)
    (cnt : ℕ → ℕ) (hacc : ∀ off, cnt off = leafSpecCount mins maxs d off)
    (hhom : homSpecLeafData mins maxs d = true) :
    isLeafFullF mins maxs d cnt ≤ maxs := by
  rw [homSpecLeafData, Bool.and_eq_true] at hhom
  obtain ⟨hsp, hall⟩ := hhom
  have hall' : ∀ k, d k = d (slot0 D R) := of_decide_eq_true hall
  have hsp' : mins ≤ d (slot0 D R) ∧ d (slot0 D R) ≤ maxs :=
    of_decide_eq_true hsp
  have hcnt : cnt (d (slot0 D R) - mins).toNat = leafCard D R := by
    rw [hacc, leafSpecCount]
    rw [show (slotIxList D R).countP
        (fun k => isSpecialF mins maxs (d k) &&
          decide (d k = mins + ((d (slot0 D R) - mins).toNat : ℤ)))
        = (slotIxList D R).length from ?_]
    · exact slotIxList_length D R
    · rw [countP_eq_card_iff_all]
      intro k _
      rw [Bool.and_eq_true]
      constructor
      · rw [isSpecialF, hall' k]
        exact decide_eq_true hsp'
      · rw [hall' k]
        refine decide_eq_true ?_
        omega
  rw [isLeafFullF, if_pos ⟨by rw [isSpecialF]; exact decide_eq_true hsp', hcnt⟩]
  exact hsp'.2

theorem specialOffEq_eq {t : FBox D R} {off : ℕ}
    (h : t.specialOffEq off = true) : t = .special off := by
  cases t with
  | special o =>
      rw [show FBox.specialOffEq (.special o : FBox D R) off = (o == off)
        from rfl, beq_iff_eq] at h
      rw [h]
  | null => simp [FBox.specialOffEq] at h
  | leaf c d cnt => simp [FBox.specialOffEq] at h
  | node c r ch => simp [FBox.specialOffEq] at h

theorem collapseNode_cases (z1 : ChildIx D → FBox D R) (c : Pos D) (r : ℤ) :
    (∃ off, collapseNode z1 c r = .special off ∧
      ∀ i, z1 i = .special off) ∨
    collapseNode z1 c r = .node c r z1 := by
  rw [collapseNode]
  rcases hc : z1 (child0 D) with _ | off | ⟨c2, d2, n2⟩ | ⟨c2, r2, ch2⟩
  · right; rfl
  · by_cases hall : allChildIx (fun i => (z1 i).specialOffEq off) = true
    · left
      refine ⟨off, ?_, fun i => specialOffEq_eq (allChildIx_iff.mp hall i)⟩
      show (if (allChildIx fun i => (z1 i).specialOffEq off) = true
        then (FBox.special off : FBox D R) else .node c r z1) = .special off
      rw [if_pos hall]
    · right
      show (if (allChildIx fun i => (z1 i).specialOffEq off) = true
        then (FBox.special off : FBox D R) else .node c r z1) = .node c r z1
      rw [if_neg hall]
  · right; rfl
  · right; rfl

theorem simplifyBelowF_noHom (mins maxs : ℤ) :
    ∀ (f : ℕ) (t : FBox D R) (s : SpecSt), heightF t < f →
      CountsAcc mins maxs t →
      noHomSpecLeaf mins maxs (simplifyBelowF mins maxs f t s).1 = true := by
  intro f
  induction f with
  | zero => intro t s h; omega
  | succ f ihf =>
      intro t s ht hacc
      cases t with
      | null => rfl
      | special off => rfl
      | leaf c d cnt =>
          rw [simplifyBelowF]
          split
          · rfl
          · rename_i hnf
            show (!(homSpecLeafData mins maxs d)) = true
            rw [Bool.not_eq_true']
            by_contra hcon
            rw [Bool.not_eq_false] at hcon
            exact hnf (isLeafFullF_of_hom mins maxs d cnt hacc hcon)
      | node c r ch =>
          rw [simplifyBelowF]
          have hch : ∀ ix, (foldChildren
              (fun b s2 => simplifyBelowF mins maxs f b s2)
              (childIxList D) ch s).1 ix
              = (simplifyBelowF mins maxs f (ch ix) s).1 := by
            intro ix
            rw [foldChildren_fst _ (fun b => (simplifyBelowF mins maxs f b s).1)
                (fun b s2 => simplifyBelowF_fst mins maxs f b s2 s) _
                (nodup_childIxList D) ch s ix]
            rw [if_pos (mem_childIxList ix)]
          have hihs : ∀ ix, noHomSpecLeaf mins maxs
              ((foldChildren (fun b s2 => simplifyBelowF mins maxs f b s2)
                (childIxList D) ch s).1 ix) = true := by
            intro ix
            rw [hch ix]
            have hh : heightF (ch ix) < f := by
              have := @heightF_child_lt D R c r ch ix
              omega
            exact ihf (ch ix) s hh (hacc ix)
          have hnode : noHomSpecLeaf mins maxs
              (.node c r (foldChildren
                (fun b s2 => simplifyBelowF mins maxs f b s2)
                (childIxList D) ch s).1) = true := by
            rw [noHomSpecLeaf]
            exact allChildIx_iff.mpr hihs
          show noHomSpecLeaf mins maxs (collapseNode _ c r) = true
          rcases collapseNode_cases (foldChildren
              (fun b s2 => simplifyBelowF mins maxs f b s2)
              (childIxList D) ch s).1 c r with ⟨off, hcol, _⟩ | hcol <;>
            rw [hcol]
          · rfl
          · exact hnode

theorem noHomSpecLeaf_empty (mins maxs : ℤ) (hsp : maxs < mins)
    (t : FBox D R) : noHomSpecLeaf mins maxs t = true := by
  induction t with
  | null => rfl
  | special off => rfl
  | leaf c d cnt =>
      show (!(homSpecLeafData mins maxs d)) = true
      rw [homSpecLeafData, isSpecialF]
      rw [decide_eq_false (by omega)]
      rfl
  | node c r ch ih =>
      rw [noHomSpecLeaf]
      exact allChildIx_iff.mpr ih

theorem heightF_clearCounts (t : FBox D R) :
    heightF (clearCounts t) = heightF t := by
  induction t with
  | null => rfl
  | special off => rfl
  | leaf c d cnt => rfl
  | node c r ch ih =>
      show 1 + (childIxList D).foldr
        (fun ix m => max (heightF (clearCounts (ch ix))) m) 0 = _
      rw [heightF]
      congr 1
      induction (childIxList D) with
      | nil => rfl
      | cons ix0 ixs ih2 => rw [List.foldr, List.foldr, ih2, ih ix0]

/-- After `simplify()` no leaf of the tree is homogeneous in a special
value. -/
theorem simplifyF_noHom (st : FState D R) (f : ℕ)
    (hf : heightF st.tree < f) :
    noHomSpecLeaf st.minSpec st.maxSpec (simplifyF f st).tree = true := by
  rw [simplifyF]
  split
  · exact noHomSpecLeaf_empty _ _ (by assumption) _
  · show noHomSpecLeaf st.minSpec st.maxSpec
      (simplifyTreeF st.minSpec st.maxSpec f
        (recountBelowF st.minSpec st.maxSpec f st.tree (fun _ => 0, 0)).1
        (st.tabSpecObj, st.minVal, st.maxVal)).1 = true
    have hh : heightF (recountBelowF st.minSpec st.maxSpec f st.tree
        (fun _ => 0, 0)).1 < f := by
      rw [← heightF_clearCounts, recountBelowF_clear _ _ f _ _ hf,
        heightF_clearCounts]
      exact hf
    have hacc := recountBelowF_acc st.minSpec st.maxSpec f st.tree
      (fun _ => 0, 0) hf
    rw [simplifyTreeF]
    rcases hsb : simplifyBelowF st.minSpec st.maxSpec f
        (recountBelowF st.minSpec st.maxSpec f st.tree (fun _ => 0, 0)).1
        (st.tabSpecObj, st.minVal, st.maxVal) with ⟨tb, sb⟩
    have hnh : noHomSpecLeaf st.minSpec st.maxSpec tb = true := by
      have := simplifyBelowF_noHom st.minSpec st.maxSpec f _
        (st.tabSpecObj, st.minVal, st.maxVal) hh hacc
      rw [hsb] at this
      exact this
    cases tb with
    | null => exact hnh
    | special off =>
        cases hrt : (recountBelowF st.minSpec st.maxSpec f st.tree
            (fun _ => 0, 0)).1 with
        | null => exact hnh
        | special off2 => exact hnh
        | leaf c2 d2 n2 => exact hnh
        | node c2 r2 ch2 =>
            show noHomSpecLeaf st.minSpec st.maxSpec
              (.node c2 (3 * r2 + 1) (fun ix =>
                if ix = childMid D then FBox.special off else .null)) = true
            rw [noHomSpecLeaf]
            refine allChildIx_iff.mpr (fun ix => ?_)
            split <;> rfl
    | leaf c2 d2 n2 => exact hnh
    | node c2 r2 ch2 => exact hnh

end FactorSimplify

section FactorGeometry

variable {D R : ℕ}

theorem wfFAt_null {j : ℕ} {c : Pos D} :
    wfFAt j c (.null : FBox D R) = false := by
  cases j with
  | zero => rw [wfFAt]
  | succ j => rw [wfFAt]

theorem wfFAt_special {j : ℕ} {c : Pos D} {off : ℕ} :
    wfFAt j c (.special off : FBox D R) = false := by
  cases j with
  | zero => rw [wfFAt]
  | succ j => rw [wfFAt]

theorem wfFAt_zero_node {c c' : Pos D} {r : ℤ} {ch : ChildIx D → FBox D R} :
    wfFAt 0 c (.node c' r ch) = false := by rw [wfFAt]

theorem wfFAt_leaf_iff {j : ℕ} {c c' : Pos D} {d : SlotIx D R → ℤ}
    {cnt : ℕ → ℕ} :
    wfFAt j c (.leaf c' d cnt) = true ↔ j = 0 ∧ c' = c := by
  cases j with
  | zero => rw [wfFAt]; simp
  | succ j => rw [wfFAt]; simp

theorem wfFAt_node_iff {j : ℕ} {c c' : Pos D} {r : ℤ}
    {ch : ChildIx D → FBox D R} :
    wfFAt (j + 1) c (.node c' r ch) = true ↔
      c' = c ∧ r = radSeq R j ∧
        ∀ ix, wfFChild j (subCenter c (radSeq R j) ix) (ch ix) = true := by
  rw [wfFAt]
  simp [allChildIx_iff, and_assoc, wfFChild]

theorem wfFChild_iff {j : ℕ} {c : Pos D} {t : FBox D R} :
    wfFChild j c t = true ↔
      t = .null ∨ (∃ off, t = .special off) ∨ wfFAt j c t = true := by
  cases t with
  | null => simp [wfFChild, wfFChildF]
  | special off => simp [wfFChild, wfFChildF]
  | leaf c' d cnt => simp [wfFChild, wfFChildF]
  | node c' r ch => simp [wfFChild, wfFChildF]

theorem wfFAt_node_rad {j : ℕ} {c c' : Pos D} {r : ℤ}
    {ch : ChildIx D → FBox D R}
    (h : wfFAt (j + 1) c (.node c' r ch) = true) : r = radSeq R j :=
  ((wfFAt_node_iff.mp h).2).1

theorem spanContains_iff (j : ℕ) (c p : Pos D) :
    spanContains (R := R) j c p = true ↔
      ∀ i, c i - radSeq R j ≤ p i ∧ p i ≤ c i + radSeq R j := by
  cases j with
  | zero =>
      show leafContains R c p = true ↔ _
      rw [leafContains_iff]
      exact Iff.rfl
  | succ j =>
      show nodeContains c (radSeq R j) p = true ↔ _
      rw [nodeContains_iff]
      rw [show radSeq R (j + 1) = 3 * radSeq R j + 1 from rfl]

/-- The span of a child contains only points of the parent's span. -/
theorem span_sub (j : ℕ) (c : Pos D) (k : ChildIx D) (p : Pos D)
    (h : spanContains (R := R) j (subCenter c (radSeq R j) k) p = true) :
    spanContains (R := R) (j + 1) c p = true := by
  rw [spanContains_iff] at h ⊢
  intro i
  have h1 := h i
  have hk : ((k i : ℤ) - 1) * (2 * radSeq R j + 1) ≤ 2 * radSeq R j + 1 ∧
      -(2 * radSeq R j + 1) ≤ ((k i : ℤ) - 1) * (2 * radSeq R j + 1) := by
    have hknn : (0 : ℤ) ≤ (k i : ℤ) := Int.ofNat_nonneg _
    have hklt : (k i : ℤ) ≤ 2 := by
      have := (k i).isLt
      omega
    have hrnn := radSeq_nonneg R j
    constructor <;> nlinarith
  simp only [subCenter] at h1
  rw [show radSeq R (j + 1) = 3 * radSeq R j + 1 from rfl]
  omega

theorem valueAtF_leaf {mins : ℤ} {c : Pos D} {d : SlotIx D R → ℤ}
    {cnt : ℕ → ℕ} {p : Pos D} :
    valueAtF mins (.leaf c d cnt) p
      = if leafContains R c p then some (d (slotIx R c p)) else none := rfl

theorem valueAtF_node {mins : ℤ} {c : Pos D} {r : ℤ}
    {ch : ChildIx D → FBox D R} {p : Pos D} :
    valueAtF mins (.node c r ch) p
      = if nodeContains c r p then valueAtF mins (ch (childIx c r p)) p
        else none := rfl

/-- The walk of `valueAtF` enters the child whose span contains `q`. -/
theorem valueAtF_node_descend (mins : ℤ) {j : ℕ} {c c' : Pos D} {r : ℤ}
    {ch : ChildIx D → FBox D R} (q : Pos D)
    (hwf : wfFAt (j + 1) c (.node c' r ch) = true) (k : ChildIx D)
    (hq : spanContains (R := R) j (subCenter c (radSeq R j) k) q = true) :
    valueAtF mins (.node c' r ch) q = valueAtF mins (ch k) q := by
  obtain ⟨hc, hr, _⟩ := wfFAt_node_iff.mp hwf
  subst hc hr
  have hcont : nodeContains c' (radSeq R j) q = true := by
    rw [nodeContains_iff]
    have := (spanContains_iff (j + 1) c' q).mp (span_sub j c' k q hq)
    intro i
    have h := this i
    rw [show radSeq R (j + 1) = 3 * radSeq R j + 1 from rfl] at h
    exact h
  have hk : childIx c' (radSeq R j) q = k := by
    refine childIx_of_span c' (radSeq R j) q k (radSeq_nonneg R j) ?_
    intro i
    have := (spanContains_iff (R := R) j (subCenter c' (radSeq R j) k) q).mp hq i
    simp only [subCenter] at this ⊢
    omega
  rw [valueAtF, if_pos hcont, hk]

theorem heightF_children_le (ch : ChildIx D → FBox D R) (m : ℕ)
    (h : ∀ ix, heightF (ch ix) ≤ m) :
    ∀ (ixs : List (ChildIx D)),
      ixs.foldr (fun ix a => max (heightF (ch ix)) a) 0 ≤ m := by
  intro ixs
  induction ixs with
  | nil => exact Nat.zero_le m
  | cons ix0 ixs ih =>
      rw [List.foldr]
      exact max_le (h ix0) ih

theorem heightF_wf : ∀ (j : ℕ) (c : Pos D) (t : FBox D R),
    wfFAt j c t = true → heightF t ≤ j := by
  intro j
  induction j with
  | zero =>
      intro c t h
      cases t with
      | null => rw [wfFAt_null] at h; cases h
      | special off => rw [wfFAt_special] at h; cases h
      | leaf c' d cnt => exact Nat.zero_le 0
      | node c' r ch => rw [wfFAt_zero_node] at h; cases h
  | succ j ihj =>
      intro c t h
      cases t with
      | null => rw [wfFAt_null] at h; cases h
      | special off => rw [wfFAt_special] at h; cases h
      | leaf c' d cnt => exact Nat.zero_le _
      | node c' r ch =>
          obtain ⟨hc, hr, hch⟩ := wfFAt_node_iff.mp h
          show 1 + (childIxList D).foldr
            (fun ix a => max (heightF (ch ix)) a) 0 ≤ j + 1
          have : ∀ ix, heightF (ch ix) ≤ j := by
            intro ix
            have := hch ix
            rw [wfFChild_iff] at this
            rcases this with h0 | ⟨off, h0⟩ | h0
            · rw [h0]; exact Nat.zero_le _
            · rw [h0]; exact Nat.zero_le _
            · exact ihj _ _ h0
          have := heightF_children_le ch j this (childIxList D)
          omega

theorem valueAtF_specialFree (m1 m2 : ℤ) :
    ∀ (t : FBox D R), specialFree t = true →
    ∀ (p : Pos D), valueAtF m1 t p = valueAtF m2 t p := by
  intro t
  induction t with
  | null => intro _ p; rfl
  | special off => intro h p; cases h
  | leaf c d cnt =>
      intro _ p
      rw [valueAtF, valueAtF]
  | node c r ch ih =>
      intro h p
      rw [specialFree] at h
      rw [valueAtF, valueAtF]
      split
      · exact ih _ (allChildIx_iff.mp h _) p
      · rfl

theorem wfFChildF_congr {w1 w2 : Pos D → FBox D R → Bool} {c : Pos D}
    {t : FBox D R} (h : ∀ c2 t2, w1 c2 t2 = w2 c2 t2) :
    wfFChildF w1 c t = wfFChildF w2 c t := by
  cases t with
  | null => rfl
  | special off => rfl
  | leaf c' d cnt => exact h _ _
  | node c' r ch => exact h _ _

theorem wfFAt_clearCounts :
    ∀ (t : FBox D R) (j : ℕ) (c : Pos D),
    wfFAt j c (clearCounts t) = wfFAt j c t := by
  intro t
  induction t with
  | null => intro j c; cases j <;> rfl
  | special off => intro j c; cases j <;> rfl
  | leaf c' d cnt => intro j c; cases j <;> rfl
  | node c' r ch ih =>
      intro j c
      cases j with
      | zero => rfl
      | succ j =>
          show wfFAt (j + 1) c (.node c' r fun ix => clearCounts (ch ix)) = _
          rw [wfFAt, wfFAt]
          have hp : (fun ix => wfFChildF (fun c2 t2 => wfFAt j c2 t2)
              (subCenter c (radSeq R j) ix) (clearCounts (ch ix)))
              = (fun ix => wfFChildF (fun c2 t2 => wfFAt j c2 t2)
              (subCenter c (radSeq R j) ix) (ch ix)) := by
            funext ix
            have hih := ih ix j (subCenter c (radSeq R j) ix)
            rcases hc : ch ix with _ | off | ⟨c2, d2, n2⟩ | ⟨c2, r2, ch2⟩
            · rfl
            · rfl
            · rw [hc] at hih
              exact hih
            · rw [hc] at hih
              exact hih
          rw [show allChildIx (fun ix =>
              wfFChildF (fun c2 t2 => wfFAt j c2 t2)
                (subCenter c (radSeq R j) ix) (clearCounts (ch ix)))
              = allChildIx (fun ix =>
              wfFChildF (fun c2 t2 => wfFAt j c2 t2)
                (subCenter c (radSeq R j) ix) (ch ix)) by rw [hp]]

end FactorGeometry

section FactorPreserve

variable {D R : ℕ}

/-- A full leaf (as detected by `_isLeafFull` with accurate counts) is
constant, equal to its special value everywhere. -/
theorem isLeafFullF_full (mins maxs : ℤ) (d : SlotIx D R → ℤ) (cnt : ℕ → ℕ)
    (hacc : ∀ off, cnt off = leafSpecCount mins maxs d off)
    (hfull : isLeafFullF mins maxs d cnt ≤ maxs) :
    isLeafFullF mins maxs d cnt = d (slot0 D R) ∧
      (∀ k, d k = d (slot0 D R)) ∧
      mins ≤ d (slot0 D R) ∧ d (slot0 D R) ≤ maxs := by
  rw [isLeafFullF] at hfull ⊢
  by_cases hcond : isSpecialF mins maxs (d (slot0 D R)) = true ∧
      cnt (d (slot0 D R) - mins).toNat = leafCard D R
  case neg =>
    rw [if_neg hcond] at hfull
    omega
  rw [if_pos hcond]
  obtain ⟨hsp, hcnt⟩ := hcond
  have hsp' : mins ≤ d (slot0 D R) ∧ d (slot0 D R) ≤ maxs :=
    of_decide_eq_true hsp
  refine ⟨rfl, ?_, hsp'.1, hsp'.2⟩
  rw [hacc] at hcnt
  have hlen : leafSpecCount mins maxs d (d (slot0 D R) - mins).toNat
      = (slotIxList D R).length := by
    rw [hcnt, slotIxList_length]
  have hall := (countP_eq_card_iff_all (slotIxList D R) _).mp hlen
  intro k
  have := hall k (mem_slotIxList k)
  rw [Bool.and_eq_true] at this
  have h2 := of_decide_eq_true this.2
  omega

/-- `_simplifyBelow` preserves geometric well-formedness (as a child slot)
and every stored value over the box's span, provided the counts are
accurate. -/
theorem simplifyBelowF_val (mins maxs : ℤ) :
    ∀ (f : ℕ) (j : ℕ) (c : Pos D) (t : FBox D R) (s : SpecSt),
      heightF t < f → wfFChild j c t = true → CountsAcc mins maxs t →
      wfFChild j c (simplifyBelowF mins maxs f t s).1 = true ∧
      ∀ p, spanContains (R := R) j c p = true →
        valueAtF mins (simplifyBelowF mins maxs f t s).1 p
          = valueAtF mins t p := by
  intro f
  induction f with
  | zero => intro j c t s h; omega
  | succ f ihf =>
      intro j c t s ht hwf hacc
      cases t with
      | null => exact ⟨hwf, fun p _ => rfl⟩
      | special off => exact ⟨hwf, fun p _ => rfl⟩
      | leaf c' d cnt =>
          have hwfl : wfFAt j c (.leaf c' d cnt) = true := by
            rw [wfFChild_iff] at hwf
            rcases hwf with h0 | ⟨o, h0⟩ | h0
            · cases h0
            · cases h0
            · exact h0
          obtain ⟨hj0, hcc⟩ := wfFAt_leaf_iff.mp hwfl
          subst hj0
          subst hcc
          rw [simplifyBelowF]
          split
          · rename_i hfull
            obtain ⟨heq, hall, hsp1, hsp2⟩ :=
              isLeafFullF_full mins maxs d cnt hacc hfull
            constructor
            · rw [wfFChild_iff]
              right; left
              exact ⟨_, rfl⟩
            · intro p hp
              have hlc : leafContains R c' p = true := by
                rw [leafContains_iff]
                intro i
                have := (spanContains_iff (R := R) 0 c' p).mp hp i
                rw [show radSeq R 0 = (R : ℤ) from rfl] at this
                exact this
              rw [heq]
              show some (mins + ((d (slot0 D R) - mins).toNat : ℤ))
                = valueAtF mins (.leaf c' d cnt) p
              rw [valueAtF, if_pos hlc, hall (slotIx R c' p)]
              congr 1
              omega
          · exact ⟨hwf, fun p _ => rfl⟩
      | node c' r ch =>
          have hwfn : wfFAt j c (.node c' r ch) = true := by
            rw [wfFChild_iff] at hwf
            rcases hwf with h0 | ⟨o, h0⟩ | h0
            · cases h0
            · cases h0
            · exact h0
          obtain ⟨j', rfl⟩ : ∃ j', j = j' + 1 := by
            cases j with
            | zero => rw [wfFAt_zero_node] at hwfn; cases hwfn
            | succ j' => exact ⟨j', rfl⟩
          obtain ⟨hcc, hrr, hch⟩ := wfFAt_node_iff.mp hwfn
          subst hcc
          subst hrr
          rw [simplifyBelowF]
          have hchild : ∀ ix, (foldChildren
              (fun b s2 => simplifyBelowF mins maxs f b s2)
              (childIxList D) ch s).1 ix
              = (simplifyBelowF mins maxs f (ch ix) s).1 := by
            intro ix
            rw [foldChildren_fst _ (fun b => (simplifyBelowF mins maxs f b s).1)
                (fun b s2 => simplifyBelowF_fst mins maxs f b s2 s) _
                (nodup_childIxList D) ch s ix, if_pos (mem_childIxList ix)]
          have hsub : ∀ ix,
              wfFChild j' (subCenter c' (radSeq R j') ix)
                ((simplifyBelowF mins maxs f (ch ix) s).1) = true ∧
              ∀ p, spanContains (R := R) j'
                  (subCenter c' (radSeq R j') ix) p = true →
                valueAtF mins ((simplifyBelowF mins maxs f (ch ix) s).1) p
                  = valueAtF mins (ch ix) p := by
            intro ix
            have hh : heightF (ch ix) < f := by
              have := @heightF_child_lt D R c' (radSeq R j') ch ix
              omega
            exact ihf j' _ (ch ix) s hh (hch ix) (hacc ix)
          have hnodewf : wfFAt (j' + 1) c'
              (.node c' (radSeq R j') (foldChildren
                (fun b s2 => simplifyBelowF mins maxs f b s2)
                (childIxList D) ch s).1) = true := by
            refine wfFAt_node_iff.mpr ⟨rfl, rfl, fun ix => ?_⟩
            rw [hchild]
            exact (hsub ix).1
          have hnodeval : ∀ p,
              spanContains (R := R) (j' + 1) c' p = true →
              valueAtF mins (.node c' (radSeq R j') (foldChildren
                (fun b s2 => simplifyBelowF mins maxs f b s2)
                (childIxList D) ch s).1) p
                = valueAtF mins (.node c' (radSeq R j') ch) p := by
            intro p hp
            have hpcont : nodeContains c' (radSeq R j') p = true := hp
            rw [valueAtF, valueAtF, if_pos hpcont, if_pos hpcont, hchild]
            have hpk : spanContains (R := R) j'
                (subCenter c' (radSeq R j')
                  (childIx c' (radSeq R j') p)) p = true := by
              rw [spanContains_iff]
              intro i
              have := subCenterAt_span c' (radSeq R j') p
                (radSeq_nonneg R j') hpcont i
              simp only [subCenterAt] at this
              exact this
            exact (hsub _).2 p hpk
          show wfFChild (j' + 1) c' (collapseNode _ c' (radSeq R j')) = true ∧ _
          rcases collapseNode_cases (foldChildren
              (fun b s2 => simplifyBelowF mins maxs f b s2)
              (childIxList D) ch s).1 c' (radSeq R j') with
            ⟨off, hcol, hallsp⟩ | hcol <;> rw [hcol]
          · constructor
            · rw [wfFChild_iff]
              right; left
              exact ⟨_, rfl⟩
            · intro p hp
              have hpcont : nodeContains c' (radSeq R j') p = true := hp
              have hzk := hallsp (childIx c' (radSeq R j') p)
              rw [← hnodeval p hp]
              rw [show valueAtF mins (FBox.node c' (radSeq R j')
                  ((foldChildren (fun b s2 => simplifyBelowF mins maxs f b s2)
                    (childIxList D) ch s).1)) p
                  = valueAtF mins ((foldChildren
                    (fun b s2 => simplifyBelowF mins maxs f b s2)
                    (childIxList D) ch s).1 (childIx c' (radSeq R j') p)) p
                from by rw [valueAtF, if_pos hpcont]]
              rw [hzk]
          · refine ⟨?_, hnodeval⟩
            rw [wfFChild_iff]
            right; right
            exact hnodewf

theorem recountBelowF_val (mins maxs m : ℤ) (f : ℕ) (t : FBox D R)
    (s : (ℕ → ℕ) × ℕ) (hf : heightF t < f) (p : Pos D) :
    valueAtF m (recountBelowF mins maxs f t s).1 p = valueAtF m t p := by
  rw [← valueAtF_clearCounts m ((recountBelowF mins maxs f t s).1) p,
    recountBelowF_clear mins maxs f t s hf, valueAtF_clearCounts]

theorem recountBelowF_wf (mins maxs : ℤ) (f j : ℕ) (c : Pos D) (t : FBox D R)
    (s : (ℕ → ℕ) × ℕ) (hf : heightF t < f) (hwf : wfFAt j c t = true) :
    wfFAt j c (recountBelowF mins maxs f t s).1 = true := by
  rw [← wfFAt_clearCounts ((recountBelowF mins maxs f t s).1) j c,
    recountBelowF_clear mins maxs f t s hf, wfFAt_clearCounts]
  exact hwf

theorem recountBelowF_height (mins maxs : ℤ) (f : ℕ) (t : FBox D R)
    (s : (ℕ → ℕ) × ℕ) (hf : heightF t < f) :
    heightF (recountBelowF mins maxs f t s).1 = heightF t := by
  rw [← heightF_clearCounts ((recountBelowF mins maxs f t s).1),
    recountBelowF_clear mins maxs f t s hf, heightF_clearCounts]

/-- `_simplifyTree` preserves every stored value over the old root's span
(the new root, when the old root collapses, holds the dummy in its middle
slot). -/
theorem simplifyTreeF_val (mins maxs : ℤ) (f j : ℕ) (c : Pos D)
    (t : FBox D R) (s : SpecSt) (hf : heightF t < f)
    (hwf : wfFAt (j + 1) c t = true) (hacc : CountsAcc mins maxs t) :
    ∀ p, spanContains (R := R) (j + 1) c p = true →
      valueAtF mins (simplifyTreeF mins maxs f t s).1 p
        = valueAtF mins t p := by
  intro p hp
  have hwfc : wfFChild (j + 1) c t = true := by
    rw [wfFChild_iff]
    right; right
    exact hwf
  obtain ⟨hwf', hval⟩ :=
    simplifyBelowF_val mins maxs f (j + 1) c t s hf hwfc hacc
  rw [simplifyTreeF]
  rcases hsb : simplifyBelowF mins maxs f t s with ⟨tb, sb⟩
  rw [hsb] at hwf' hval
  cases tb with
  | null => exact hval p hp
  | leaf c2 d2 n2 => exact hval p hp
  | node c2 r2 ch2 => exact hval p hp
  | special off =>
      rcases t with _ | off0 | ⟨c0, d0, n0⟩ | ⟨c0, r0, ch0⟩
      · rw [wfFAt_null] at hwf; cases hwf
      · rw [wfFAt_special] at hwf; cases hwf
      · rw [wfFAt_leaf_iff] at hwf; omega
      obtain ⟨hc0, hr0, _⟩ := wfFAt_node_iff.mp hwf
      have hspan : ∀ i, c0 i - (3 * r0 + 1) ≤ p i ∧ p i ≤ c0 i + (3 * r0 + 1) := by
        intro i
        have := (spanContains_iff (R := R) (j + 1) c p).mp hp i
        rw [show radSeq R (j + 1) = 3 * radSeq R j + 1 from rfl] at this
        rw [hc0, hr0]
        exact this
      have hcontp : nodeContains c0 (3 * r0 + 1) p = true := by
        rw [nodeContains_iff]
        intro i
        have := hspan i
        constructor <;> omega
      have hr0nn : (0 : ℤ) ≤ r0 := hr0 ▸ radSeq_nonneg R j
      have hmid : childIx c0 (3 * r0 + 1) p = childMid D :=
        childIx_center c0 (3 * r0 + 1) p (by omega) hspan
      show valueAtF mins (.node c0 (3 * r0 + 1) (fun ix =>
        if ix = childMid D then FBox.special off else .null)) p = _
      rw [valueAtF, if_pos hcontp, hmid, if_pos rfl]
      exact hval p hp

/-- `_expandBelowNode` on a well-formed node: the result is special-free,
keeps the geometry, and stores the same value at every position of the
node's span (special links become constant sub-trees). -/
theorem expandBelowNodeF_main (mins maxs : ℤ) :
    ∀ (f : ℕ) (j : ℕ) (c : Pos D) (t : FBox D R),
      j + 1 ≤ f → wfFAt (j + 1) c t = true →
      specialFree (expandBelowNodeF mins maxs f t) = true ∧
      wfFAt (j + 1) c (expandBelowNodeF mins maxs f t) = true ∧
      ∀ p, spanContains (R := R) (j + 1) c p = true →
        valueAtF mins (expandBelowNodeF mins maxs f t) p
          = valueAtF mins t p := by
  intro f
  induction f with
  | zero => intro j c t h; omega
  | succ f ihf =>
      intro j c t hjf hwf
      rcases t with _ | off0 | ⟨c0, d0, n0⟩ | ⟨c0, r0, ch0⟩
      · rw [wfFAt_null] at hwf; cases hwf
      · rw [wfFAt_special] at hwf; cases hwf
      · rw [wfFAt_leaf_iff] at hwf; omega
      obtain ⟨hc0, hr0, hch⟩ := wfFAt_node_iff.mp hwf
      cases j with
      | zero =>
          have hnotlt : ¬((R : ℤ) < r0) := by
            rw [hr0]
            show ¬((R : ℤ) < radSeq R 0)
            rw [show radSeq R 0 = (R : ℤ) from rfl]
            omega
          rw [expandBelowNodeF, if_neg hnotlt]
          refine ⟨?_, ?_, ?_⟩
          · rw [specialFree]
            refine allChildIx_iff.mpr (fun i => ?_)
            have hwfi := hch i
            rcases hci : ch0 i with _ | offi | ⟨ci, di, ni⟩ | ⟨ci, ri, chi⟩
            · rfl
            · rfl
            · rfl
            · rw [hci, wfFChild_iff] at hwfi
              rcases hwfi with h0 | ⟨o, h0⟩ | h0
              · cases h0
              · cases h0
              · rw [wfFAt_zero_node] at h0; cases h0
          · refine wfFAt_node_iff.mpr ⟨hc0, hr0, fun i => ?_⟩
            have hwfi := hch i
            rcases hci : ch0 i with _ | offi | ⟨ci, di, ni⟩ | ⟨ci, ri, chi⟩
            · rw [wfFChild_iff]; left; rfl
            · rw [wfFChild_iff]
              right; right
              refine wfFAt_leaf_iff.mpr ⟨rfl, ?_⟩
              rw [hc0, hr0]
            · rw [hci] at hwfi
              exact hwfi
            · rw [hci] at hwfi
              rw [wfFChild_iff] at hwfi
              rcases hwfi with h0 | ⟨o, h0⟩ | h0
              · cases h0
              · cases h0
              · rw [wfFAt_zero_node] at h0; cases h0
          · intro p hp
            have hspan : ∀ i, c0 i - (3 * r0 + 1) ≤ p i ∧
                p i ≤ c0 i + (3 * r0 + 1) := by
              intro i
              have := (spanContains_iff (R := R) 1 c p).mp hp i
              rw [show radSeq R 1 = 3 * radSeq R 0 + 1 from rfl] at this
              rw [hc0, hr0]
              exact this
            have hcont : nodeContains c0 r0 p = true := by
              rw [nodeContains_iff]
              exact hspan
            have hr0nn : (0 : ℤ) ≤ r0 := by
              rw [hr0]
              exact radSeq_nonneg R 0
            rw [valueAtF, valueAtF, if_pos hcont, if_pos hcont]
            have hpk := subCenterAt_span c0 r0 p hr0nn hcont
            rcases hck : ch0 (childIx c0 r0 p) with _ | offk |
                ⟨ck, dk, nk⟩ | ⟨ck, rk, chk⟩
            · rfl
            · have hlc : leafContains R (subCenter c0 r0 (childIx c0 r0 p)) p
                  = true := by
                rw [leafContains_iff]
                intro i
                have := hpk i
                have hrr : r0 = (R : ℤ) := by
                  rw [hr0]; rfl
                simp only [subCenterAt] at this
                constructor <;> omega
              show valueAtF mins
                (.leaf (subCenter c0 r0 (childIx c0 r0 p))
                  (fun _ => mins + (offk : ℤ))
                  (if isSpecialF mins maxs (mins + (offk : ℤ)) then
                    updFn (fun _ => 0) offk (leafCard D R) else fun _ => 0)) p
                = valueAtF mins (.special offk) p
              rw [valueAtF_leaf, if_pos hlc]
              rfl
            · rfl
            · rfl
      | succ j'' =>
          have hlt : (R : ℤ) < r0 := by
            rw [hr0]
            show (R : ℤ) < radSeq R (j'' + 1)
            have := radSeq_ge R j''
            rw [show radSeq R (j'' + 1) = 3 * radSeq R j'' + 1 from rfl]
            omega
          rw [expandBelowNodeF, if_pos hlt]
          have hdiv : cppDiv (r0 - 1) 3 = radSeq R j'' := by
            rw [hr0]
            exact cppDiv_succ_radSeq R j''
          -- per-child facts
          have hkid : ∀ i,
              specialFree (match ch0 i with
                | FBox.null => FBox.null
                | FBox.special off =>
                    expandBelowNodeF mins maxs f
                      (.node (subCenter c0 r0 i) (cppDiv (r0 - 1) 3)
                        (fun _ => .special off))
                | b => expandBelowNodeF mins maxs f b) = true ∧
              wfFChild (j'' + 1) (subCenter c (radSeq R (j'' + 1)) i)
                (match ch0 i with
                | FBox.null => FBox.null
                | FBox.special off =>
                    expandBelowNodeF mins maxs f
                      (.node (subCenter c0 r0 i) (cppDiv (r0 - 1) 3)
                        (fun _ => .special off))
                | b => expandBelowNodeF mins maxs f b) = true ∧
              ∀ p, spanContains (R := R) (j'' + 1)
                  (subCenter c (radSeq R (j'' + 1)) i) p = true →
                valueAtF mins (match ch0 i with
                | FBox.null => FBox.null
                | FBox.special off =>
                    expandBelowNodeF mins maxs f
                      (.node (subCenter c0 r0 i) (cppDiv (r0 - 1) 3)
                        (fun _ => .special off))
                | b => expandBelowNodeF mins maxs f b) p
                  = valueAtF mins (ch0 i) p := by
            intro i
            have hwfi := hch i
            have hcen : subCenter c0 r0 i = subCenter c (radSeq R (j'' + 1)) i := by
              rw [hc0, hr0]
            rcases hci : ch0 i with _ | offi | ⟨ci, di, ni⟩ | ⟨ci, ri, chi⟩
            · refine ⟨rfl, by rw [wfFChild_iff]; left; rfl, fun p _ => rfl⟩
            · -- special link: expand the synthetic constant node
              have hwfsyn : wfFAt (j'' + 1) (subCenter c (radSeq R (j'' + 1)) i)
                  ((.node (subCenter c0 r0 i) (cppDiv (r0 - 1) 3)
                    (fun _ => .special offi)) : FBox D R) = true := by
                refine wfFAt_node_iff.mpr ⟨hcen, by rw [hdiv], fun ix => ?_⟩
                rw [wfFChild_iff]
                right; left
                exact ⟨_, rfl⟩
              obtain ⟨hsf, hwfe, hve⟩ := ihf j''
                (subCenter c (radSeq R (j'' + 1)) i) _ (by omega) hwfsyn
              refine ⟨hsf, by rw [wfFChild_iff]; right; right; exact hwfe,
                fun p hpi => ?_⟩
              rw [hve p hpi]
              have hcontsyn : nodeContains (subCenter c0 r0 i)
                  (cppDiv (r0 - 1) 3) p = true := by
                rw [nodeContains_iff]
                intro ii
                have := (spanContains_iff (R := R) (j'' + 1)
                  (subCenter c (radSeq R (j'' + 1)) i) p).mp hpi ii
                rw [hdiv]
                rw [← hcen] at this
                rw [show radSeq R (j'' + 1) = 3 * radSeq R j'' + 1 from rfl]
                  at this
                exact this
              rw [valueAtF_node, if_pos hcontsyn]
            · -- leaf child impossible below a node of level ≥ 2
              rw [hci, wfFChild_iff] at hwfi
              rcases hwfi with h0 | ⟨o, h0⟩ | h0
              · cases h0
              · cases h0
              · rw [wfFAt_leaf_iff] at h0
                omega
            · -- normal node child: recurse
              rw [hci, wfFChild_iff] at hwfi
              rcases hwfi with h0 | ⟨o, h0⟩ | h0
              · cases h0
              · cases h0
              obtain ⟨hsf, hwfe, hve⟩ := ihf j''
                (subCenter c (radSeq R (j'' + 1)) i) _ (by omega) h0
              exact ⟨hsf, by rw [wfFChild_iff]; right; right; exact hwfe, hve⟩
          refine ⟨?_, ?_, ?_⟩
          · rw [specialFree]
            exact allChildIx_iff.mpr (fun i => (hkid i).1)
          · exact wfFAt_node_iff.mpr ⟨hc0, hr0, fun i => (hkid i).2.1⟩
          · intro p hp
            have hspan : ∀ i, c0 i - (3 * r0 + 1) ≤ p i ∧
                p i ≤ c0 i + (3 * r0 + 1) := by
              intro i
              have := (spanContains_iff (R := R) (j'' + 2) c p).mp hp i
              rw [show radSeq R (j'' + 2) = 3 * radSeq R (j'' + 1) + 1
                from rfl] at this
              rw [hc0, hr0]
              exact this
            have hcont : nodeContains c0 r0 p = true := by
              rw [nodeContains_iff]
              exact hspan
            rw [valueAtF, valueAtF, if_pos hcont, if_pos hcont]
            have hr0nn : (0 : ℤ) ≤ r0 := by
              rw [hr0]
              exact radSeq_nonneg R (j'' + 1)
            have hpk : spanContains (R := R) (j'' + 1)
                (subCenter c (radSeq R (j'' + 1)) (childIx c0 r0 p)) p
                = true := by
              rw [spanContains_iff]
              intro i
              have := subCenterAt_span c0 r0 p hr0nn hcont i
              simp only [subCenterAt] at this
              rw [show subCenter c (radSeq R (j'' + 1)) (childIx c0 r0 p) i
                  = subCenter c0 r0 (childIx c0 r0 p) i by rw [hc0, hr0]]
              rw [show radSeq R (j'' + 1) = r0 from hr0.symm]
              exact this
            exact (hkid (childIx c0 r0 p)).2.2 p hpk

/-- `simplify()` preserves every stored value over the root's span. -/
theorem simplifyF_val (st : FState D R) (f j : ℕ)
    (hf : heightF st.tree < f)
    (hwf : wfFAt (j + 1) (zeroPos D) st.tree = true) :
    ∀ p, spanContains (R := R) (j + 1) (zeroPos D) p = true →
      valueAtF st.minSpec (simplifyF f st).tree p
        = valueAtF st.minSpec st.tree p := by
  intro p hp
  rw [simplifyF]
  split
  · rfl
  · show valueAtF st.minSpec (simplifyTreeF st.minSpec st.maxSpec f
        (recountBelowF st.minSpec st.maxSpec f st.tree (fun _ => 0, 0)).1
        (st.tabSpecObj, st.minVal, st.maxVal)).1 p = _
    have hh : heightF (recountBelowF st.minSpec st.maxSpec f st.tree
        (fun _ => 0, 0)).1 < f := by
      rw [recountBelowF_height st.minSpec st.maxSpec f st.tree _ hf]
      exact hf
    have hwfr := recountBelowF_wf st.minSpec st.maxSpec f (j + 1)
      (zeroPos D) st.tree (fun _ => 0, 0) hf hwf
    have hacc := recountBelowF_acc st.minSpec st.maxSpec f st.tree
      (fun _ => 0, 0) hf
    rw [simplifyTreeF_val st.minSpec st.maxSpec f j (zeroPos D) _ _
      hh hwfr hacc p hp]
    exact recountBelowF_val st.minSpec st.maxSpec st.minSpec f st.tree _ hf p

/-- `changeSpecialRange` installs the new range, fully expands the old
special links, and preserves the observable value at every position of the
root's span. -/
theorem changeSpecialRangeF_main (nmin nmax : ℤ) (st : FState D R)
    (f j : ℕ) (hf : j + 1 < f)
    (hwf : wfFAt (j + 1) (zeroPos D) st.tree = true) :
    (changeSpecialRangeF f nmin nmax st).minSpec = nmin ∧
    (changeSpecialRangeF f nmin nmax st).maxSpec = nmax ∧
    specialFree (expandBelowNodeF st.minSpec st.maxSpec f st.tree) = true ∧
    ∀ p, spanContains (R := R) (j + 1) (zeroPos D) p = true →
      valueAtF nmin (changeSpecialRangeF f nmin nmax st).tree p
        = valueAtF st.minSpec st.tree p := by
  obtain ⟨hsf, hwf1, hval1⟩ := expandBelowNodeF_main st.minSpec st.maxSpec
    f j (zeroPos D) st.tree (by omega) hwf
  have hh1 : heightF (expandBelowNodeF st.minSpec st.maxSpec f st.tree)
      < f := by
    have := heightF_wf (j + 1) (zeroPos D) _ hwf1
    omega
  refine ⟨?_, ?_, hsf, ?_⟩
  · rw [changeSpecialRangeF]
    split <;> rfl
  · rw [changeSpecialRangeF]
    split <;> rfl
  · intro p hp
    have hz1val : valueAtF nmin (recountBelowF nmin nmax f
        (expandBelowNodeF st.minSpec st.maxSpec f st.tree)
        (fun _ => 0, 0)).1 p = valueAtF st.minSpec st.tree p := by
      rw [recountBelowF_val nmin nmax nmin f _ _ hh1 p,
        valueAtF_specialFree nmin st.minSpec _ hsf p, hval1 p hp]
    rw [changeSpecialRangeF]
    split
    · exact hz1val
    · show valueAtF nmin (simplifyTreeF nmin nmax f
          (recountBelowF nmin nmax f
            (expandBelowNodeF st.minSpec st.maxSpec f st.tree)
            (fun _ => 0, 0)).1 _).1 p = _
      have hh2 : heightF (recountBelowF nmin nmax f
          (expandBelowNodeF st.minSpec st.maxSpec f st.tree)
          (fun _ => 0, 0)).1 < f := by
        rw [recountBelowF_height nmin nmax f _ _ hh1]
        exact hh1
      have hwf2 := recountBelowF_wf nmin nmax f (j + 1) (zeroPos D) _
        (fun _ => 0, 0) hh1 hwf1
      have hacc2 := recountBelowF_acc nmin nmax f _ (fun _ => 0, 0) hh1
      rw [simplifyTreeF_val nmin nmax f j (zeroPos D) _ _ hh2 hwf2 hacc2 p hp]
      exact hz1val

/-- The down-phase of `findFullBox` on a well-formed node containing `pos`:
the returned box contains `pos`, lies inside the node's span, is the
singleton `{pos}` on a miss, and on a hit every position of the box stores
the returned value. -/
theorem findDownF_main (mins : ℤ) :
    ∀ (f : ℕ) (j : ℕ) (c : Pos D) (r : ℤ) (ch : ChildIx D → FBox D R)
      (p : Pos D) (res : Option ℤ × Pos D × Pos D),
      wfFAt (j + 1) c (.node c r ch) = true →
      nodeContains c (radSeq R j) p = true →
      findDownF mins f p (.node c r ch) = some res →
      (∀ i, res.2.1 i ≤ p i ∧ p i ≤ res.2.2 i) ∧
      (∀ i, c i - (3 * radSeq R j + 1) ≤ res.2.1 i ∧
        res.2.2 i ≤ c i + (3 * radSeq R j + 1)) ∧
      (res.1 = none → res.2.1 = p ∧ res.2.2 = p) ∧
      ∀ v, res.1 = some v →
        ∀ q, (∀ i, res.2.1 i ≤ q i ∧ q i ≤ res.2.2 i) →
          valueAtF mins (.node c r ch) q = some v := by
  intro f
  induction f with
  | zero =>
      intro j c r ch p res hwf hcont hd
      rw [findDownF] at hd
      cases hd
  | succ f ihf =>
      intro j c r ch p res hwf hcont hd
      have hr : r = radSeq R j := wfFAt_node_rad hwf
      have hrnn : (0 : ℤ) ≤ r := hr ▸ radSeq_nonneg R j
      have hch := (wfFAt_node_iff.mp hwf).2.2
      have hcont' : nodeContains c r p = true := by
        rw [hr]
        exact hcont
      have hsp := subCenterAt_span c r p hrnn hcont'
      have hpspan : ∀ i, c i - (3 * r + 1) ≤ p i ∧ p i ≤ c i + (3 * r + 1) := by
        have := (nodeContains_iff c (radSeq R j) p).mp hcont
        intro i
        rw [hr]
        exact this i
      rw [findDownF] at hd
      have hwfk := hch (childIx c r p)
      rw [wfFChild_iff] at hwfk
      rcases hck : ch (childIx c r p) with _ | off | ⟨ck, dk, nk⟩ |
          ⟨ck, rk, chk⟩ <;> rw [hck] at hd
      · -- null slot: singleton miss
        rw [Option.some_inj] at hd
        subst hd
        refine ⟨fun i => ⟨le_refl _, le_refl _⟩, ?_,
          fun _ => ⟨rfl, rfl⟩, ?_⟩
        · intro i
          show c i - (3 * radSeq R j + 1) ≤ p i ∧
            p i ≤ c i + (3 * radSeq R j + 1)
          rw [← hr]
          exact hpspan i
        · intro v hv
          exact absurd hv (by simp)
      · -- special link: the full sub-box
        rw [Option.some_inj] at hd
        subst hd
        refine ⟨?_, ?_, ?_, ?_⟩
        · intro i
          show subCenterAt c r p i - r ≤ p i ∧ p i ≤ subCenterAt c r p i + r
          exact hsp i
        · intro i
          show c i - (3 * radSeq R j + 1) ≤ subCenterAt c r p i - r ∧
            subCenterAt c r p i + r ≤ c i + (3 * radSeq R j + 1)
          rw [← hr]
          have hsub : subCenterAt c r p i = c i +
              ((childIx c r p i : ℤ) - 1) * (2 * r + 1) := rfl
          have hki : (0 : ℤ) ≤ (childIx c r p i : ℤ) ∧
              (childIx c r p i : ℤ) ≤ 2 := by
            constructor
            · exact Int.ofNat_nonneg _
            · have := (childIx c r p i).isLt
              omega
          rw [hsub]
          constructor <;> nlinarith [hki.1, hki.2]
        · intro hn
          exact absurd hn (by simp)
        · intro v hv q hq
          have hv' : mins + (off : ℤ) = v := by
            have : some (mins + (off : ℤ)) = some v := hv
            exact Option.some_inj.mp this
          have hq' : ∀ i, subCenterAt c r p i - r ≤ q i ∧
              q i ≤ subCenterAt c r p i + r := hq
          have hqk : childIx c r q = childIx c r p := by
            refine childIx_of_span c r q (childIx c r p) hrnn ?_
            intro i
            have := hq' i
            simp only [subCenterAt] at this ⊢
            omega
          have hqcont : nodeContains c r q = true := by
            rw [nodeContains_iff]
            intro i
            have h1 := hq' i
            have hsub : subCenterAt c r p i = c i +
                ((childIx c r p i : ℤ) - 1) * (2 * r + 1) := rfl
            have hki : (0 : ℤ) ≤ (childIx c r p i : ℤ) ∧
                (childIx c r p i : ℤ) ≤ 2 := by
              constructor
              · exact Int.ofNat_nonneg _
              · have := (childIx c r p i).isLt
                omega
            rw [hsub] at h1
            constructor <;> nlinarith [hki.1, hki.2, h1.1, h1.2]
          rw [valueAtF_node, if_pos hqcont, hqk, hck]
          rw [← hv']
          rfl
      · -- leaf child: singleton hit
        rcases hwfk with h0 | ⟨o, h0⟩ | h0
        · rw [hck] at h0; cases h0
        · rw [hck] at h0; cases h0
        rw [hck] at h0
        obtain ⟨hj0, hckc⟩ := wfFAt_leaf_iff.mp h0
        rw [Option.some_inj] at hd
        subst hd
        refine ⟨fun i => ⟨le_refl _, le_refl _⟩, ?_, ?_, ?_⟩
        · intro i
          show c i - (3 * radSeq R j + 1) ≤ p i ∧
            p i ≤ c i + (3 * radSeq R j + 1)
          rw [← hr]
          exact hpspan i
        · intro hn
          exact absurd hn (by simp)
        · intro v hv q hq
          have hv' : dk (slotIx R ck p) = v := by
            have : some (dk (slotIx R ck p)) = some v := hv
            exact Option.some_inj.mp this
          have hqp : q = p := by
            funext i
            have h1 : p i ≤ q i ∧ q i ≤ p i := hq i
            exact le_antisymm h1.2 h1.1
          rw [hqp]
          rw [valueAtF_node, if_pos hcont', hck, valueAtF_leaf]
          have hlc : leafContains R ck p = true := by
            rw [leafContains_iff]
            intro i
            have h1 := hsp i
            have hrR : r = (R : ℤ) := by
              rw [hr]
              rw [hj0]
              rfl
            have h4 : subCenter c (radSeq R j) (childIx c r p) i
                = subCenterAt c r p i := by
              rw [← hr]
              rfl
            rw [hckc]
            omega
          rw [if_pos hlc, ← hv']
      · -- node child: recurse
        rcases hwfk with h0 | ⟨o, h0⟩ | h0
        · rw [hck] at h0; cases h0
        · rw [hck] at h0; cases h0
        rw [hck] at h0
        obtain ⟨j', hj'⟩ : ∃ j', j = j' + 1 := by
          cases j with
          | zero => rw [wfFAt_zero_node] at h0; cases h0
          | succ j' => exact ⟨j', rfl⟩
        subst hj'
        obtain ⟨hc2, hr2, _⟩ := wfFAt_node_iff.mp h0
        rw [← hc2] at h0
        have hcki : ∀ i, ck i = subCenterAt c r p i := by
          intro i
          rw [hc2, ← hr]
          rfl
        have hck2 : ∀ i, ck i
            = c i + ((childIx c r p i : ℤ) - 1) * (2 * r + 1) := by
          intro i
          rw [hc2, ← hr]
          rfl
        have hre : 3 * radSeq R j' + 1 = r := by
          rw [hr]
          rfl
        have hkcont : nodeContains ck (radSeq R j') p = true := by
          rw [nodeContains_iff]
          intro i
          have h1 := hsp i
          have h2 := hcki i
          omega
        obtain ⟨hin, hbox, hmiss, hhit⟩ := ihf j' _ _ _ p res h0 hkcont hd
        refine ⟨hin, ?_, hmiss, ?_⟩
        · intro i
          have h1 := hbox i
          have h2 := hck2 i
          have hki : (0 : ℤ) ≤ (childIx c r p i : ℤ) ∧
              (childIx c r p i : ℤ) ≤ 2 := by
            constructor
            · exact Int.ofNat_nonneg _
            · have := (childIx c r p i).isLt
              omega
          rw [← hr]
          constructor <;> nlinarith [hki.1, hki.2, h1.1, h1.2]
        · intro v hv q hq
          have hqk : childIx c r q = childIx c r p := by
            refine childIx_of_span c r q (childIx c r p) hrnn ?_
            intro i
            have h1 := hbox i
            have h2 := hq i
            have h3 := hcki i
            have h4 : subCenter c r (childIx c r p) i = subCenterAt c r p i :=
              rfl
            rw [h4]
            constructor <;> omega
          have hqcont : nodeContains c r q = true := by
            rw [nodeContains_iff]
            intro i
            have h1 := hbox i
            have h2 := hq i
            have h3 := hck2 i
            have hki : (0 : ℤ) ≤ (childIx c r p i : ℤ) ∧
                (childIx c r p i : ℤ) ≤ 2 := by
              constructor
              · exact Int.ofNat_nonneg _
              · have := (childIx c r p i).isLt
                omega
            constructor <;> nlinarith [hki.1, hki.2, h1.1, h1.2, h2.1, h2.2]
          rw [valueAtF_node, if_pos hqcont, hqk, hck]
          exact hhit v hv q hq

theorem simplifyF_fields (st : FState D R) (f : ℕ) :
    (simplifyF f st).minSpec = st.minSpec ∧
    (simplifyF f st).maxSpec = st.maxSpec := by
  rw [simplifyF]
  split <;> exact ⟨rfl, rfl⟩

theorem simplifyF_height (st : FState D R) (f j : ℕ)
    (hf : heightF st.tree < f)
    (hwf : wfFAt (j + 1) (zeroPos D) st.tree = true) :
    heightF (simplifyF f st).tree ≤ j + 1 := by
  rw [simplifyF]
  split
  · exact heightF_wf (j + 1) _ _ hwf
  · show heightF (simplifyTreeF st.minSpec st.maxSpec f
      (recountBelowF st.minSpec st.maxSpec f st.tree (fun _ => 0, 0)).1
      (st.tabSpecObj, st.minVal, st.maxVal)).1 ≤ j + 1
    have hh : heightF (recountBelowF st.minSpec st.maxSpec f st.tree
        (fun _ => 0, 0)).1 < f := by
      rw [recountBelowF_height st.minSpec st.maxSpec f st.tree _ hf]
      exact hf
    have hwfr := recountBelowF_wf st.minSpec st.maxSpec f (j + 1)
      (zeroPos D) st.tree (fun _ => 0, 0) hf hwf
    have hacc := recountBelowF_acc st.minSpec st.maxSpec f st.tree
      (fun _ => 0, 0) hf
    have hwfc : wfFChild (j + 1) (zeroPos D)
        (recountBelowF st.minSpec st.maxSpec f st.tree (fun _ => 0, 0)).1
        = true := by
      rw [wfFChild_iff]
      right; right
      exact hwfr
    obtain ⟨hwf', _⟩ := simplifyBelowF_val st.minSpec st.maxSpec f (j + 1)
      (zeroPos D) _ (st.tabSpecObj, st.minVal, st.maxVal) hh hwfc hacc
    rw [simplifyTreeF]
    rcases hsb : simplifyBelowF st.minSpec st.maxSpec f
        (recountBelowF st.minSpec st.maxSpec f st.tree (fun _ => 0, 0)).1
        (st.tabSpecObj, st.minVal, st.maxVal) with ⟨tb, sb⟩
    rw [hsb] at hwf'
    have hwtb : wfFChild (j + 1) (zeroPos D) tb = true := hwf'
    cases tb with
    | null => exact Nat.zero_le _
    | leaf c2 d2 n2 =>
        rw [wfFChild_iff] at hwtb
        rcases hwtb with h0 | ⟨o, h0⟩ | h0
        · cases h0
        · cases h0
        · exact heightF_wf _ _ _ h0
    | node c2 r2 ch2 =>
        rw [wfFChild_iff] at hwtb
        rcases hwtb with h0 | ⟨o, h0⟩ | h0
        · cases h0
        · cases h0
        · exact heightF_wf _ _ _ h0
    | special off =>
        rcases (recountBelowF st.minSpec st.maxSpec f st.tree
            (fun _ => 0, 0)).1 with _ | off2 | ⟨c2, d2, n2⟩ | ⟨c2, r2, ch2⟩
        · exact Nat.zero_le _
        · exact Nat.zero_le _
        · exact Nat.zero_le _
        · show 1 + (childIxList D).foldr (fun ix m => max (heightF
            ((fun ix => if ix = childMid D then (FBox.special off : FBox D R)
              else FBox.null) ix)) m) 0 ≤ j + 1
          have hz : ∀ ix : ChildIx D, heightF
              ((fun ix => if ix = childMid D then
                (FBox.special off : FBox D R) else FBox.null) ix) ≤ 0 := by
            intro ix
            show heightF (if ix = childMid D then
              (FBox.special off : FBox D R) else FBox.null) ≤ 0
            split <;> exact le_refl 0
          have h0 := heightF_children_le _ 0 hz (childIxList D)
          have h1 : 1 + (childIxList D).foldr (fun ix m => max (heightF
              ((fun ix => if ix = childMid D then (FBox.special off : FBox D R)
                else FBox.null) ix)) m) 0 ≤ 1 + 0 :=
            Nat.add_le_add_left h0 1
          omega

theorem simplifyTreeF_notSpecial (mins maxs : ℤ) (f : ℕ) (c0 : Pos D)
    (r0 : ℤ) (ch0 : ChildIx D → FBox D R) (s : SpecSt) :
    (simplifyTreeF mins maxs f (.node c0 r0 ch0) s).1.isSpecialLink
      = false := by
  rw [simplifyTreeF]
  rcases hsb : simplifyBelowF mins maxs f (.node c0 r0 ch0) s with ⟨tb, sb⟩
  cases tb with
  | null => rfl
  | special off => rfl
  | leaf c2 d2 n2 => rfl
  | node c2 r2 ch2 => rfl

theorem recountBelowF_node_shape (mins maxs : ℤ) (f : ℕ) (c0 : Pos D)
    (r0 : ℤ) (ch0 : ChildIx D → FBox D R) (s : (ℕ → ℕ) × ℕ) :
    ∃ ch', (recountBelowF mins maxs f (.node c0 r0 ch0) s).1
      = .node c0 r0 ch' := by
  cases f with
  | zero => exact ⟨ch0, rfl⟩
  | succ f => exact ⟨_, rfl⟩

theorem simplifyF_notSpecial (st : FState D R) (f j : ℕ)
    (hwf : wfFAt (j + 1) (zeroPos D) st.tree = true) :
    (simplifyF f st).tree.isSpecialLink = false := by
  rcases ht : st.tree with _ | off | ⟨c0, d0, n0⟩ | ⟨c0, r0, ch0⟩
  · rw [ht, wfFAt_null] at hwf; cases hwf
  · rw [ht, wfFAt_special] at hwf; cases hwf
  · rw [ht, wfFAt_leaf_iff] at hwf; omega
  rw [simplifyF]
  split
  · rw [ht]; rfl
  · show (simplifyTreeF st.minSpec st.maxSpec f
      (recountBelowF st.minSpec st.maxSpec f st.tree (fun _ => 0, 0)).1
      (st.tabSpecObj, st.minVal, st.maxVal)).1.isSpecialLink = false
    rw [ht]
    obtain ⟨ch', hsh⟩ := recountBelowF_node_shape st.minSpec st.maxSpec f
      c0 r0 ch0 (fun _ => 0, 0)
    rw [hsh]
    exact simplifyTreeF_notSpecial _ _ _ _ _ _ _

end FactorPreserve

section ClaimTheorems

/-- Claim C1 (amended) — `Grid_factor::serialize` does NOT run `simplify()`
before writing (the call is commented out in the source), so the archive
records the tree as-is.  If `simplify()` is called explicitly before
saving, the archive's tree is maximally collapsed: reloading the archive
yields a tree containing no leaf homogeneous in a special value of the
special range. -/
theorem serialize_after_simplify {D R : ℕ} {st st0 : FState D R}
    {NB szT f j : ℕ}
    (hf : heightF st.tree < f) (hj : j + 1 < f)
    (hwf : wfFAt (j + 1) (zeroPos D) st.tree = true)
    (hnb : st.maxSpec - st.minSpec + 1 ≤ (NB : ℤ)) :
    ∃ st2, loadF NB szT f (serializeF szT (simplifyF f st)) st0
        = (true, st2) ∧
      noHomSpecLeaf st2.minSpec st2.maxSpec st2.tree = true := by
  have hms := simplifyF_fields st f
  have hh : heightF (simplifyF f st).tree < f :=
    lt_of_le_of_lt (simplifyF_height st f j hf hwf) hj
  have hroot := simplifyF_notSpecial st f j hwf
  obtain ⟨st2, hload, hrmin, hrmax, hmins, hmaxs, hcd, hcc, hvals⟩ :=
    loadF_ser NB szT (simplifyF f st) st0 f hh
      (by rw [hms.1, hms.2]; exact hnb) hroot
  refine ⟨st2, hload, ?_⟩
  rw [hmins, hmaxs, hms.1, hms.2]
  rw [← noHomSpecLeaf_clearCounts st.minSpec st.maxSpec st2.tree, hcc,
    noHomSpecLeaf_clearCounts]
  exact simplifyF_noHom st f hf

theorem serialize_after_simplify_witness :
    ∃ st2, loadF 4 8 3 (serializeF 8 (simplifyF 3 c4St))
        (freshF 1 2 0 (-1) true) = (true, st2) ∧
      noHomSpecLeaf st2.minSpec st2.maxSpec st2.tree = true :=
  @serialize_after_simplify 1 2 c4St (freshF 1 2 0 (-1) true) 4 8 3 0
    (by decide) (by decide) (by decide) (by decide)

/-- Claim C1, counterexample to the claim as stated: `c1St` is a grid
obtained through the public API (`load`); its tree holds a homogeneous
special leaf, and `serialize` — which does not run `simplify()` — produces
an archive that still describes that homogeneous leaf (deserializing the
produced archive exhibits it). -/
theorem serialize_without_simplify_cx :
    (loadF (D := 1) (R := 2) 4 8 3 c1Arch (freshF 1 2 0 3 true)).1
      = true ∧
    hasHomSpecLeaf c1St.minSpec c1St.maxSpec c1St.tree = true ∧
    deserializeF 4 8 3 (serializeF 8 c1St) = some c1St2 ∧
    hasHomSpecLeaf c1St2.minSpec c1St2.maxSpec c1St2.tree = true := by
  refine ⟨by decide, by decide, ?_, by decide⟩
  rfl

/-- Claim C3 (amended) — save/load round-trip.  A `Grid_basic` archive
loaded into a fresh container of the same `(D, R, sizeof(T))` reproduces
ranges, flags and every stored payload value.  A `Grid_factor` archive
does the same (including the special range) provided the loading
container's `NB_SPECIAL` is at least the archived special RANGE
`maxSpec - minSpec + 1` — not merely the number of special values actually
present, as the claim states. -/
theorem save_load_roundtrip :
    (∀ (D R szT : ℕ) (A : Type) (inst : Inhabited A)
      (st st0 : BState D R A) (f : ℕ), heightB st.tree < f →
      ∃ st', @loadB D R A inst szT f (serializeB szT st) st0
          = (true, st') ∧
        st'.rangemin = st.rangemin ∧ st'.rangemax = st.rangemax ∧
        st'.callDtors = st.callDtors ∧
        ∀ p, (readPay st'.tree p).map Prod.snd
          = (readPay st.tree p).map Prod.snd) ∧
    (∀ (D R NB szT : ℕ) (st st0 : FState D R) (f : ℕ),
      heightF st.tree < f → st.maxSpec - st.minSpec + 1 ≤ (NB : ℤ) →
      st.tree.isSpecialLink = false →
      ∃ st', loadF NB szT f (serializeF szT st) st0 = (true, st') ∧
        st'.rangemin = st.rangemin ∧ st'.rangemax = st.rangemax ∧
        st'.minSpec = st.minSpec ∧ st'.maxSpec = st.maxSpec ∧
        st'.callDtors = st.callDtors ∧
        clearCounts st'.tree = clearCounts st.tree ∧
        ∀ p, valueAtF st'.minSpec st'.tree p
          = valueAtF st.minSpec st.tree p) :=
  ⟨fun D R szT A inst st st0 f hf =>
      @loadB_ser D R A inst szT st st0 f hf,
   fun D R NB szT st st0 f hf hnb hroot =>
      loadF_ser NB szT st st0 f hf hnb hroot⟩

theorem save_load_roundtrip_witness :
    (∃ st', loadB 8 3 (serializeB 8 wSt1) wSt0 = (true, st') ∧
      st'.rangemin = wSt1.rangemin ∧ st'.rangemax = wSt1.rangemax ∧
      st'.callDtors = wSt1.callDtors ∧
      ∀ p, (readPay st'.tree p).map Prod.snd
        = (readPay wSt1.tree p).map Prod.snd) ∧
    (∃ st', loadF 4 8 3 (serializeF 8 c5St) (freshF 1 2 0 (-1) true)
        = (true, st') ∧
      st'.rangemin = c5St.rangemin ∧ st'.rangemax = c5St.rangemax ∧
      st'.minSpec = c5St.minSpec ∧ st'.maxSpec = c5St.maxSpec ∧
      st'.callDtors = c5St.callDtors ∧
      clearCounts st'.tree = clearCounts c5St.tree ∧
      ∀ p, valueAtF st'.minSpec st'.tree p
        = valueAtF c5St.minSpec c5St.tree p) :=
  ⟨save_load_roundtrip.1 1 2 8 ℤ inferInstance wSt1 wSt0 3 (by decide),
   save_load_roundtrip.2 1 2 4 8 c5St (freshF 1 2 0 (-1) true) 3
     (by decide) (by decide) (by decide)⟩

/-- Claim C3, counterexample to "any NB_SPECIAL at least the number of
special values actually present": `c3Bad` has special range `[0, 1]`
(width 2) but only one special value present; loading its archive with
`NB_SPECIAL = 1` (which is at least the 1 value present) fails, because
`deserialize` compares `NB_SPECIAL` against `_specialRange()` =
`maxSpec - minSpec + 1`; with `NB_SPECIAL = 2` it succeeds. -/
theorem roundtrip_nbspecial_cx :
    countPresent c3Bad.tabSpecObj
      (c3Bad.maxSpec - c3Bad.minSpec + 1).toNat = 1 ∧
    (loadF (D := 1) (R := 2) 1 8 3 (serializeF 8 c3Bad)
      (freshF 1 2 0 (-1) true)).1 = false ∧
    (loadF (D := 1) (R := 2) 2 8 3 (serializeF 8 c3Bad)
      (freshF 1 2 0 (-1) true)).1 = true :=
  ⟨by decide, by decide, by decide⟩

/-- Claim C4 — homogeneity invariant: with a non-empty special range,
right after `simplify()` no leaf remains whose `(2R+1)^D` slots all hold
the same special value (every such leaf has been factorized into a special
link), and the stored value at every position of the root's span is
unchanged. -/
theorem simplify_no_homogeneous_leaf {D R : ℕ} {st : FState D R} {f j : ℕ}
    (hsp : st.minSpec ≤ st.maxSpec) (hf : heightF st.tree < f)
    (hwf : wfFAt (j + 1) (zeroPos D) st.tree = true) :
    noHomSpecLeaf st.minSpec st.maxSpec (simplifyF f st).tree = true ∧
    ∀ p, nodeContains (zeroPos D) (radSeq R j) p = true →
      valueAtF st.minSpec (simplifyF f st).tree p
        = valueAtF st.minSpec st.tree p :=
  ⟨simplifyF_noHom st f hf, fun p hp => simplifyF_val st f j hf hwf p hp⟩

theorem simplify_no_homogeneous_leaf_witness :
    noHomSpecLeaf c4St.minSpec c4St.maxSpec (simplifyF 2 c4St).tree
      = true ∧
    ∀ p, nodeContains (zeroPos 1) (radSeq 2 0) p = true →
      valueAtF c4St.minSpec (simplifyF 2 c4St).tree p
        = valueAtF c4St.minSpec c4St.tree p :=
  @simplify_no_homogeneous_leaf 1 2 c4St 2 0
    (by decide) (by decide) (by decide)

/-- Claim C5 — `changeSpecialRange(newMin, newMax)` expands every special
link into concrete boxes (the expanded tree is special-free), installs the
new range, recounts and re-collapses; the observable value at every
position of the root's span is preserved. -/
theorem changeSpecialRange_preserves_values {D R : ℕ} {st : FState D R}
    {f j : ℕ} (nmin nmax : ℤ) (hf : j + 1 < f)
    (hwf : wfFAt (j + 1) (zeroPos D) st.tree = true) :
    (changeSpecialRangeF f nmin nmax st).minSpec = nmin ∧
    (changeSpecialRangeF f nmin nmax st).maxSpec = nmax ∧
    specialFree (expandBelowNodeF st.minSpec st.maxSpec f st.tree) = true ∧
    ∀ p, nodeContains (zeroPos D) (radSeq R j) p = true →
      valueAtF nmin (changeSpecialRangeF f nmin nmax st).tree p
        = valueAtF st.minSpec st.tree p :=
  changeSpecialRangeF_main nmin nmax st f j hf hwf

theorem changeSpecialRange_preserves_values_witness :
    (changeSpecialRangeF 2 10 12 c5St).minSpec = 10 ∧
    (changeSpecialRangeF 2 10 12 c5St).maxSpec = 12 ∧
    specialFree (expandBelowNodeF c5St.minSpec c5St.maxSpec 2 c5St.tree)
      = true ∧
    ∀ p, nodeContains (zeroPos 1) (radSeq 2 0) p = true →
      valueAtF 10 (changeSpecialRangeF 2 10 12 c5St).tree p
        = valueAtF c5St.minSpec c5St.tree p :=
  @changeSpecialRange_preserves_values 1 2 c5St 2 0 10 12
    (by decide) (by decide)

/-- Claim C6 — `findFullBox(pos, boxMin, boxMax)` (walked from the root):
the reported closed box `[boxMin, boxMax]` always contains `pos`; on a miss
(null slot or root not containing `pos`) it is the singleton `{pos}`; on a
hit, every coordinate of the reported box stores the returned value (in the
special-link case the box is the collapsed sub-box's full span, by
construction of the embedding). -/
theorem findFullBox_span {D R : ℕ} {mins : ℤ} {f j : ℕ} {t : FBox D R}
    {p : Pos D} {res : Option ℤ} {bmin bmax : Pos D}
    (hwf : wfFAt (j + 1) (zeroPos D) t = true)
    (h : findFullBoxF mins f t p = some (res, bmin, bmax)) :
    (∀ i, bmin i ≤ p i ∧ p i ≤ bmax i) ∧
    (res = none → bmin = p ∧ bmax = p) ∧
    ∀ v, res = some v → ∀ q, (∀ i, bmin i ≤ q i ∧ q i ≤ bmax i) →
      valueAtF mins t q = some v := by
  rcases ht : t with _ | off | ⟨c0, d0, n0⟩ | ⟨c0, r0, ch0⟩
  · rw [ht] at h
    cases h
  · rw [ht] at h
    cases h
  · rw [ht, wfFAt_leaf_iff] at hwf
    omega
  rw [ht] at hwf h
  obtain ⟨hc0, hr0, _⟩ := wfFAt_node_iff.mp hwf
  rw [← hc0] at hwf
  rw [findFullBoxF] at h
  by_cases hcont : nodeContains c0 r0 p = true
  · rw [if_pos hcont] at h
    have hcont' : nodeContains c0 (radSeq R j) p = true := by
      rw [← hr0]
      exact hcont
    obtain ⟨hin, hbox, hmiss, hhit⟩ :=
      findDownF_main mins f j c0 r0 ch0 p (res, bmin, bmax) hwf hcont' h
    exact ⟨hin, hmiss, hhit⟩
  · rw [if_neg hcont] at h
    have h' := Option.some_inj.mp h
    have h1 : (none : Option ℤ) = res := congrArg Prod.fst h'
    have h2 : p = bmin := congrArg (fun z => z.2.1) h'
    have h3 : p = bmax := congrArg (fun z => z.2.2) h'
    refine ⟨?_, fun _ => ⟨h2.symm, h3.symm⟩, ?_⟩
    · intro i
      rw [← h2, ← h3]
      exact ⟨le_refl _, le_refl _⟩
    · intro v hv
      rw [← h1] at hv
      cases hv

theorem findFullBox_span_witness :
    (∀ i, c6Bmin i ≤ c6P i ∧ c6P i ≤ c6Bmax i) ∧
    ((some 6 : Option ℤ) = none → c6Bmin = c6P ∧ c6Bmax = c6P) ∧
    ∀ v, (some 6 : Option ℤ) = some v →
      ∀ q, (∀ i, c6Bmin i ≤ q i ∧ q i ≤ c6Bmax i) →
        valueAtF 5 c6T q = some v :=
  @findFullBox_span 1 2 5 2 0 c6T c6P (some 6) c6Bmin c6Bmax
    (by decide) (by rfl)

/-- Claim C7 — code bug: the source of `Grid_factor::maxValue()` returns
the `_minVal` field (`inline int64 maxValue() const { return _minVal; }`),
not the tracked maximum `_maxVal`.  On the grid loaded from `c7Arch`
(values `2` and `5`), `maxValue()` answers `2` while the tracked maximum
of all values ever created is `5`. -/
theorem maxValue_returns_minVal :
    (∀ (D R : ℕ) (st : FState D R), maxValueF st = st.minVal) ∧
    c7Ld.1 = true ∧
    maxValueF c7Ld.2 = 2 ∧
    c7Ld.2.maxVal = 5 ∧
    maxValueF c7Ld.2 ≠ c7Ld.2.maxVal :=
  ⟨fun D R st => rfl, by decide, by decide, by decide, by decide⟩

/-- Claim C8 — `load` hard-fails (returns `false` and resets to a valid
empty grid) whenever the archive's version, `D`, `R` or `sizeof(T)`
mismatch: for `Grid_basic` additionally when the archive declares a
non-empty special range (`minSpec ≤ maxSpec`), for `Grid_factor`
additionally when the archived special range exceeds `NB_SPECIAL`; and
`load` answers `true` only when deserialization completed fully. -/
theorem load_mismatch_fails :
    (∀ (D R szT fuel : ℕ) (A : Type) (inst : Inhabited A)
      (ver d r sz : ℕ) (cd : Bool) (rmin rmax : Pos D) (mins maxs : ℤ)
      (rest : List (Tok D A)) (st : BState D R A),
      ¬(ver = 1 ∧ d = D ∧ r = R ∧ sz = szT ∧ maxs < mins) →
      @loadB D R A inst szT fuel
        (.u64 ver :: .u64 d :: .u64 r :: .str :: .u64 sz :: .b cd ::
          .pos rmin :: .pos rmax :: .i64 mins :: .i64 maxs :: rest) st
        = (false, freshB D R A true)) ∧
    (∀ (D R NB szT fuel : ℕ) (ver d r sz : ℕ) (cd : Bool)
      (rmin rmax : Pos D) (mins maxs : ℤ) (rest : List (Tok D ℤ))
      (st : FState D R),
      ¬(ver = 1 ∧ d = D ∧ r = R ∧ sz = szT ∧
          maxs - mins + 1 ≤ (NB : ℤ)) →
      loadF NB szT fuel
        (.u64 ver :: .u64 d :: .u64 r :: .str :: .u64 sz :: .b cd ::
          .pos rmin :: .pos rmax :: .i64 mins :: .i64 maxs :: rest) st
        = (false, freshF D R 0 (-1) true)) ∧
    (∀ (D R szT fuel : ℕ) (A : Type) (inst : Inhabited A)
      (toks : List (Tok D A)) (st st2 : BState D R A),
      @loadB D R A inst szT fuel toks st = (true, st2) →
      @deserializeB D R A inst szT fuel toks = some st2) := by
  refine ⟨?_, ?_, ?_⟩
  · intro D R szT fuel A inst ver d r sz cd rmin rmax mins maxs rest st h
    have hdes : @deserializeB D R A inst szT fuel
        (.u64 ver :: .u64 d :: .u64 r :: .str :: .u64 sz :: .b cd ::
          .pos rmin :: .pos rmax :: .i64 mins :: .i64 maxs :: rest)
        = none := by
      show (if ver = 1 ∧ d = D ∧ r = R ∧ sz = szT ∧ maxs < mins then
          (parseTreeB fuel 0 rest).map (fun x =>
            ({ tree := x.1, nextId := x.2.1, rangemin := rmin,
               rangemax := rmax, callDtors := cd } : BState D R A))
        else none) = none
      rw [if_neg h]
    rw [loadB, hdes]
  · intro D R NB szT fuel ver d r sz cd rmin rmax mins maxs rest st h
    have hdes : deserializeF (D := D) (R := R) NB szT fuel
        (.u64 ver :: .u64 d :: .u64 r :: .str :: .u64 sz :: .b cd ::
          .pos rmin :: .pos rmax :: .i64 mins :: .i64 maxs :: rest)
        = none := by
      show (if ver = 1 ∧ d = D ∧ r = R ∧ sz = szT ∧
            maxs - mins + 1 ≤ (NB : ℤ) then
          (parseSpecials (maxs - mins + 1).toNat 0 (fun _ => false)
              rest).bind (fun ps =>
            (parseTreeF mins maxs fuel none
                { tnb := fun _ => 0, nn := 0, mn := int64Max,
                  mx := int64Min } ps.2).map (fun z =>
              ({ tree := z.1, rangemin := rmin, rangemax := rmax,
                 minVal := z.2.1.mn, maxVal := z.2.1.mx,
                 minSpec := mins, maxSpec := maxs, tabSpecObj := ps.1,
                 tabSpecNB := z.2.1.tnb, nbNormalObj := z.2.1.nn,
                 callDtors := cd } : FState D R)))
        else none) = none
      rw [if_neg h]
    rw [loadF, hdes]
  · intro D R szT fuel A inst toks st st2 h
    rw [loadB] at h
    rcases hd : @deserializeB D R A inst szT fuel toks with _ | st3
    · rw [hd] at h
      simp at h
    · rw [hd] at h
      exact congrArg some (congrArg Prod.snd h)

theorem load_mismatch_fails_witness :
    (loadB 8 5 (.u64 1 :: .u64 2 :: .u64 2 :: .str :: .u64 8 :: .b true ::
        .pos (zeroPos 1) :: .pos (zeroPos 1) :: .i64 0 :: .i64 (-1) :: [])
        (freshB 1 2 ℤ false)
      = (false, freshB 1 2 ℤ true)) ∧
    (loadF (D := 1) (R := 2) 4 8 5
        (.u64 1 :: .u64 1 :: .u64 3 :: .str :: .u64 8 :: .b true ::
          .pos (zeroPos 1) :: .pos (zeroPos 1) :: .i64 0 :: .i64 (-1) :: [])
        (freshF 1 2 0 3 false)
      = (false, freshF 1 2 0 (-1) true)) ∧
    deserializeB 8 3 c8Toks = some c8St :=
  ⟨load_mismatch_fails.1 1 2 8 5 ℤ inferInstance 1 2 2 8 true (zeroPos 1)
      (zeroPos 1) 0 (-1) [] (freshB 1 2 ℤ false) (by decide),
   load_mismatch_fails.2.1 1 2 4 8 5 1 1 3 8 true (zeroPos 1)
      (zeroPos 1) 0 (-1) [] (freshF 1 2 0 3 false) (by decide),
   load_mismatch_fails.2.2 1 2 8 3 ℤ inferInstance c8Toks
      (freshB 1 2 ℤ false) c8St (by rfl)⟩

/-- Claim C10 — after any failed `load`, `_callDtors` is left `true`
regardless of its previous value (both containers), and `Grid_factor`
additionally resets the special range to the empty range `(0, -1)`
(`reset(0, -1, true)` in the catch handler). -/
theorem failed_load_callDtors :
    (∀ (D R szT fuel : ℕ) (A : Type) (inst : Inhabited A)
      (toks : List (Tok D A)) (st : BState D R A),
      (@loadB D R A inst szT fuel toks st).1 = false →
      (@loadB D R A inst szT fuel toks st).2 = freshB D R A true) ∧
    (∀ (D R NB szT fuel : ℕ) (toks : List (Tok D ℤ)) (st : FState D R),
      (loadF (D := D) (R := R) NB szT fuel toks st).1 = false →
      (loadF (D := D) (R := R) NB szT fuel toks st).2.callDtors = true ∧
      (loadF (D := D) (R := R) NB szT fuel toks st).2.minSpec = 0 ∧
      (loadF (D := D) (R := R) NB szT fuel toks st).2.maxSpec = -1) := by
  constructor
  · intro D R szT fuel A inst toks st h
    rw [loadB] at h ⊢
    rcases hd : @deserializeB D R A inst szT fuel toks with _ | st3
    · rfl
    · rw [hd] at h
      simp at h
  · intro D R NB szT fuel toks st h
    rw [loadF] at h ⊢
    rcases hd : deserializeF (D := D) (R := R) NB szT fuel toks
        with _ | st3
    · exact ⟨rfl, rfl, rfl⟩
    · rw [hd] at h
      simp at h

theorem failed_load_callDtors_witness :
    ((loadB 8 5 ([] : List (Tok 1 ℤ)) (freshB 1 2 ℤ false)).2
      = freshB 1 2 ℤ true) ∧
    ((loadF (D := 1) (R := 2) 4 8 5 ([] : List (Tok 1 ℤ))
        (freshF 1 2 0 3 false)).2.callDtors = true ∧
      (loadF (D := 1) (R := 2) 4 8 5 ([] : List (Tok 1 ℤ))
        (freshF 1 2 0 3 false)).2.minSpec = 0 ∧
      (loadF (D := 1) (R := 2) 4 8 5 ([] : List (Tok 1 ℤ))
        (freshF 1 2 0 3 false)).2.maxSpec = -1) :=
  ⟨failed_load_callDtors.1 1 2 8 5 ℤ inferInstance []
      (freshB 1 2 ℤ false) (by rfl),
   failed_load_callDtors.2 1 2 4 8 5 [] (freshF 1 2 0 3 false) (by rfl)⟩

end ClaimTheorems

end Mtools
